import Mathlib

/-!
# ChASE: degree adaptation, locking and the solve loop

A shallow embedding of `src/algorithm/ChASE_Algorithm_impl.hpp`.

* C++ arrays handed over as pointers are lists; entry `i` of the list is
  `ptr[i]`.
* `Base<T>` values (Ritz values, residuals, tolerance) enter `locking` and the
  solve loop only through `<`, `>` and `std::min`; they are elements of an
  arbitrary linear order `α` (NaN excluded).
* `std::size_t` arithmetic that can wrap is taken modulo `2^64`.
* The search space is a list of columns; a column is an abstract value.
-/

namespace ChASE

/-- The number of values of a `std::size_t` (64-bit). -/
def sizeMod : Nat := 18446744073709551616

/-- Unsigned `a + b` on `std::size_t`. -/
def uadd (a b : Nat) : Nat := (a + b) % sizeMod

/-- Unsigned `a - b` on `std::size_t`. -/
def usub (a b : Nat) : Nat := (a % sizeMod + sizeMod - b % sizeMod) % sizeMod

/-- `swap_kj(k, j, array)` (lines 11-16): `tmp = array[k]; array[k] = array[j];
array[j] = tmp`.  An index outside the list (undefined behaviour in the source)
leaves the list as it is. -/
def swap_kj {β : Type} (k j : Nat) (array : List β) : List β :=
  match array[k]?, array[j]? with
  | some tmp, some aj => (array.set k aj).set j tmp
  | _, _ => array

/-- Modelled from the spec: the solver-facing `ChASE<T>::swap(i, j)` is declared
outside the sources at hand; it exchanges the two absolute search-space columns
`i` and `j`, which is what `ChaseMpiDLA::Swap(i, j)` (chase_mpidla.hpp:1113-1126,
three `memcpy`s of the `m_` entries of a column) does and how the final sort of
`solve` uses it. -/
def swap {γ : Type} (i j : Nat) (cols : List γ) : List γ :=
  swap_kj i j cols

/-- The arrays `locking` works on, together with its running count. -/
structure LockState (α γ : Type) where
  /-- The residuals `resid[0..]`. -/
  resid : List α
  /-- The previous residuals `residLast[0..]`. -/
  residLast : List α
  /-- The Ritz values `Lritzv[0..]`. -/
  Lritzv : List α
  /-- The degree array `degrees[0..]` (a parameter the body never touches). -/
  degrees : List Nat
  /-- The search-space columns, indexed absolutely. -/
  cols : List γ
  /-- The local `converged`. -/
  converged : Nat
deriving DecidableEq, Repr

/-- The comparator of the sort in `locking` (line 93): `Lritzv[a] < Lritzv[b]`. -/
def ritzLess {α : Type} [LinearOrder α] (Lritzv : List α) (a b : Nat) : Bool :=
  match Lritzv[a]?, Lritzv[b]? with
  | some x, some y => decide (x < y)
  | _, _ => false

/-- The index array of `locking` (lines 88-93): `0..unconverged-1` sorted with
the comparator `Lritzv[a] < Lritzv[b]`.  `std::sort` leaves the order of entries
with equal keys open; this model keeps them in place (insertion sort). -/
def sortIndex {α : Type} [LinearOrder α] (unconverged : Nat) (Lritzv : List α) : List Nat :=
  (List.range unconverged).insertionSort (fun a b => ritzLess Lritzv b a = false)

/-- One pass of the loop body of `locking` (lines 97-119) for `j = index[k]`;
`none` is the `break` of line 101. -/
def lockingStep {α γ : Type} [LinearOrder α] (tol : α) (j : Nat) (s : LockState α γ) :
    Option (LockState α γ) :=
  match s.resid[j]?, s.residLast[j]? with
  | some r, some rl =>
    if tol < r ∧ r < rl then none
    else
      let s1 : LockState α γ :=
        if j ≠ s.converged then
          { s with
            resid := swap_kj j s.converged s.resid
            residLast := swap_kj j s.converged s.residLast
            Lritzv := swap_kj j s.converged s.Lritzv
            cols := swap j s.converged s.cols }
        else s
      some { s1 with converged := s1.converged + 1 }
  | _, _ => none

/-- The loop of `locking` (lines 96-120) over the remaining entries
`index[k], index[k+1], ...` of the index array. -/
def lockingWalk {α γ : Type} [LinearOrder α] (tol : α) :
    List Nat → LockState α γ → LockState α γ
  | [], s => s
  | j :: rest, s =>
    match lockingStep tol j s with
    | none => s
    | some s1 => lockingWalk tol rest s1

/-- `ChASE_Algorithm<T>::locking` (lines 80-122).  The result carries the arrays
as the call leaves them and the returned count in `converged`. -/
def locking {α γ : Type} [LinearOrder α] (unconverged : Nat) (tol : α)
    (Lritzv resid residLast : List α) (degrees : List Nat) (cols : List γ)
    ( locked : Nat) : LockState α γ :=
  lockingWalk tol (sortIndex unconverged Lritzv)
    { resid := resid, residLast := residLast, Lritzv := Lritzv, degrees := degrees,
      cols := cols, converged := 0 }

/-- The values the getters of `ChASE_Config<T>` return.  The class is declared
outside the sources at hand, so the values are parameters. -/
structure ChASE_Config (α : Type) where
  /-- The value of `getTol()`. -/
  tol : α
  /-- The value of `getDeg()`. -/
  deg : Nat
  /-- The configured minimal degree (never read by the algorithm file). -/
  minDeg : Nat
  /-- The value of `getMaxDeg()`. -/
  maxDeg : Nat
  /-- The value of `getDegExtra()`. -/
  degExtra : Nat
  /-- The value of `getMaxIter()`. -/
  maxIter : Nat
  /-- The value of `do_optimization()`. -/
  optimization : Bool
deriving DecidableEq, Repr

/-- The arrays `calc_degrees` works on. -/
structure DegState (α γ : Type) where
  /-- The degree array `degrees[0..]`. -/
  degrees : List Nat
  /-- The Ritz values `ritzv[0..]`. -/
  ritzv : List α
  /-- The residuals `resid[0..]`. -/
  resid : List α
  /-- The search-space columns, indexed absolutely. -/
  cols : List γ
deriving DecidableEq, Repr

/-- A counting loop `for (i = lo; i < hi; ++i) body`. -/
def forRange {σ : Type} (lo hi : Nat) (body : Nat → σ → σ) (s : σ) : σ :=
  (List.range' lo (hi - lo)).foldl (fun acc i => body i acc) s

/-- Lines 51-56 for slot `i`.  The parameter `est` stands for the floating-point
expression `std::ceil(std::abs(std::log(resid[i] / tol) / std::log(rho)))` of
line 55, as a function of `ritzv[i]` and `resid[i]` (the bounds and `tol` are
fixed during a call); line 56 adds the extra degree and caps at `getMaxDeg()`. -/
def degreeSlot {α : Type} (est : α → α → Nat) (conf : ChASE_Config α)
    (ritzv resid : List α) (i : Nat) (degrees : List Nat) : List Nat :=
  match ritzv[i]?, resid[i]? with
  | some t, some r => degrees.set i (min (uadd (est t r) conf.degExtra) conf.maxDeg)
  | _, _ => degrees

/-- Lines 59-61 for slot `i`: `degrees[i] = degrees[unconverged - 1 - nex]`. -/
def copySlot (unconverged nex : Nat) (i : Nat) (degrees : List Nat) : List Nat :=
  match degrees[unconverged - 1 - nex]? with
  | some d => degrees.set i d
  | none => degrees

/-- Lines 63-65 for slot `i`: `degrees[i] += degrees[i] % 2`. -/
def evenSlot (i : Nat) (degrees : List Nat) : List Nat :=
  match degrees[i]? with
  | some d => degrees.set i (uadd d (d % 2))
  | none => degrees

/-- The degrees as lines 50-65 leave them, before the sort. -/
def computedDegrees {α : Type} (est : α → α → Nat) (conf : ChASE_Config α)
    (unconverged nex : Nat) (ritzv resid : List α) (degrees : List Nat) : List Nat :=
  let d1 := forRange 0 (unconverged - nex) (degreeSlot est conf ritzv resid) degrees
  let d2 := forRange (unconverged - nex) unconverged (copySlot unconverged nex) d1
  forRange 0 unconverged evenSlot d2

/-- Lines 70-75: the body of the inner sort loop of `calc_degrees`. -/
def sortStep {α γ : Type} ( locked j k : Nat) (s : DegState α γ) : DegState α γ :=
  match s.degrees[k]?, s.degrees[j]? with
  | some dk, some dj =>
    if dk < dj then
      { degrees := swap_kj k j s.degrees
        ritzv := swap_kj k j s.ritzv
        resid := swap_kj k j s.resid
        cols := swap (k + locked) (j + locked) s.cols }
    else s
  | _, _ => s

/-- Lines 68-75: the two nested sort loops of `calc_degrees`. -/
def sortByDegree {α γ : Type} (unconverged locked : Nat) (s : DegState α γ) : DegState α γ :=
  forRange 0 (unconverged - 1)
    (fun j acc => forRange j unconverged (fun k acc1 => sortStep locked j k acc1) acc) s

/-- `ChASE_Algorithm<T>::calc_degrees` (lines 18-78): the returned degree and the
arrays as the call leaves them.  The source needs `nex < unconverged` (else
`unconverged - 1 - nex` wraps and is read out of bounds); the subtractions here
are exact under that condition. -/
def calc_degrees {α γ : Type} (est : α → α → Nat) (conf : ChASE_Config α)
    (unconverged nex : Nat) (ritzv resid : List α) (degrees : List Nat)
    (cols : List γ) ( locked : Nat) : Nat × DegState α γ :=
  let d := computedDegrees est conf unconverged nex ritzv resid degrees
  let s := sortByDegree unconverged locked
    { degrees := d, ritzv := ritzv, resid := resid, cols := cols }
  (s.degrees.getD (unconverged - 1) 0, s)

/-- The variables of `solve` (lines 334-512) that live across loop iterations.
The pointers `ritzv`, `resid`, `residLast` and `degrees` of the source are the
base arrays advanced by the sum of all `new_converged` so far, which is the
value of `locked`. -/
structure SolveState (α γ : Type) where
  /-- The caller's array `ritzv_`. -/
  ritzv_ : List α
  /-- The array `resid_`. -/
  resid_ : List α
  /-- The array `residLast_`. -/
  residLast_ : List α
  /-- The array `degrees_`. -/
  degrees_ : List Nat
  /-- The search-space columns. -/
  cols : List γ
  /-- The local `locked`. -/
  locked : Nat
  /-- The local `unconverged`. -/
  unconverged : Nat
  /-- The local `iteration`. -/
  iteration : Nat
  /-- The local `deg`. -/
  deg : Nat
  /-- The local `lowerb`. -/
  lowerb : α
  /-- The local `upperb`. -/
  upperb : α
  /-- The local `lambda`. -/
  lambda : α
deriving DecidableEq, Repr

/-- What the numerical steps of one iteration deliver.  `filter`, `QR`, `RR` and
`resd` run on the backend; every field is a function of the state at the point
of the call, so that any behaviour of these steps is an instance. -/
structure Numerics (α γ : Type) where
  /-- The value of the expression of line 55 inside `calc_degrees`. -/
  est : SolveState α γ → α → α → Nat
  /-- The search space after `filter`, `QR` and `RR` (lines 456-468). -/
  filterQRRR : SolveState α γ → List γ
  /-- The Ritz value `RR` writes to `ritzv[i]` (line 468). -/
  RR : SolveState α γ → Nat → α
  /-- The residual `resd` writes to `resid[i]` (line 476). -/
  resd : SolveState α γ → Nat → α

/-- Applies `f` to the part of an array that starts at pointer offset `off`. -/
def atOffset {β : Type} (off : Nat) (f : List β → List β) (a : List β) : List β :=
  a.take off ++ f (a.drop off)

/-- The value `*std::min_element(first, last)` over a non-empty range. -/
def minElement {α : Type} [LinearOrder α] (l : List α) (dflt : α) : α :=
  match l with
  | [] => dflt
  | x :: xs => xs.foldl min x

/-- The value `*std::max_element(first, last)` over a non-empty range. -/
def maxElement {α : Type} [LinearOrder α] (l : List α) (dflt : α) : α :=
  match l with
  | [] => dflt
  | x :: xs => xs.foldl max x

/-- The loop condition of `solve` (line 400). -/
def solveCond {α γ : Type} (conf : ChASE_Config α) (nex : Nat) (s : SolveState α γ) : Bool :=
  decide (nex < s.unconverged) && decide (s.iteration < conf.maxIter)

/-- Lines 401-426: the update of `lambda` and `lowerb` at the top of the body. -/
def solveBounds {α γ : Type} [LinearOrder α] (nevex DoSVectors : Nat)
    (s : SolveState α γ) : SolveState α γ :=
  let s1 :=
    if s.unconverged < usub nevex DoSVectors ∨ s.iteration = 0 then
      { s with
        lambda := minElement (s.ritzv_.take nevex) s.lambda
        lowerb := maxElement ((s.ritzv_.drop s.locked).take s.unconverged) s.lowerb }
    else s
  if s1.upperb < s1.lowerb then { s1 with lowerb := s1.upperb } else s1

/-- Lines 429-434: the call of `calc_degrees` when optimization is on and this
is not the first iteration. -/
def solveDegrees {α γ : Type} (N : Numerics α γ) (conf : ChASE_Config α) (nex : Nat)
    (s : SolveState α γ) : SolveState α γ :=
  if conf.optimization = true ∧ s.iteration ≠ 0 then
    let r := calc_degrees (N.est s) conf s.unconverged nex (s.ritzv_.drop s.locked)
      (s.resid_.drop s.locked) (s.degrees_.drop s.locked) s.cols s.locked
    { s with
      deg := r.1
      degrees_ := s.degrees_.take s.locked ++ r.2.degrees
      ritzv_ := s.ritzv_.take s.locked ++ r.2.ritzv
      resid_ := s.resid_.take s.locked ++ r.2.resid
      cols := r.2.cols }
  else s

/-- Lines 456-476: filter, QR and Rayleigh-Ritz replace the search space and the
unconverged Ritz values; `residLast[i] = min(residLast[i], resid[i])` for
`i < unconverged`; then `resd` writes the new residuals. -/
def solveNumerics {α γ : Type} [LinearOrder α] (N : Numerics α γ)
    (s : SolveState α γ) : SolveState α γ :=
  let s1 : SolveState α γ :=
    { s with
      cols := N.filterQRRR s
      ritzv_ := atOffset s.locked
        (forRange 0 s.unconverged (fun i a => a.set i (N.RR s i))) s.ritzv_ }
  let s2 : SolveState α γ :=
    { s1 with
      residLast_ := atOffset s1.locked
        (forRange 0 s1.unconverged (fun i a =>
          match a[i]?, (s1.resid_.drop s1.locked)[i]? with
          | some x, some y => a.set i (min x y)
          | _, _ => a)) s1.residLast_ }
  { s2 with
    resid_ := atOffset s2.locked
      (forRange 0 s2.unconverged (fun i a => a.set i (N.resd s2 i))) s2.resid_ }

/-- Lines 478-494: the call of `locking` and the update of the counters and
pointers. -/
def solveLock {α γ : Type} [LinearOrder α] (tol : α) (s : SolveState α γ) : SolveState α γ :=
  let r := locking s.unconverged tol (s.ritzv_.drop s.locked) (s.resid_.drop s.locked)
    (s.residLast_.drop s.locked) (s.degrees_.drop s.locked) s.cols s.locked
  let new_converged := r.converged
  { s with
    ritzv_ := s.ritzv_.take s.locked ++ r.Lritzv
    resid_ := s.resid_.take s.locked ++ r.resid
    residLast_ := s.residLast_.take s.locked ++ r.residLast
    cols := r.cols
    locked := uadd s.locked new_converged
    unconverged := usub s.unconverged new_converged
    iteration := s.iteration + 1 }

/-- One execution of the body of the loop of `solve` (lines 401-494); `tol` is
the local `tol = tol_ * normH`. -/
def solveIter {α γ : Type} [LinearOrder α] (N : Numerics α γ) (conf : ChASE_Config α)
    (tol : α) (nevex nex DoSVectors : Nat) (s : SolveState α γ) : SolveState α γ :=
  solveLock tol (solveNumerics N (solveDegrees N conf nex (solveBounds nevex DoSVectors s)))

/-- The state of `solve` when the loop is entered (lines 352-393): `big` is
`std::numeric_limits<Base<T>>::max()`, and `ritzv_`, `upperb`, `cols` are what
`lanczos` left.  The source leaves `lambda` unset until the first pass assigns
it (line 402, `iteration == 0`); here it starts as `big`. -/
def solveInit {α γ : Type} [LinearOrder α] (conf : ChASE_Config α) (nev nex : Nat)
    (big upperb : α) (ritzv_ : List α) (cols : List γ) : SolveState α γ :=
  let nevex := uadd nev nex
  let deg := min conf.deg conf.maxDeg
  { ritzv_ := ritzv_
    resid_ := List.replicate nevex big
    residLast_ := List.replicate nevex big
    degrees_ := List.replicate nevex deg
    cols := cols
    locked := 0
    unconverged := nevex
    iteration := 0
    deg := deg
    lowerb := maxElement (ritzv_.take nevex) big
    upperb := upperb
    lambda := big }

/-- The state of `solve` after at most `t` passes through the loop: a pass is
made as long as the loop condition holds. -/
def solveAfter {α γ : Type} [LinearOrder α] (N : Numerics α γ) (conf : ChASE_Config α)
    (tol : α) (nev nex DoSVectors : Nat) (init : SolveState α γ) : Nat → SolveState α γ
  | 0 => init
  | t + 1 =>
    let s := solveAfter N conf tol nev nex DoSVectors init t
    if solveCond conf nex s then solveIter N conf tol (uadd nev nex) nex DoSVectors s else s

/-- The list `out` is `inp` rearranged by `σ`: entry `i` of `out` is entry
`σ i` of `inp`. -/
def Rearranged {β : Type} (σ : Equiv.Perm Nat) (inp out : List β) : Prop :=
  ∀ i, out[i]? = inp[σ i]?

/-- The exchange that `swap_kj j c` performs on arrays of length `len`, composed
after `σ`: nothing when an index is out of range. -/
def stepPerm (len j c : Nat) (σ : Equiv.Perm Nat) : Equiv.Perm Nat :=
  if j < len ∧ c < len then σ * Equiv.swap j c else σ

/-- The relation between the arrays `locking` was given (`R0`, `RL0`, `L0`) and
the arrays of a state of its loop: all three are rearranged by `σ`. -/
def LockInv {α γ : Type} (R0 RL0 L0 : List α) (σ : Equiv.Perm Nat)
    (s : LockState α γ) : Prop :=
  s.resid.length = R0.length ∧ s.residLast.length = R0.length ∧
  s.Lritzv.length = R0.length ∧ (∀ i, R0.length ≤ i → σ i = i) ∧
  Rearranged σ R0 s.resid ∧ Rearranged σ RL0 s.residLast ∧ Rearranged σ L0 s.Lritzv

/-- The locked prefix as the specification words it, not taken from the code:
the triples (Ritz value, residual, previous residual) in ascending order of the
Ritz value, cut at the first triple that is neither converged (residual at most
`tol`) nor stalled (residual not smaller than the previous residual). -/
def lockedPrefixSpec {α : Type} [LinearOrder α] (tol : α)
    (Lritzv resid residLast : List α) : List (α × α × α) :=
  ((Lritzv.zip (resid.zip residLast)).insertionSort (fun a b => a.1 ≤ b.1)).takeWhile
    (fun t => decide (t.2.1 ≤ tol ∨ ¬ t.2.1 < t.2.2))

/-- The value read as `degrees[i]`; 0 outside the list. -/
def degAt (degrees : List Nat) (i : Nat) : Nat :=
  (degrees[i]?).getD 0

/-- The relation between the state `s0` the sort of `calc_degrees` starts from
and a later state `s`: degrees, Ritz values and residuals are rearranged by `σ`,
a permutation of `0..n-1`, the columns `locked + i` are rearranged by the same
`σ`, and the columns below `locked` are as they were. -/
def DegInv {α γ : Type} (n locked : Nat) (s0 : DegState α γ) (σ : Equiv.Perm Nat)
    (s : DegState α γ) : Prop :=
  s.degrees.length = n ∧ s.ritzv.length = n ∧ s.resid.length = n ∧
  locked + n ≤ s.cols.length ∧ (∀ i, n ≤ i → σ i = i) ∧
  Rearranged σ s0.degrees s.degrees ∧ Rearranged σ s0.ritzv s.ritzv ∧
  Rearranged σ s0.resid s.resid ∧
  (∀ i, s.cols[locked + i]? = s0.cols[locked + σ i]?) ∧
  (∀ c, c < locked → s.cols[c]? = s0.cols[c]?)

/-- A sample backend for concrete runs of the solve loop: the raw degree is the
Ritz value, the search space is left as it is, Ritz value `i` of a pass is
`10 - i - iteration`, and the residual is 0 for the slots 0 and 1 and 5 for
the others. -/
def sampleNumerics : Numerics Int Nat where
  est := fun _ t _ => t.toNat
  filterQRRR := fun s => s.cols
  RR := fun s i => 10 - (i : Int) - (s.iteration : Int)
  resd := fun _ i => if i < 2 then 0 else 5

/-- The loop of `solve` (line 400): passes are made while the loop condition
holds.  The result is the state at exit and the number of passes made; `fuel`
bounds the number of passes of this model, the source has no such bound. -/
def solveLoop {α γ : Type} [LinearOrder α] (N : Numerics α γ) (conf : ChASE_Config α)
    (tol : α) (nevex nex DoSVectors : Nat) : Nat → SolveState α γ → SolveState α γ × Nat
  | 0, s => (s, 0)
  | fuel + 1, s =>
    if solveCond conf nex s then
      let r := solveLoop N conf tol nevex nex DoSVectors fuel
        (solveIter N conf tol nevex nex DoSVectors s)
      (r.1, r.2 + 1)
    else (s, 0)

/-- Lines 500-503: the body of the inner loop of the final sort of `solve`. -/
def finalSortStep {α γ : Type} [LinearOrder α] (i j : Nat) (s : List α × List γ) :
    List α × List γ :=
  match s.1[i]?, s.1[j]? with
  | some x, some y => if y < x then (swap_kj i j s.1, swap i j s.2) else s
  | _, _ => s

/-- Lines 498-504: the final sort of `solve` on the caller's array `ritzv_` and
the search-space columns.  The source needs `nev ≥ 1` (else `nev - 1` wraps). -/
def finalSort {α γ : Type} [LinearOrder α] (nev : Nat) (s : List α × List γ) :
    List α × List γ :=
  forRange 0 (nev - 1)
    (fun i acc => forRange (i + 1) nev (fun j acc1 => finalSortStep i j acc1) acc) s

/-- What `solve` leaves behind. -/
structure SolveResult (α γ : Type) where
  /-- The caller's array `ritzv_` on return. -/
  ritzv_ : List α
  /-- The search-space columns on return. -/
  cols : List γ
  /-- The state of the loop variables at loop exit. -/
  atExit : SolveState α γ
  /-- The number of passes through the loop. -/
  passes : Nat
  /-- The iteration count of the returned performance record. -/
  iterCount : Nat

/-- Modelled from the spec: `ChASE_PerfData` is declared outside the sources at
hand; `add_iter_count(k)` on the fresh record of line 337 leaves `k` as its
iteration count. -/
def add_iter_count (k : Nat) : Nat := k

/-- `ChASE_Algorithm<T>::solve` from the loop on (lines 400-511), started in the
state `init` that lines 339-393 set up. -/
def solveFrom {α γ : Type} [LinearOrder α] (N : Numerics α γ) (conf : ChASE_Config α)
    (tol : α) (nev nex DoSVectors : Nat) (init : SolveState α γ) : SolveResult α γ :=
  let r := solveLoop N conf tol (uadd nev nex) nex DoSVectors conf.maxIter init
  let sorted := finalSort nev (r.1.ritzv_, r.1.cols)
  { ritzv_ := sorted.1
    cols := sorted.2
    atExit := r.1
    passes := r.2
    iterCount := add_iter_count r.1.iteration }

/-- A second sample backend: Ritz value `i` is `i`, and the residual is 0 for
the slots 0, 1, 2 and 5 for the others. -/
def sampleNumerics2 : Numerics Int Nat where
  est := fun _ t _ => t.toNat
  filterQRRR := fun s => s.cols
  RR := fun _ i => (i : Int)
  resd := fun _ i => if i < 3 then 0 else 5

/-- Entry `a` of `l` is at most entry `b` of `l`, where both exist. -/
def LeAt {α : Type} [LinearOrder α] (l : List α) (a b : Nat) : Prop :=
  ∀ x y, l[a]? = some x → l[b]? = some y → x ≤ y

/-- One call that `filter` makes on the solver object. -/
inductive FilterCall (K : Type) where
  /-- A call `single->shift(c, isunshift)`. -/
  | shift (c : K) (isunshift : Bool)
  /-- A call `single->threeTerms(block, alpha, beta, offset)`. -/
  | threeTerms (block : Nat) (alpha beta : K) (offset : Nat)
deriving DecidableEq, Repr

/-- The variables of `filter` (lines 124-183), the calls it has made so far and
the reads of `*degrees` it has done. -/
structure FilterState (K : Type) where
  /-- The memory from the current value of the pointer `degrees` on. -/
  degrees : List Nat
  /-- The local `unprocessed` (a `std::size_t`). -/
  unprocessed : Nat
  /-- The local `offset`. -/
  offset : Nat
  /-- The local `num_mult`. -/
  num_mult : Nat
  /-- The local `Av`. -/
  Av : Nat
  /-- The local `sigma`. -/
  sigma : K
  /-- The calls made on the solver object, in order. -/
  calls : List (FilterCall K)
  /-- How often `degrees++` was executed. -/
  ptr : Nat
  /-- The positions, relative to the pointer handed in, at which `*degrees` was
  read, in order. -/
  reads : List Nat
  /-- Whether `*degrees` was read behind the memory that the list describes. -/
  fault : Bool
deriving DecidableEq, Repr

/-- The loop `while (unprocessed >= 0 && *degrees <= num_mult) { degrees++;
unprocessed--; offset += n; }` (lines 151-155 and 168-175) on the memory `mem`
that starts at the pointer `degrees`.  `unprocessed >= 0` holds for every
`std::size_t`; a read behind the modelled memory ends the loop with `fault`. -/
def dropLoop {K : Type} (n : Nat) : List Nat → FilterState K → FilterState K
  | [], s => { s with degrees := [], reads := s.reads ++ [s.ptr], fault := true }
  | d :: rest, s =>
    if 0 ≤ s.unprocessed ∧ d ≤ s.num_mult then
      dropLoop n rest
        { s with
          degrees := rest
          ptr := s.ptr + 1
          unprocessed := usub s.unprocessed 1
          offset := uadd s.offset n
          reads := s.reads ++ [s.ptr] }
    else { s with degrees := d :: rest, reads := s.reads ++ [s.ptr] }

/-- One multiplication step of `filter` (lines 145-155 and 163-175): the call of
`threeTerms`, `Av += unprocessed`, `num_mult++` and the loop that drops the
vectors whose degree is reached. -/
def filterStep {K : Type} (n : Nat) (alpha beta : K) (s : FilterState K) : FilterState K :=
  let s1 : FilterState K :=
    { s with
      calls := s.calls ++ [FilterCall.threeTerms s.unprocessed alpha beta (s.offset / n)]
      Av := uadd s.Av s.unprocessed
      num_mult := s.num_mult + 1 }
  dropLoop n s1.degrees s1

/-- The body of the loop `for (i = 2; i <= deg; ++i)` of `filter` (lines 158-175):
the update of `sigma`, `alpha` and `beta`, then one multiplication step. -/
def filterLoopBody {K : Type} [Field K] (n : Nat) (sigma_1 e : K) (s : FilterState K) :
    FilterState K :=
  let sigma_new := 1 / (2 / sigma_1 - s.sigma)
  filterStep n (2 * sigma_new / e) (-(s.sigma * sigma_new)) { s with sigma := sigma_new }

/-- `ChASE_Algorithm<T>::filter` (lines 124-183) in exact arithmetic over a field
`K`.  The list `degrees` is the memory that starts at the pointer `degrees`: its
first `unprocessed` entries are the degrees of the vectors, the rest is what
lies behind them.  The returned value is the field `Av` of the result. -/
def filter {K : Type} [Field K] (n unprocessed deg : Nat) (degrees : List Nat)
    (lambda_1 lower upper : K) : FilterState K :=
  let c := (upper + lower) / 2
  let e := (upper - lower) / 2
  let sigma_1 := e / (lambda_1 - c)
  let s0 : FilterState K :=
    { degrees := degrees
      unprocessed := unprocessed
      offset := 0
      num_mult := 0
      Av := 0
      sigma := sigma_1
      calls := [FilterCall.shift (-c) false]
      ptr := 0
      reads := []
      fault := false }
  let s1 := filterStep n (sigma_1 / e) 0 s0
  let s2 := forRange 2 (deg + 1) (fun _ s => filterLoopBody n sigma_1 e s) s1
  { s2 with calls := s2.calls ++ [FilterCall.shift c true] }

/-- The sum of the degrees, each capped at `s`: the number of multiplications
that the first `s` steps of the filter spend on vectors with these degrees. -/
def capSum (s : Nat) (l : List Nat) : Nat :=
  (l.map (fun d => min d s)).sum

/-- What holds of the state of `filter` after `s` multiplication steps on the
window `l` followed by the memory `beyond`: `Av` is the capped sum, and as long
as `s` is below `deg` the pointer stands behind the degrees up to `s` and
`unprocessed` counts the degrees above `s`. -/
def FilterInv {K : Type} (l beyond : List Nat) (deg s : Nat) (st : FilterState K) : Prop :=
  st.num_mult = s ∧ st.Av = capSum s l ∧
  (s < deg →
    st.degrees = l.dropWhile (fun d => decide (d ≤ s)) ++ beyond ∧
    st.unprocessed = (l.dropWhile (fun d => decide (d ≤ s))).length)

/-- The statement `H[k] += c` on the stored entries of the operator. -/
def addAt {K : Type} [Add K] (k : Nat) (c : K) (H : List K) : List K :=
  match H[k]? with
  | some h => H.set k (h + c)
  | none => H

/-- `ChaseMpiDLABlaslapackSeq::shiftMatrix` (chase_mpidla_blaslapack_seq.hpp,
lines 70-74): `H_[i + i * N_] += c` for `i < N_`. -/
def seqShiftMatrix {K : Type} [Add K] (N_ : Nat) (c : K) (H_ : List K) : List K :=
  forRange 0 N_ (fun i H => addAt (i + i * N_) c H) H_

/-- `ChaseMpiHemm::shiftMatrix` (chase_mpihemm.hpp, lines 297-316) on the local
block `H_`: `H_[i * m_ + j] += c` where `off_[0] + j == i + off_[1]`.  The call
`gemm_->shiftMatrix(c)` that follows does not write to `H_` (in
chase_mpihemm_mgpu.hpp it copies `H_` to the devices). -/
def hemmShiftMatrix {K : Type} [Add K] (n_ m_ off0 off1 : Nat) (c : K) (H_ : List K) :
    List K :=
  forRange 0 n_
    (fun i H =>
      forRange 0 m_ (fun j H1 => if off0 + j = i + off1 then addAt (i * m_ + j) c H1 else H1) H)
    H_

/-- The functions of `c` and the operator that are made of statements
`H[k] += c` alone. -/
inductive AddProg {K : Type} [Add K] : (K → List K → List K) → Prop where
  /-- No statement. -/
  | id : AddProg (fun _ H => H)
  /-- One more statement `H[k] += c`. -/
  | step (k : Nat) (F : K → List K → List K) : AddProg F → AddProg (fun c H => addAt k c (F c H))

/-- Modelled from the spec: the solver-facing `ChASE<T>::shift` and `threeTerms`
are declared outside the sources at hand.  `shift(c, isunshift)` is the backend's
`shiftMatrix(c)` (`H ← H + cI`), and `threeTerms` reads the operator without
writing it.  This is the operator after the calls `calls`, made in order. -/
def runCalls {K : Type} (shiftMatrix : K → List K → List K) (calls : List (FilterCall K))
    (H : List K) : List K :=
  calls.foldl
    (fun acc call =>
      match call with
      | FilterCall.shift c _ => shiftMatrix c acc
      | FilterCall.threeTerms _ _ _ _ => acc)
    H

/-- The call is a `threeTerms` call. -/
def FilterCall.isThreeTerms {K : Type} : FilterCall K → Prop
  | FilterCall.shift _ _ => False
  | FilterCall.threeTerms _ _ _ _ => True

/-- What the backend delivers to `lanczos`.  The Lanczos runs themselves happen
in `single->lanczos`, outside the sources at hand; every field is a parameter. -/
structure LanczosBackend (K : Type) where
  /-- The bound `single->lanczos(m, upperb)` writes (line 200). -/
  plainUpperb : K
  /-- The value run `i` writes to `upperb_` (lines 218 and 227). -/
  upperb_ : Nat → K
  /-- Entry `k` of the `m` Ritz values run `i` writes to `Theta + m * i`. -/
  Theta : Nat → Nat → K
  /-- Entry `k` of the `m` weights run `i` writes to `Tau + m * i`. -/
  Tau : Nat → Nat → K

/-- Where the value of `lowerb` comes from after the search of lines 261-281. -/
inductive LowerbOrigin where
  /-- No assignment to `lowerb` was executed. -/
  | unset
  /-- It was read from `ThetaSorted[i - 1]` with `i = 0`, before the array. -/
  | outOfRange
  /-- It was read from `ThetaSorted[i]`. -/
  | entry (i : Nat)
deriving DecidableEq, Repr

/-- What `lanczos` leaves behind. -/
structure LanczosResult (K : Type) where
  /-- The value written to `*upperb`. -/
  upperb : K
  /-- The local `search` (line 254). -/
  search : K
  /-- The local `lowerb` when the search of lines 261-281 is over. -/
  lowerb : K
  /-- Where that value comes from. -/
  origin : LowerbOrigin
  /-- The local `int idx` at line 330. -/
  idx : Int
  /-- The returned `std::size_t`. -/
  ret : Nat
  /-- The array `ritzv_` on return. -/
  ritzv_ : List K

/-- The array `Theta` (or `Tau`) after `numvec` runs of `m` entries each:
entry `p` is entry `p % m` of run `p / m`. -/
def runsArray {K : Type} (f : Nat → Nat → K) (numvec m : Nat) : List K :=
  (List.range (numvec * m)).map (fun p => f (p / m) (p % m))

/-- Lines 218-230: `*upperb` after the runs `0 .. numvec - 1`. -/
def lanczosUpperb {K : Type} [LinearOrder K] (B : LanczosBackend K) (numvec : Nat) : K :=
  forRange 1 numvec (fun i ub => max (B.upperb_ i) ub) (B.upperb_ 0)

/-- Lines 262-271: the smoothed cumulative density at `x`.  `G` stands for the
Gaussian distribution function of lines 257-259 (it uses `std::erf`), `thr` for
`threshold`. -/
def dosCurr {K : Type} [LinearOrderedField K] (G : K → K) (thr : K) (numvec : Nat) (x : K)
    (Theta Tau : List K) : K :=
  ((Theta.zip Tau).foldl
    (fun curr p =>
      if x < p.1 - thr then curr + 0
      else if p.1 + thr < x then curr + p.2 * 1
      else curr + p.2 * G (x - p.1))
    0) / (numvec : K)

/-- Lines 261-281 from index `i` on: `rest` holds `ThetaSorted[i], ThetaSorted[i+1],
...` and `prev` the density of the pass before. -/
def crossingFrom {K : Type} [LinearOrderedField K] (G : K → K) (thr search : K)
    (numvec : Nat) (Theta Tau : List K) : Nat → List K → K → LowerbOrigin
  | _, [], _ => LowerbOrigin.unset
  | i, x :: rest, prev =>
    let curr := dosCurr G thr numvec x Theta Tau
    if search < curr then
      if |curr - search| < |prev - search| then LowerbOrigin.entry i
      else if i = 0 then LowerbOrigin.outOfRange
      else LowerbOrigin.entry (i - 1)
    else crossingFrom G thr search numvec Theta Tau (i + 1) rest curr

/-- Lines 285-290: the first `i < m` with `Theta[(numvec - 1) * m + i] > lowerb`,
in the entries `last` of the last run. -/
def firstAbove {K : Type} [LinearOrder K] (lowerb : K) : Nat → List K → Option Nat
  | _, [] => none
  | i, t :: rest => if lowerb < t then some i else firstAbove lowerb (i + 1) rest

/-- `ChASE_Algorithm<T>::lanczos` (lines 185-331) in exact arithmetic over an
ordered field.  `G` is the Gaussian distribution function of lines 257-259,
`getNex` the value of `single->getNex()`, and `junk` the value that an unset
variable or a read before the array yields.  The source needs `numvec ≥ 1`. -/
def lanczos {K : Type} [LinearOrderedField K] (B : LanczosBackend K) (G : K → K) (junk : K)
    (N numvec m nevex getNex : Nat) (mode : Bool) (ritzv_ : List K) : LanczosResult K :=
  if mode = false then
    { upperb := B.plainUpperb, search := junk, lowerb := junk, origin := LowerbOrigin.unset,
      idx := 0, ret := 0, ritzv_ := ritzv_ }
  else
    let Theta := runsArray B.Theta numvec m
    let Tau := runsArray B.Tau numvec m
    let ThetaSorted := Theta.insertionSort (fun a b => a ≤ b)
    let lambda := (ThetaSorted[0]?).getD junk
    let sigma : K := 1 / 4
    let threshold : K := 2 * sigma * sigma / 10
    let search : K := ((nevex + getNex / 2 : Nat) : K) / (N : K)
    let origin := crossingFrom G threshold search numvec Theta Tau 0 ThetaSorted 0
    let lowerb : K :=
      match origin with
      | LowerbOrigin.entry i => (ThetaSorted[i]?).getD junk
      | _ => junk
    let idx : Int :=
      match firstAbove lowerb 0 ((Theta.drop ((numvec - 1) * m)).take m) with
      | some i => (i : Int) - 1
      | none => 0
    let r1 := forRange 0 nevex (fun i a => a.set i lambda) ritzv_
    { upperb := lanczosUpperb B numvec
      search := search
      lowerb := lowerb
      origin := origin
      idx := idx
      ret := (idx % (sizeMod : Int)).toNat
      ritzv_ := if nevex = 0 then r1 else r1.set (nevex - 1) lowerb }

/-- Modelled from the spec: `single->getNex()` is declared outside the sources at
hand; it is taken to return the `nex` of the solve call.  This is the call of
`lanczos` in `solve` (lines 387-388): six runs of `getLanczosIter()` steps with
`nevex = nev + nex`; `random` is `!config.use_approx()`. -/
def solveLanczos {K : Type} [LinearOrderedField K] (B : LanczosBackend K) (G : K → K)
    (junk : K) (N nev nex lanczosIter : Nat) (random : Bool) (ritzv : List K) :
    LanczosResult K :=
  lanczos B G junk N 6 lanczosIter (uadd nev nex) nex random ritzv

/-- A sample backend for `lanczos`: run 0 finds the Ritz value 1, every other run
the Ritz value 5; all weights are 1 and run `i` reports the upper value `10 + i`. -/
def sampleLanczos : LanczosBackend ℚ where
  plainUpperb := 10
  upperb_ := fun i => 10 + (i : ℚ)
  Theta := fun i _ => if i = 0 then 1 else 5
  Tau := fun _ _ => 1

/-- A stand-in for the Gaussian distribution function in concrete runs: its
value at 0, which is `0.5 * (1 + erf(0)) = 1/2`. -/
def sampleG : ℚ → ℚ := fun _ => 1 / 2

/-! ## The distributed multiply: `NextOp` and the calls of `apply`

`ChaseMpiDLA` and `ChaseMpiHemm` keep the member `next_`, which selects the side
of the product that the next `apply` computes.  The model keeps `next_`,
`locked_`, and the sequence of calls that `apply` makes on the local backend,
on MPI and on BLAS, with the buffer, the start (in elements from the beginning
of the buffer), the count and the communicator of each. -/

/-- The `enum class NextOp`. -/
inductive NextOp where
  | cAb
  | bAc
  deriving DecidableEq, Repr

/-- The buffers of the distributed multiply. -/
inductive Buffer where
  | B
  | C
  | IMT
  deriving DecidableEq, Repr

/-- The two communicators of the process grid. -/
inductive Comm where
  | row_comm
  | col_comm
  deriving DecidableEq, Repr

/-- The calls that `apply` makes: the local multiply of the backend,
`MPI_Allreduce(MPI_IN_PLACE, buf + start, count, ..., MPI_SUM, comm)`,
`t_scal(count, &beta, buf + start, 1)` and
`t_axpy(count, &alpha, src + srcStart, 1, dst + dstStart, 1)`. -/
inductive MpiCall (K : Type) where
  | gemm (alpha beta : K) (offset block : Nat) (locked : Option Nat)
  | allreduce (buf : Buffer) (start count : Nat) (comm : Comm)
  | scal (count : Nat) (beta : K) (buf : Buffer) (start : Nat)
  | axpy (count : Nat) (alpha : K) (src : Buffer) (srcStart : Nat)
      (dst : Buffer) (dstStart : Nat)
  deriving DecidableEq, Repr

/-- The members `next_` and `locked_` of the distributed multiply, and the calls
made so far. -/
structure MultState (K : Type) where
  next_ : NextOp
  locked_ : Nat
  calls : List (MpiCall K)
  deriving DecidableEq, Repr

/-- The product of two `std::size_t` values. -/
def umul (a b : Nat) : Nat := (a * b) % sizeMod

/-- The buffer an `MPI_Allreduce` call reduces, for the other calls `none`. -/
def MpiCall.reduced {K : Type} : MpiCall K → Option Buffer
  | .allreduce buf _ _ _ => some buf
  | _ => none

/-- The assignments of `ChaseMpiDLA::preApplication(V, locked, block)` to `next_`
and `locked_`; the copy `V2C` and the call on the backend touch neither. -/
def ChaseMpiDLA.preApplication {K : Type} (locked : Nat) (s : MultState K) : MultState K :=
  { s with next_ := NextOp.bAc, locked_ := locked }

/-- The body of `ChaseMpiDLA::apply(alpha, beta, offset, block, locked)` on a rank
with an `m_ × n_` block of `H`. -/
def ChaseMpiDLA.apply {K : Type} (n_ m_ : Nat) (alpha beta : K)
    (offset block locked : Nat) (s : MultState K) : MultState K :=
  if s.next_ = NextOp.bAc then
    let dim := umul n_ block
    { s with
      calls := s.calls ++
        [MpiCall.gemm alpha beta offset block (some locked),
         MpiCall.allreduce Buffer.B (uadd (umul locked n_) (umul offset n_)) dim
           Comm.col_comm]
      next_ := NextOp.cAb }
  else
    let dim := umul m_ block
    { s with
      calls := s.calls ++
        [MpiCall.gemm alpha beta offset block (some locked),
         MpiCall.allreduce Buffer.C (uadd (umul locked m_) (umul offset m_)) dim
           Comm.row_comm]
      next_ := NextOp.bAc }

/-- The assignments of `ChaseMpiHemm::preApplication(V, locked, block)` to `next_`
and `locked_`. -/
def ChaseMpiHemm.preApplication {K : Type} (locked : Nat) (s : MultState K) : MultState K :=
  { s with next_ := NextOp.bAc, locked_ := locked }

/-- The body of `ChaseMpiHemm::apply(alpha, beta, offset, block)`. -/
def ChaseMpiHemm.apply {K : Type} [Zero K] [One K] (n_ m_ : Nat) (alpha beta : K)
    (offset block : Nat) (s : MultState K) : MultState K :=
  if s.next_ = NextOp.bAc then
    let dim := umul n_ block
    { s with
      calls := s.calls ++
        [MpiCall.gemm 1 0 offset block none,
         MpiCall.allreduce Buffer.IMT (umul offset n_) dim Comm.col_comm,
         MpiCall.scal dim beta Buffer.B (umul offset n_),
         MpiCall.axpy dim alpha Buffer.IMT (umul offset n_) Buffer.B (umul offset n_)]
      next_ := NextOp.cAb }
  else
    let dim := umul m_ block
    { s with
      calls := s.calls ++
        [MpiCall.gemm 1 0 offset block none,
         MpiCall.allreduce Buffer.IMT (umul offset m_) dim Comm.row_comm,
         MpiCall.scal dim beta Buffer.C (umul offset m_),
         MpiCall.axpy dim alpha Buffer.IMT (umul offset m_) Buffer.C (umul offset m_)]
      next_ := NextOp.bAc }

/-- The arguments of one call of `apply`. -/
structure ApplyArgs (K : Type) where
  alpha : K
  beta : K
  offset : Nat
  block : Nat
  locked : Nat

/-- A sequence of calls of `ChaseMpiDLA::apply`, one for each entry of `args`. -/
def ChaseMpiDLA.applyAll {K : Type} (n_ m_ : Nat) (args : List (ApplyArgs K))
    (s : MultState K) : MultState K :=
  args.foldl (fun st a => ChaseMpiDLA.apply n_ m_ a.alpha a.beta a.offset a.block a.locked st) s

/-- A sequence of calls of `ChaseMpiHemm::apply`, one for each entry of `args`
(the member `locked` of an entry is not used). -/
def ChaseMpiHemm.applyAll {K : Type} [Zero K] [One K] (n_ m_ : Nat)
    (args : List (ApplyArgs K)) (s : MultState K) : MultState K :=
  args.foldl (fun st a => ChaseMpiHemm.apply n_ m_ a.alpha a.beta a.offset a.block st) s

/-! ## The distributed multiply: `shiftMatrix` and `postApplication`

`ChaseMpiDLA` has the further member `istartOfFilter_`, which its constructor
sets to `true` (line 96) and only `shiftMatrix` writes afterwards.  The
constructor assigns neither `next_` nor `locked_`. -/

/-- The members of `ChaseMpiDLA` that `shiftMatrix` reads or writes, and the
calls `dla_->shiftMatrix(c, isunshift)` made on the local backend so far. -/
structure DlaState (K : Type) where
  mult : MultState K
  istartOfFilter_ : Bool
  backendShifts : List (K × Bool)
  deriving DecidableEq, Repr

/-- The state the constructor of `ChaseMpiDLA` leaves: `istartOfFilter_ = true`;
`next_` and `locked_` hold whatever the memory held. -/
def ChaseMpiDLA.ctor {K : Type} (next0 : NextOp) (locked0 : Nat) : DlaState K :=
  { mult := { next_ := next0, locked_ := locked0, calls := [] }
    istartOfFilter_ := true
    backendShifts := [] }

/-- The body of `ChaseMpiDLA::shiftMatrix(c, isunshift)` (lines 657-673); the call
`dla_->preApplication` in the guarded branch is made on the backend object. -/
def ChaseMpiDLA.shiftMatrix {K : Type} (c : K) (isunshift : Bool) (s : DlaState K) :
    DlaState K :=
  let s1 : DlaState K :=
    if s.istartOfFilter_ then { s with mult := { s.mult with next_ := NextOp.bAc } } else s
  { s1 with istartOfFilter_ := false, backendShifts := s1.backendShifts ++ [(c, isunshift)] }

/-- A call of `ChaseMpiDLA::preApplication` on the members of `DlaState`. -/
def DlaState.preApplication {K : Type} (locked : Nat) (s : DlaState K) : DlaState K :=
  { s with mult := ChaseMpiDLA.preApplication locked s.mult }

/-- A call of `ChaseMpiDLA::apply` on the members of `DlaState`. -/
def DlaState.apply {K : Type} (n_ m_ : Nat) (alpha beta : K)
    (offset block locked : Nat) (s : DlaState K) : DlaState K :=
  { s with mult := ChaseMpiDLA.apply n_ m_ alpha beta offset block locked s.mult }

/-- The members of `ChaseMpiHemm` that its `shiftMatrix` could touch: `next_`,
`locked_`, the calls made, and the local block `H_` of the operator. -/
structure HemmState (K : Type) where
  mult : MultState K
  H_ : List K
  deriving DecidableEq, Repr

/-- The body of `ChaseMpiHemm::shiftMatrix(c, isunshift)` (lines 297-316): the
loop over the local block of `H_`; no assignment to `next_`. -/
def ChaseMpiHemm.shiftMatrix {K : Type} [Add K] (n_ m_ off0 off1 : Nat) (c : K)
    (s : HemmState K) : HemmState K :=
  { s with H_ := hemmShiftMatrix n_ m_ off0 off1 c s.H_ }

/-- A call of `ChaseMpiHemm::preApplication` on the members of `HemmState`. -/
def HemmState.preApplication {K : Type} (locked : Nat) (s : HemmState K) : HemmState K :=
  { s with mult := ChaseMpiHemm.preApplication locked s.mult }

/-- A call of `ChaseMpiHemm::apply` on the members of `HemmState`. -/
def HemmState.apply {K : Type} [Zero K] [One K] (n_ m_ : Nat) (alpha beta : K)
    (offset block : Nat) (s : HemmState K) : HemmState K :=
  { s with mult := ChaseMpiHemm.apply n_ m_ alpha beta offset block s.mult }

/-! ## `ChaseMpiDLA::cholQR` and `hhQR`

The numerical kernels are parameters; the model keeps the control flow, the
shift of the Gram matrix, the sequence of kernel calls and the copies between
`C_` and `C2_`.  Buffers are lists of entries, column after column. -/

/-- The kernels `cholQR` and `hhQR` call. -/
structure QRBackend (K : Type) where
  /-- The content of `A_` after `syherk` and the all-reduce over the column
  communicator, for a given content of `C_`. -/
  gram : List K → List K
  /-- The value of `nrmf` after `t_lange`, the square, the all-reduce and the
  square root, for a given content of `C_`. -/
  nrmf : List K → K
  /-- The value of `std::numeric_limits<Base<T>>::epsilon()`. -/
  epsilon : K
  /-- The call number `k` (from 0) of `potrf` on a content of `A_`: the value of
  `info` and the content of `A_` afterwards. -/
  potrf : Nat → List K → Int × List K
  /-- The content of `C_` after `trsm` with the factor in `A_`. -/
  trsm : List K → List K → List K
  /-- The content of `C_` after the Householder QR of `hhQR` (lines 858-859 with
  ScaLAPACK, lines 873-876 without). -/
  householder : List K → List K

/-- One kernel call of `cholQR`. -/
inductive QRCall (K : Type) where
  | syherk (first_iter : Bool)
  | allreduce
  | lange
  | potrf (A : List K) (info : Int)
  | trsm (A : List K) (first_iter : Bool)
  | hhQR (locked : Nat)
  deriving DecidableEq, Repr

/-- The buffers `C_`, `C2_` and `A_`, the member `isHHqr`, and the kernel calls
made so far. -/
structure QRState (K : Type) where
  C_ : List K
  C2_ : List K
  A_ : List K
  isHHqr : Bool
  calls : List (QRCall K)
  deriving DecidableEq, Repr

/-- The matrix a `potrf` call was given; `none` for the other calls. -/
def QRCall.factored {K : Type} : QRCall K → Option (List K)
  | .potrf A _ => some A
  | _ => none

/-- Whether a call is a `trsm`. -/
def QRCall.isTrsm {K : Type} : QRCall K → Bool
  | .trsm _ _ => true
  | _ => false

/-- The call `std::memcpy(dst + dOff, src + sOff, count * sizeof(T))` on two
distinct buffers: the content of `dst` afterwards. -/
def memcpy {K : Type} (dst : List K) (dOff : Nat) (src : List K) (sOff count : Nat) : List K :=
  dst.mapIdx (fun p v =>
    if dOff ≤ p ∧ p < dOff + count then (src[sOff + (p - dOff)]?).getD v else v)

/-- The two copies that end `cholQR` (lines 1089-1091) and `hhQR` (lines 861-863
and 879-881): the locked columns of `C_` are taken from `C2_`, then the other
columns of `C2_` are taken from `C_`.  The result is the pair `(C_, C2_)`. -/
def copyBack {K : Type} (m_ nevex locked : Nat) (C_ C2_ : List K) : List K × List K :=
  let C1 := memcpy C_ 0 C2_ 0 (umul locked m_)
  let C2 := memcpy C2_ (umul locked m_) C1 (umul locked m_) (umul (usub nevex locked) m_)
  (C1, C2)

/-- `ChaseMpiDLA::hhQR(locked)` (lines 847-892). -/
def hhQR {K : Type} (B : QRBackend K) (m_ nev_ nex_ locked : Nat) (s : QRState K) :
    QRState K :=
  let nevex := uadd nev_ nex_
  let r := copyBack m_ nevex locked (B.householder s.C_) s.C2_
  { s with C_ := r.1, C2_ := r.2, isHHqr := true, calls := s.calls ++ [QRCall.hhQR locked] }

/-- Line 974: `shift = 11 * (N_ * nevex + nevex * nevex + nevex) * epsilon * nrmf`,
the integer factor computed in `std::size_t`. -/
def cholShift {K : Type} [Field K] (B : QRBackend K) (N_ nevex : Nat) (C_ : List K) : K :=
  ((umul 11 (uadd (uadd (umul N_ nevex) (umul nevex nevex)) nevex) : Nat) : K)
    * B.epsilon * B.nrmf C_

/-- Lines 980-982: `for (i = 0; i < nevex; i++) A_[i * nevex + i] += shift`. -/
def shiftDiagonal {K : Type} [Add K] (nevex : Nat) (shift : K) (A_ : List K) : List K :=
  forRange 0 nevex (fun i A => addAt (i * nevex + i) shift A) A_

/-- The two thresholds of lines 934-940: for the shift and for a single pass. -/
def condThreshold {K : Type} [Field K] (isDouble : Bool) : K × K :=
  if isDouble then (100000000, 10000) else (100000, 100)

/-- The content of `A_` that the first `potrf` of `cholQR` is given (lines
950-987): the Gram matrix of `C_`, with the shift on the diagonal when `cond`
exceeds the threshold. -/
def cholGram {K : Type} [LinearOrderedField K] (B : QRBackend K) (isDouble : Bool)
    (N_ nev_ nex_ : Nat) (cond : K) (C_ : List K) : List K :=
  let nevex := uadd nev_ nex_
  if (condThreshold isDouble).1 < cond then
    shiftDiagonal nevex (cholShift B N_ nevex C_) (B.gram C_)
  else B.gram C_

/-- Lines 921-929 and 999-1012: the value of `choldeg` when the first
factorization succeeded.  `choldegenv` is the value of `CHASE_CHOLQR_DEGREE`
read by `std::atoi`, or `none` when the variable is not set. -/
def cholDegree {K : Type} [LinearOrderedField K] (isDouble : Bool) (choldegenv : Option Int)
    (cond : K) : Int :=
  let d1 : Int := if cond < (condThreshold isDouble).2 then 1 else 2
  let d2 : Int := match choldegenv with
    | some v => v
    | none => d1
  if (condThreshold isDouble).1 < cond ∧ d2 = 1 then 2 else d2

/-- One pass of the loop `for (i = 0; i < choldeg - 1; i++)` (lines 1047-1084). -/
def cholPass {K : Type} (B : QRBackend K) (choldeg : Int) (i : Nat) (s : QRState K) :
    QRState K :=
  let A := B.gram s.C_
  let f := B.potrf (i + 1) A
  let first_iter := decide (¬ (i : Int) = choldeg - 2)
  { s with
    A_ := f.2
    C_ := B.trsm f.2 s.C_
    calls := s.calls ++
      [QRCall.syherk false, QRCall.allreduce, QRCall.potrf A f.1,
       QRCall.trsm f.2 first_iter] }

/-- Lines 945-996 of `cholQR`: the Gram matrix, its shift, and the first
`potrf`, whose value of `info` is the last call of the result. -/
def cholStart {K : Type} [LinearOrderedField K] (B : QRBackend K) (isDouble : Bool)
    (N_ nev_ nex_ : Nat) (cond : K) (C_ C2_ : List K) : QRState K :=
  let A1 := cholGram B isDouble N_ nev_ nex_ cond C_
  let f := B.potrf 0 A1
  { C_ := C_, C2_ := C2_, A_ := f.2, isHHqr := false
    calls := [QRCall.syherk true, QRCall.allreduce] ++
      (if (condThreshold isDouble).1 < cond then [QRCall.lange, QRCall.allreduce] else []) ++
      [QRCall.potrf A1 f.1] }

/-- Lines 998-1093 of `cholQR`, the branch `info == 0`: the choice of `choldeg`,
the first `trsm`, the refinement passes and the copies. -/
def cholRefine {K : Type} [LinearOrderedField K] (B : QRBackend K) (isDouble : Bool)
    (choldegenv : Option Int) (m_ nev_ nex_ locked : Nat) (cond : K) (s0 : QRState K) :
    QRState K :=
  let nevex := uadd nev_ nex_
  let choldeg := cholDegree isDouble choldegenv cond
  let first_iter := decide (¬ choldeg = 1)
  let s1 : QRState K :=
    { s0 with
      C_ := B.trsm s0.A_ s0.C_
      calls := s0.calls ++ [QRCall.trsm s0.A_ first_iter] }
  let s2 := forRange 0 (choldeg - 1).toNat (cholPass B choldeg) s1
  let r := copyBack m_ nevex locked s2.C_ s2.C2_
  { s2 with C_ := r.1, C2_ := r.2, isHHqr := false }

/-- `ChaseMpiDLA::cholQR(locked, cond)` (lines 913-1106) on the buffers `C_` and
`C2_`.  `isDouble` is `sizeof(Base<T>) == 8`. -/
def cholQR {K : Type} [LinearOrderedField K] (B : QRBackend K) (isDouble : Bool)
    (choldegenv : Option Int) (N_ m_ nev_ nex_ locked : Nat) (cond : K)
    (C_ C2_ : List K) : QRState K :=
  let s0 := cholStart B isDouble N_ nev_ nex_ cond C_ C2_
  if (B.potrf 0 (cholGram B isDouble N_ nev_ nex_ cond C_)).1 = 0 then
    cholRefine B isDouble choldegenv m_ nev_ nex_ locked cond s0
  else hhQR B m_ nev_ nex_ locked s0

/-- The number of Gram, factorize and solve cycles of a run: the number of its
`trsm` calls. -/
def cycles {K : Type} (s : QRState K) : Nat := s.calls.countP QRCall.isTrsm

/-- A sample backend over the rationals: the Gram matrix doubles each entry of
`C_`, the norm is 1, `epsilon` is `1/1000`, `potrf` leaves `A_` and succeeds on
calls 0 and 2 and reports `info = 1` on every other call, `trsm` adds the first
entry of `A_` to each entry of `C_`, and the Householder QR negates `C_`. -/
def sampleQR : QRBackend ℚ where
  gram := fun C => C.map (fun x => 2 * x)
  nrmf := fun _ => 1
  epsilon := 1 / 1000
  potrf := fun k A => (if k = 0 ∨ k = 2 then 0 else 1, A)
  trsm := fun A C => C.map (fun x => x + A.headD 0)
  householder := fun C => C.map (fun x => -x)

/-! ## The multiplication steps of `filter`, as the specification words them -/

/-- The value of `sigma` after multiplication step `k + 1` of `filter`: `sigma_1`
after the first step (line 132), and `1 / (2 / sigma_1 - sigma)` of the value
before after each later step (lines 159 and 166). -/
def sigmaAfter {K : Type} [Field K] (sigma_1 : K) : Nat → K
  | 0 => sigma_1
  | k + 1 => 1 / (2 / sigma_1 - sigmaAfter sigma_1 k)

/-- Multiplication step `k + 1` of the filter on vectors with the degrees `l`,
as the specification words it, not taken from the code: a `threeTerms` call on
the vectors whose degree is at least `k + 1`, so the block size is their number
and the column offset is the number of degrees below `k + 1`; the first step
has `alpha = sigma_1 / e` and `beta = 0`, a later step has
`alpha = 2 * sigma_new / e` and `beta = -sigma * sigma_new`. -/
def expectedStep {K : Type} [Field K] (l : List Nat) (sigma_1 e : K) (k : Nat) :
    FilterCall K :=
  FilterCall.threeTerms (l.countP (fun d => decide (k + 1 ≤ d)))
    (if k = 0 then sigma_1 / e else 2 * sigmaAfter sigma_1 k / e)
    (if k = 0 then 0 else -(sigmaAfter sigma_1 (k - 1) * sigmaAfter sigma_1 k))
    (l.countP (fun d => decide (d < k + 1)))

/-- What holds of `sigma`, `calls` and `offset` in the state of `filter` after
`s ≥ 1` multiplication steps on the window `l`. -/
def TraceInv {K : Type} [Field K] (l : List Nat) (n : Nat) (sigma_1 e : K)
    (c0 : FilterCall K) (deg s : Nat) (st : FilterState K) : Prop :=
  st.sigma = sigmaAfter sigma_1 (s - 1) ∧
  st.calls = c0 :: (List.range s).map (expectedStep l sigma_1 e) ∧
  (s < deg →
    st.offset = (l.length - (l.dropWhile (fun d => decide (d ≤ s))).length) * n)

/-! ## The degrees of `calc_degrees`, slot by slot -/

/-- The value line 56 stores in slot `i`: the estimate of line 55 plus the extra
degree, capped at `getMaxDeg()`; 0 for a slot outside the arrays. -/
def cappedDegree {α : Type} (est : α → α → Nat) (conf : ChASE_Config α)
    (ritzv resid : List α) (i : Nat) : Nat :=
  match ritzv[i]?, resid[i]? with
  | some t, some r => min (uadd (est t r) conf.degExtra) conf.maxDeg
  | _, _ => 0

/-- The value of slot `i` after line 64: the capped degree rounded up to even. -/
def roundedDegree {α : Type} (est : α → α → Nat) (conf : ChASE_Config α)
    (ritzv resid : List α) (i : Nat) : Nat :=
  uadd (cappedDegree est conf ritzv resid i) (cappedDegree est conf ritzv resid i % 2)

/-- The degrees before the sort as the specification words them, not taken
from the code: the rounded degrees of the first `unconverged - nex` slots,
followed by `nex` copies of the rounded degree of slot `unconverged - nex - 1`. -/
def expectedDegrees {α : Type} (est : α → α → Nat) (conf : ChASE_Config α)
    (unconverged nex : Nat) (ritzv resid : List α) : List Nat :=
  (List.range (unconverged - nex)).map (roundedDegree est conf ritzv resid) ++
    List.replicate nex (roundedDegree est conf ritzv resid (unconverged - nex - 1))

/-! ## `ChaseMpiDLA::postApplication` -/

/-- The arguments of a call of `collecRedundantVecs(buff, targetBuf, dimsIdx,
block)`: the buffer and the start of `buff` in it, the start of `targetBuf` in
`V` (both in entries), the direction, and the communicator the direction
selects. -/
structure GatherCall where
  buf : Buffer
  buffStart : Nat
  targetStart : Nat
  dimsIdx : Nat
  comm : Comm
  block : Nat
  deriving DecidableEq, Repr

/-- The choice of the communicator in `collecRedundantVecs` (lines 420-428): the
column communicator for `dimsIdx == 0`, the row communicator for
`dimsIdx == 1`. -/
def collecRedundantVecs (buf : Buffer) (buffStart targetStart dimsIdx block : Nat) :
    GatherCall :=
  { buf := buf, buffStart := buffStart, targetStart := targetStart, dimsIdx := dimsIdx
    comm := if dimsIdx = 0 then Comm.col_comm else Comm.row_comm
    block := block }

/-- `ChaseMpiDLA::postApplication(V, block, locked)` (lines 534-563): the call of
`collecRedundantVecs` it makes.  `targetBuf` is `V + locked_ * N_` with the
member `locked_`, `buff` is `C_ + locked * m_` or `B_ + locked * n_` with the
argument `locked`. -/
def ChaseMpiDLA.postApplication {K : Type} (N_ n_ m_ block locked : Nat)
    (s : MultState K) : GatherCall :=
  let targetStart := umul s.locked_ N_
  if s.next_ = NextOp.bAc then
    collecRedundantVecs Buffer.C (umul locked m_) targetStart 0 block
  else
    collecRedundantVecs Buffer.B (umul locked n_) targetStart 1 block

/-! ## The redistribution plan of the constructor of `ChaseMpiDLA` -/

/-- The five vectors `c_dests`, `c_srcs`, `c_lens`, `b_disps`, `c_disps`. -/
structure RedistPlan where
  c_dests : List Nat
  c_srcs : List Nat
  c_lens : List Nat
  b_disps : List Nat
  c_disps : List Nat
  deriving DecidableEq, Repr

/-- The locals of the branch `!isSameDist_` of the constructor (lines 159-193)
and the vectors built so far. -/
structure PlanState where
  c_dest : Nat
  c_src : Nat
  c_len : Nat
  b_disp : Nat
  c_disp : Nat
  plan : RedistPlan
  deriving DecidableEq, Repr

/-- The body of the loop `for (i = 1; i < N_; i++)` (lines 171-191). -/
def planStep (mb_ nb_ row_size_ col_size_ : Nat) (i : Nat) (s : PlanState) : PlanState :=
  let src_tmp := (i / mb_) % col_size_
  let dest_tmp := (i / nb_) % row_size_
  if dest_tmp = s.c_dest ∧ src_tmp = s.c_src then
    { s with c_len := s.c_len + 1 }
  else
    let c_dest := (i / nb_) % row_size_
    let b_disp := i % nb_ + ((i / nb_) / row_size_) * nb_
    let c_disp := i % mb_ + ((i / mb_) / col_size_) * mb_
    let c_src := (i / mb_) % col_size_
    { c_dest := c_dest, c_src := c_src, c_len := 1, b_disp := b_disp, c_disp := c_disp
      plan :=
        { c_lens := s.plan.c_lens ++ [s.c_len]
          c_srcs := s.plan.c_srcs ++ [c_src]
          c_dests := s.plan.c_dests ++ [c_dest]
          b_disps := s.plan.b_disps ++ [b_disp]
          c_disps := s.plan.c_disps ++ [c_disp] } }

/-- The branch `!isSameDist_` of the constructor of `ChaseMpiDLA` (lines 159-193):
the five vectors it builds. -/
def redistPlan (N_ mb_ nb_ row_size_ col_size_ irsrc_ icsrc_ : Nat) : RedistPlan :=
  let s0 : PlanState :=
    { c_dest := icsrc_, c_src := irsrc_, c_len := 1, b_disp := 0, c_disp := 0
      plan :=
        { c_dests := [icsrc_], c_srcs := [irsrc_], c_lens := []
          b_disps := [0], c_disps := [0] } }
  let s := forRange 1 N_ (planStep mb_ nb_ row_size_ col_size_) s0
  { s.plan with c_lens := s.plan.c_lens ++ [s.c_len] }

/-- A segment of the plan that starts at the global index `start`: it is not
empty, and its global index number `j` has the source `src`, the destination
`dest`, and the block-cyclic local indices `cdisp + j` and `bdisp + j`. -/
def SegOK (mb_ nb_ row_size_ col_size_ start len src dest bdisp cdisp : Nat) : Prop :=
  0 < len ∧
  ∀ j, j < len →
    ((start + j) / mb_) % col_size_ = src ∧
    ((start + j) / nb_) % row_size_ = dest ∧
    (start + j) % mb_ + (((start + j) / mb_) / col_size_) * mb_ = cdisp + j ∧
    (start + j) % nb_ + (((start + j) / nb_) / row_size_) * nb_ = bdisp + j

/-- What holds of the state of the plan loop before it looks at the global
index `i`: the closed segments and the open one tile `0..i-1` in order. -/
def PlanInv (mb_ nb_ row_size_ col_size_ i : Nat) (s : PlanState) : Prop :=
  s.plan.c_dests.length = s.plan.c_lens.length + 1 ∧
  s.plan.c_srcs.length = s.plan.c_lens.length + 1 ∧
  s.plan.b_disps.length = s.plan.c_lens.length + 1 ∧
  s.plan.c_disps.length = s.plan.c_lens.length + 1 ∧
  s.plan.c_lens.sum + s.c_len = i ∧
  (∀ k, k < s.plan.c_lens.length →
    SegOK mb_ nb_ row_size_ col_size_ (s.plan.c_lens.take k).sum (s.plan.c_lens.getD k 0)
      (s.plan.c_srcs.getD k 0) (s.plan.c_dests.getD k 0)
      (s.plan.b_disps.getD k 0) (s.plan.c_disps.getD k 0)) ∧
  s.plan.c_srcs.getD s.plan.c_lens.length 0 = s.c_src ∧
  s.plan.c_dests.getD s.plan.c_lens.length 0 = s.c_dest ∧
  SegOK mb_ nb_ row_size_ col_size_ s.plan.c_lens.sum s.c_len s.c_src s.c_dest
    (s.plan.b_disps.getD s.plan.c_lens.length 0) (s.plan.c_disps.getD s.plan.c_lens.length 0)

/-! ## Basic facts about the exchange of two entries and counting loops -/

theorem swap_kj_length {β : Type} (k j : Nat) (a : List β) :
    (swap_kj k j a).length = a.length := by
  unfold swap_kj
  split <;> simp

theorem swap_kj_getElem? {β : Type} {k j : Nat} {a : List β}
    (hk : k < a.length) (hj : j < a.length) (i : Nat) :
    (swap_kj k j a)[i]? = a[Equiv.swap k j i]? := by
  unfold swap_kj
  rw [List.getElem?_eq_getElem hk, List.getElem?_eq_getElem hj]
  simp only [List.getElem?_set, List.length_set, Equiv.swap_apply_def]
  by_cases h1 : j = i
  · subst h1
    by_cases h2 : j = k
    · subst h2; simp [hj]
    · simp [hj, h2]
  · by_cases h2 : k = i
    · subst h2
      simp [h1, hk]
    · have h3 : ¬ i = k := fun h => h2 h.symm
      have h4 : ¬ i = j := fun h => h1 h.symm
      simp [h1, h2, h3, h4]

theorem swap_kj_of_not_lt {β : Type} {k j : Nat} {a : List β}
    (h : ¬ (k < a.length ∧ j < a.length)) : swap_kj k j a = a := by
  unfold swap_kj
  by_cases hk : k < a.length
  · have hj : a.length ≤ j := by
      by_contra hc
      exact h ⟨hk, by omega⟩
    rw [List.getElem?_eq_none hj]
    split <;> simp_all
  · rw [List.getElem?_eq_none (show a.length ≤ k by omega)]

theorem forRange_self {σ : Type} (lo : Nat) (body : Nat → σ → σ) (s : σ) :
    forRange lo lo body s = s := by
  simp [forRange]

theorem forRange_succ {σ : Type} {lo hi : Nat} (h : lo ≤ hi) (body : Nat → σ → σ) (s : σ) :
    forRange lo (hi + 1) body s = body hi (forRange lo hi body s) := by
  unfold forRange
  have e : hi + 1 - lo = (hi - lo) + 1 := by omega
  rw [e, List.range'_concat, List.foldl_append]
  simp only [List.foldl_cons, List.foldl_nil, Nat.one_mul]
  have e2 : lo + (hi - lo) = hi := by omega
  rw [e2]

/-- The loop-invariant rule for `forRange`. -/
theorem forRange_invariant {σ : Type} (P : Nat → σ → Prop) {lo hi : Nat} (hle : lo ≤ hi)
    (body : Nat → σ → σ) (s : σ) (h0 : P lo s)
    (hstep : ∀ i t, lo ≤ i → i < hi → P i t → P (i + 1) (body i t)) :
    P hi (forRange lo hi body s) := by
  induction hi with
  | zero =>
    have : lo = 0 := by omega
    subst this
    rw [forRange_self]; exact h0
  | succ m ih =>
    by_cases hm : lo = m + 1
    · subst hm
      rw [forRange_self]; exact h0
    · have hle1 : lo ≤ m := by omega
      rw [forRange_succ hle1]
      apply hstep m _ hle1 (by omega)
      exact ih hle1 (fun i t h1 h2 h3 => hstep i t h1 (by omega) h3)

/-! ## Rearrangements -/

theorem Rearranged.refl {β : Type} (a : List β) : Rearranged 1 a a := by
  intro i; simp

theorem Rearranged.swap_kj {β : Type} {σ : Equiv.Perm Nat} {inp a : List β} {len : Nat}
    (h : Rearranged σ inp a) (hl : a.length = len) (j c : Nat) :
    Rearranged (stepPerm len j c σ) inp (swap_kj j c a) := by
  unfold stepPerm
  by_cases hb : j < len ∧ c < len
  · rw [if_pos hb]
    intro i
    rw [swap_kj_getElem? (by omega) (by omega), h, Equiv.Perm.mul_apply]
  · rw [if_neg hb, swap_kj_of_not_lt (by rw [hl]; exact hb)]
    exact h

theorem stepPerm_fix {len j c : Nat} {σ : Equiv.Perm Nat}
    (h : ∀ i, len ≤ i → σ i = i) : ∀ i, len ≤ i → stepPerm len j c σ i = i := by
  intro i hi
  unfold stepPerm
  by_cases hb : j < len ∧ c < len
  · rw [if_pos hb, Equiv.Perm.mul_apply,
      Equiv.swap_apply_of_ne_of_ne (by omega) (by omega)]
    exact h i hi
  · rw [if_neg hb]; exact h i hi

/-- A permutation that moves no index from `n` on maps `0..n-1` to itself. -/
theorem perm_lt_of_fix {n : Nat} {σ : Equiv.Perm Nat} (h : ∀ i, n ≤ i → σ i = i)
    {i : Nat} (hi : i < n) : σ i < n := by
  by_contra hc
  have h1 : σ (σ i) = σ i := h (σ i) (by omega)
  have h2 : σ i = i := σ.injective h1
  omega

/-! ## The loop of `locking` -/

theorem lockingStep_inv {α γ : Type} [LinearOrder α] {R0 RL0 L0 : List α}
    {σ : Equiv.Perm Nat} {tol : α} {j : Nat} {s s1 : LockState α γ}
    (h : LockInv R0 RL0 L0 σ s) (hs : lockingStep tol j s = some s1) :
    (∃ σ1, LockInv R0 RL0 L0 σ1 s1) ∧ s1.converged = s.converged + 1 ∧
      s1.degrees = s.degrees := by
  obtain ⟨h1, h2, h3, h4, h5, h6, h7⟩ := h
  unfold lockingStep at hs
  split at hs
  · split_ifs at hs with hbrk hne
    · cases hs
      refine ⟨⟨stepPerm R0.length j s.converged σ, ?_⟩, rfl, rfl⟩
      refine ⟨?_, ?_, ?_, stepPerm_fix h4, ?_, ?_, ?_⟩
      · simp [swap_kj_length, h1]
      · simp [swap_kj_length, h2]
      · simp [swap_kj_length, h3]
      · exact h5.swap_kj h1 _ _
      · exact h6.swap_kj h2 _ _
      · exact h7.swap_kj h3 _ _
    · cases hs
      exact ⟨⟨σ, h1, h2, h3, h4, h5, h6, h7⟩, rfl, rfl⟩
  · cases hs

theorem lockingWalk_inv {α γ : Type} [LinearOrder α] {R0 RL0 L0 : List α} (tol : α)
    (idx : List Nat) :
    ∀ {σ : Equiv.Perm Nat} {s : LockState α γ}, LockInv R0 RL0 L0 σ s →
      (∃ σ1, LockInv R0 RL0 L0 σ1 (lockingWalk tol idx s)) ∧
      (lockingWalk tol idx s).converged ≤ s.converged + idx.length ∧
      (lockingWalk tol idx s).degrees = s.degrees := by
  induction idx with
  | nil =>
    intro σ s h
    exact ⟨⟨σ, h⟩, by simp [lockingWalk], rfl⟩
  | cons j rest ih =>
    intro σ s h
    unfold lockingWalk
    cases hs : lockingStep tol j s with
    | none => exact ⟨⟨σ, h⟩, by simp, rfl⟩
    | some s1 =>
      obtain ⟨⟨σ1, hinv⟩, hc, hd⟩ := lockingStep_inv h hs
      obtain ⟨h1, h2, h3⟩ := ih hinv
      refine ⟨h1, ?_, ?_⟩
      · simp only [List.length_cons]; omega
      · simp only [h3, hd]

theorem sortIndex_length {α : Type} [LinearOrder α] (n : Nat) (L : List α) :
    (sortIndex n L).length = n := by
  simp [sortIndex, List.length_insertionSort]

/-- The count `locking` returns never exceeds `unconverged`. -/
theorem locking_converged_le {α γ : Type} [LinearOrder α] (unconverged : Nat) (tol : α)
    (Lritzv resid residLast : List α) (degrees : List Nat) (cols : List γ) ( locked : Nat) :
    (locking unconverged tol Lritzv resid residLast degrees cols locked).converged
      ≤ unconverged := by
  unfold locking
  generalize hidx : sortIndex unconverged Lritzv = idx
  have hlen : idx.length = unconverged := by rw [← hidx, sortIndex_length]
  clear hidx
  have key : ∀ (l : List Nat) (s : LockState α γ),
      (lockingWalk tol l s).converged ≤ s.converged + l.length := by
    intro l
    induction l with
    | nil => intro s; simp [lockingWalk]
    | cons j rest ih =>
      intro s
      unfold lockingWalk
      cases hs : lockingStep tol j s with
      | none => simp
      | some s1 =>
        have hc : s1.converged = s.converged + 1 := by
          unfold lockingStep at hs
          split at hs
          · split_ifs at hs <;> cases hs <;> rfl
          · cases hs
        have := ih s1
        simp only [List.length_cons]
        omega
  have h := key idx ⟨resid, residLast, Lritzv, degrees, cols, 0⟩
  simpa [hlen] using h

/-- The three arrays of `locking` are rearranged by one permutation of
`0..unconverged-1`, and the degree array is left as it is. -/
theorem locking_rearranged {α γ : Type} [LinearOrder α] (unconverged : Nat) (tol : α)
    (Lritzv resid residLast : List α) (degrees : List Nat) (cols : List γ) ( locked : Nat)
    (hL : Lritzv.length = unconverged) (hR : resid.length = unconverged)
    (hRL : residLast.length = unconverged) :
    (∃ σ : Equiv.Perm Nat, (∀ i, unconverged ≤ i → σ i = i) ∧
      ∀ i,
        (locking unconverged tol Lritzv resid residLast degrees cols locked).Lritzv[i]?
          = Lritzv[σ i]? ∧
        (locking unconverged tol Lritzv resid residLast degrees cols locked).resid[i]?
          = resid[σ i]? ∧
        (locking unconverged tol Lritzv resid residLast degrees cols locked).residLast[i]?
          = residLast[σ i]?) ∧
    (locking unconverged tol Lritzv resid residLast degrees cols locked).degrees = degrees := by
  have h0 : LockInv resid residLast Lritzv 1
      ({ resid := resid, residLast := residLast, Lritzv := Lritzv, degrees := degrees,
         cols := cols, converged := 0 } : LockState α γ) :=
    ⟨rfl, by simp [hR, hRL], by simp [hR, hL], fun _ _ => rfl,
      Rearranged.refl _, Rearranged.refl _, Rearranged.refl _⟩
  obtain ⟨⟨σ, h1, h2, h3, h4, h5, h6, h7⟩, -, hdeg⟩ :=
    lockingWalk_inv tol (sortIndex unconverged Lritzv) h0
  exact ⟨⟨σ, fun i hi => h4 i (by omega), fun i => ⟨h7 i, h5 i, h6 i⟩⟩, hdeg⟩

/-- C4: `locking` rearranges the Ritz values, the residuals and the previous
residuals by one and the same permutation of `0..unconverged-1`: entry `i` of
each output array is entry `σ i` of the corresponding input array. -/
theorem locking_same_permutation {α γ : Type} [LinearOrder α] (unconverged : Nat) (tol : α)
    (Lritzv resid residLast : List α) (degrees : List Nat) (cols : List γ) ( locked : Nat)
    (hL : Lritzv.length = unconverged) (hR : resid.length = unconverged)
    (hRL : residLast.length = unconverged) :
    ∃ σ : Equiv.Perm Nat, (∀ i, unconverged ≤ i → σ i = i) ∧
      ∀ i,
        (locking unconverged tol Lritzv resid residLast degrees cols locked).Lritzv[i]?
          = Lritzv[σ i]? ∧
        (locking unconverged tol Lritzv resid residLast degrees cols locked).resid[i]?
          = resid[σ i]? ∧
        (locking unconverged tol Lritzv resid residLast degrees cols locked).residLast[i]?
          = residLast[σ i]? :=
  (locking_rearranged unconverged tol Lritzv resid residLast degrees cols locked hL hR hRL).1

/-- A run of C4: three arrays of length 3 with the Ritz values out of order. -/
theorem locking_same_permutation_witness :
    ∃ σ : Equiv.Perm Nat, (∀ i, 3 ≤ i → σ i = i) ∧
      ∀ i,
        (locking 3 (1 : Int) [3, 1, 2] [0, 0, 10] [0, 0, 20] [4, 4, 4] [7, 8, 9] 0).Lritzv[i]?
          = [(3 : Int), 1, 2][σ i]? ∧
        (locking 3 (1 : Int) [3, 1, 2] [0, 0, 10] [0, 0, 20] [4, 4, 4] [7, 8, 9] 0).resid[i]?
          = [(0 : Int), 0, 10][σ i]? ∧
        (locking 3 (1 : Int) [3, 1, 2] [0, 0, 10] [0, 0, 20] [4, 4, 4] [7, 8, 9] 0).residLast[i]?
          = [(0 : Int), 0, 20][σ i]? :=
  locking_same_permutation 3 (1 : Int) [3, 1, 2] [0, 0, 10] [0, 0, 20] [4, 4, 4] [7, 8, 9] 0
    rfl rfl rfl

/-! ## `locking` on Ritz values that are out of order -/

/-- C1: on the Ritz values `[2, 1]`, both converged, `locking` returns 2 and
leaves the Ritz values as `[2, 1]`: the walk takes index 1 first and exchanges
entries 1 and 0, then takes index 0, where the smaller value now sits, and
exchanges entries 0 and 1 back.  The first two entries are not ascending. -/
theorem locking_prefix_not_ascending :
    (locking 2 (1 : Int) [2, 1] [0, 0] [0, 0] [4, 4] [7, 8] 0).converged = 2 ∧
    (locking 2 (1 : Int) [2, 1] [0, 0] [0, 0] [4, 4] [7, 8] 0).Lritzv = [2, 1] := by
  decide

/-- C3: Ritz values `[2, 1]`; the pair with Ritz value 1 is converged, the pair
with Ritz value 2 has residual 10 above the tolerance 1 and below its previous
residual 20, so it is neither converged nor stalled.  In ascending order the
count stops after one pair, yet `locking` returns 2 and the locked prefix holds
both pairs: at the second step it tests entry 0, which by then holds the pair
that was already accepted. -/
theorem locking_counts_unexamined_pair :
    (locking 2 (1 : Int) [2, 1] [10, 0] [20, 0] [4, 4] [7, 8] 0).converged = 2 ∧
    (locking 2 (1 : Int) [2, 1] [10, 0] [20, 0] [4, 4] [7, 8] 0).resid = [10, 0] ∧
    lockedPrefixSpec (1 : Int) [2, 1] [10, 0] [20, 0] = [(1, 0, 0)] := by
  decide

/-- C5: with `locked = 1`, Ritz values `[3, 1, 2]` and columns `[0, 30, 10, 20]`
(column `1 + i` carries ten times Ritz value `i`, column 0 is locked), `locking`
exchanges sequence entries 1 and 0 and with them the absolute columns 1 and 0:
the locked column 0 is overwritten and column `locked + 0` does not carry the
vector of the Ritz value 1 that now sits at entry 0.  `calc_degrees` on the same
layout exchanges the columns `locked + k` and `locked + j` and keeps the
correspondence. -/
theorem locking_swaps_unshifted_columns :
    (locking 3 (1 : Int) [3, 1, 2] [0, 0, 10] [0, 0, 20] [4, 4, 4] [0, 30, 10, 20] 1).Lritzv
      = [1, 3, 2] ∧
    (locking 3 (1 : Int) [3, 1, 2] [0, 0, 10] [0, 0, 20] [4, 4, 4] [0, 30, 10, 20] 1).cols
      = [30, 0, 10, 20] ∧
    (calc_degrees (fun t _ => t.toNat) (⟨1, 20, 2, 36, 0, 25, true⟩ : ChASE_Config Int) 3 1
      [8, 4, 6] [0, 0, 0] [20, 20, 20] [0, 80, 40, 60] 1).2.ritzv = [4, 6, 8] ∧
    (calc_degrees (fun t _ => t.toNat) (⟨1, 20, 2, 36, 0, 25, true⟩ : ChASE_Config Int) 3 1
      [8, 4, 6] [0, 0, 0] [20, 20, 20] [0, 80, 40, 60] 1).2.cols = [0, 40, 60, 80] := by
  decide

/-- C2 as stated fails: a stalled pair (residual 5 above the tolerance 1, and
not below its previous residual 3) is locked. -/
theorem locking_locks_stalled_pair :
    ¬ ∀ i, i < (locking 1 (1 : Int) [1] [5] [3] [4] [7] 0).converged →
      ∀ r, (locking 1 (1 : Int) [1] [5] [3] [4] [7] 0).resid[i]? = some r → r ≤ 1 := by
  intro h
  have h5 := h 0 (by decide) 5 (by decide)
  exact absurd h5 (by decide)

/-! ## `locking` on Ritz values that are already in ascending order -/

theorem sortIndex_of_ascending {α : Type} [LinearOrder α] (n : Nat) {L : List α}
    (hs : L.Pairwise (fun x y => x < y)) : sortIndex n L = List.range n := by
  unfold sortIndex
  apply List.Sorted.insertionSort_eq
  refine List.Pairwise.imp ?_ (List.pairwise_lt_range n)
  intro a b hab
  unfold ritzLess
  split
  · rename_i x y hx hy
    obtain ⟨hb, rfl⟩ := List.getElem?_eq_some.mp hx
    obtain ⟨ha, rfl⟩ := List.getElem?_eq_some.mp hy
    have hlt : L[a] < L[b] := List.pairwise_iff_getElem.mp hs a b ha hb hab
    simpa using le_of_lt hlt
  · rfl

/-- Walking the positions `c, c+1, ...` from a state whose count is `c` makes no
exchange: the arrays stay as they are and every position below the final count
passed the test of lines 98-101. -/
theorem lockingWalk_identity {α γ : Type} [LinearOrder α] (tol : α) (m : Nat) :
    ∀ (c : Nat) (s : LockState α γ), s.converged = c →
      (lockingWalk tol (List.range' c m) s).resid = s.resid ∧
      (lockingWalk tol (List.range' c m) s).residLast = s.residLast ∧
      (lockingWalk tol (List.range' c m) s).Lritzv = s.Lritzv ∧
      (lockingWalk tol (List.range' c m) s).cols = s.cols ∧
      ∀ i, c ≤ i → i < (lockingWalk tol (List.range' c m) s).converged →
        ∀ r rl, s.resid[i]? = some r → s.residLast[i]? = some rl →
          r ≤ tol ∨ ¬ r < rl := by
  induction m with
  | zero =>
    intro c s hc
    simp only [List.range'_zero, lockingWalk, true_and]
    intro i h1 h2
    omega
  | succ m ih =>
    intro c s hc
    rw [List.range'_succ]
    unfold lockingWalk
    cases hs : lockingStep tol c s with
    | none =>
      simp only [true_and]
      intro i h1 h2
      omega
    | some s1 =>
      simp only
      unfold lockingStep at hs
      split at hs
      · rename_i r0 rl0 hr0 hrl0
        split_ifs at hs with hbrk hne
        · exact absurd hc.symm hne
        · cases hs
          obtain ⟨h1, h2, h3, h4, h5⟩ :=
            ih (c + 1) { s with converged := s.converged + 1 } (by simp [hc])
          refine ⟨h1, h2, h3, h4, ?_⟩
          intro i hi1 hi2 r rl hr hrl
          by_cases hic : i = c
          · subst hic
            rw [hr0] at hr
            rw [hrl0] at hrl
            cases hr
            cases hrl
            by_contra hcon
            push_neg at hcon
            exact hbrk ⟨hcon.1, hcon.2⟩
          · exact h5 i (by omega) hi2 r rl hr hrl
      · cases hs

/-- C2, amended: when the Ritz values handed to `locking` are in strictly
ascending order, every one of the first `converged` entries of the residual
sequence is at most `tol` or is not smaller than its previous residual (the
pair is stalled). -/
theorem locking_prefix_converged_or_stalled {α γ : Type} [LinearOrder α]
    (unconverged : Nat) (tol : α) (Lritzv resid residLast : List α) (degrees : List Nat)
    (cols : List γ) ( locked : Nat) (hs : Lritzv.Pairwise (fun x y => x < y)) :
    ∀ i, i < (locking unconverged tol Lritzv resid residLast degrees cols locked).converged →
      ∀ r rl,
        (locking unconverged tol Lritzv resid residLast degrees cols locked).resid[i]? = some r →
        (locking unconverged tol Lritzv resid residLast degrees cols locked).residLast[i]?
          = some rl →
        r ≤ tol ∨ ¬ r < rl := by
  unfold locking
  rw [sortIndex_of_ascending unconverged hs, List.range_eq_range']
  obtain ⟨h1, h2, -, -, h5⟩ := lockingWalk_identity tol unconverged 0
    (⟨resid, residLast, Lritzv, degrees, cols, 0⟩ : LockState α γ) rfl
  intro i hi r rl hr hrl
  rw [h1] at hr
  rw [h2] at hrl
  exact h5 i (Nat.zero_le i) hi r rl hr hrl

/-- A run of the amended C2: ascending Ritz values, the second pair stalled
(residual 5 above the tolerance 1, previous residual 3). -/
theorem locking_prefix_converged_or_stalled_witness :
    [(1 : Int), 2, 3].Pairwise (fun x y => x < y) ∧
    1 < (locking 3 (1 : Int) [1, 2, 3] [0, 5, 7] [0, 3, 9] [4, 4, 4] [7, 8, 9] 0).converged ∧
    (locking 3 (1 : Int) [1, 2, 3] [0, 5, 7] [0, 3, 9] [4, 4, 4] [7, 8, 9] 0).resid[1]?
      = some 5 ∧
    (locking 3 (1 : Int) [1, 2, 3] [0, 5, 7] [0, 3, 9] [4, 4, 4] [7, 8, 9] 0).residLast[1]?
      = some 3 ∧
    ((5 : Int) ≤ 1 ∨ ¬ (5 : Int) < 3) := by
  have h := locking_prefix_converged_or_stalled 3 (1 : Int) [1, 2, 3] [0, 5, 7] [0, 3, 9]
    [4, 4, 4] [7, 8, 9] 0 (by decide) 1 (by decide) 5 3 (by decide) (by decide)
  exact ⟨by decide, by decide, by decide, by decide, h⟩

/-! ## The degrees `calc_degrees` computes (lines 50-65) -/

theorem degAt_set (d : List Nat) (i j v : Nat) :
    degAt (d.set i v) j = if i = j ∧ i < d.length then v else degAt d j := by
  unfold degAt
  rw [List.getElem?_set]
  by_cases h : i = j
  · subst h
    by_cases h2 : i < d.length
    · simp [h2]
    · simp [h2, List.getElem?_eq_none (show d.length ≤ i by omega)]
  · simp [h]

theorem degAt_of_getElem? {d : List Nat} {i v : Nat} (h : d[i]? = some v) : degAt d i = v := by
  simp [degAt, h]

theorem degAt_of_none {d : List Nat} {i : Nat} (h : d[i]? = none) : degAt d i = 0 := by
  simp [degAt, h]

/-- After lines 50-57 every computed slot is at most `getMaxDeg()`. -/
theorem degreeLoop_le {α : Type} (est : α → α → Nat) (conf : ChASE_Config α)
    (m : Nat) (ritzv resid : List α) (degrees : List Nat)
    (hr : m ≤ ritzv.length) (hs : m ≤ resid.length) :
    ∀ i, i < m →
      degAt (forRange 0 m (degreeSlot est conf ritzv resid) degrees) i ≤ conf.maxDeg := by
  apply forRange_invariant
    (fun k d => ∀ i, i < k → degAt d i ≤ conf.maxDeg) (Nat.zero_le m)
  · intro i hi; omega
  · intro k d _ hk ih i hi
    unfold degreeSlot
    rw [List.getElem?_eq_getElem (show k < ritzv.length by omega),
      List.getElem?_eq_getElem (show k < resid.length by omega)]
    simp only
    rw [degAt_set]
    split_ifs with h
    · exact Nat.min_le_right _ _
    · by_cases hik : i = k
      · subst hik
        have hlen : d.length ≤ i := by
          by_contra hc
          exact h ⟨rfl, by omega⟩
        rw [degAt_of_none (List.getElem?_eq_none hlen)]
        exact Nat.zero_le _
      · exact ih i (by omega)

/-- After lines 59-61 every slot below `unconverged` is at most `getMaxDeg()`. -/
theorem copyLoop_le (M unconverged nex : Nat) (d1 : List Nat) (hn : nex < unconverged)
    (h1 : ∀ i, i < unconverged - nex → degAt d1 i ≤ M) :
    ∀ i, i < unconverged →
      degAt (forRange (unconverged - nex) unconverged (copySlot unconverged nex) d1) i ≤ M := by
  apply forRange_invariant
    (fun k d => ∀ i, i < k → degAt d i ≤ M) (Nat.sub_le _ _)
  · exact h1
  · intro k d hk1 hk2 ih i hi
    unfold copySlot
    split
    · rename_i v hv
      rw [degAt_set]
      split_ifs with h
      · have := ih (unconverged - 1 - nex) (by omega)
        rw [degAt_of_getElem? hv] at this
        exact this
      · by_cases hik : i = k
        · subst hik
          have hlen : d.length ≤ i := by
            by_contra hc
            exact h ⟨rfl, by omega⟩
          rw [degAt_of_none (List.getElem?_eq_none hlen)]
          exact Nat.zero_le _
        · exact ih i (by omega)
    · rename_i hv
      by_cases hik : i = k
      · subst hik
        have hlen : d.length ≤ i := by
          have h0 : d.length ≤ unconverged - 1 - nex := by
            by_contra hc
            rw [List.getElem?_eq_getElem (by omega)] at hv
            cases hv
          omega
        rw [degAt_of_none (List.getElem?_eq_none hlen)]
        exact Nat.zero_le _
      · exact ih i (by omega)

/-- Lines 63-65 turn a property `A` of every slot into the property `B` of
every slot, when `B` holds of `d + d % 2` (unsigned) for every `d` with `A`. -/
theorem evenLoop_all (A B : Nat → Prop) (hAB : ∀ v, A v → B (uadd v (v % 2)))
    (n : Nat) (d2 : List Nat) (hA : ∀ i, i < n → A (degAt d2 i)) :
    ∀ i, i < n → B (degAt (forRange 0 n evenSlot d2) i) := by
  have key : ∀ i, i < n →
      (i < n → B (degAt (forRange 0 n evenSlot d2) i)) ∧
      (n ≤ i → A (degAt (forRange 0 n evenSlot d2) i)) := by
    apply forRange_invariant
      (fun k d => ∀ i, i < n → (i < k → B (degAt d i)) ∧ (k ≤ i → A (degAt d i)))
      (Nat.zero_le n)
    · intro i hi
      exact ⟨fun h => by omega, fun _ => hA i hi⟩
    · intro k d _ hk ih i hi
      have hzero : uadd 0 (0 % 2) = 0 := by decide
      unfold evenSlot
      split
      · rename_i v hv
        rw [degAt_set]
        have hklen : k < d.length := (List.getElem?_eq_some.mp hv).1
        by_cases hik : k = i
        · subst hik
          rw [if_pos ⟨rfl, hklen⟩]
          have hAv : A v := by
            have := (ih k hi).2 (Nat.le_refl k)
            rwa [degAt_of_getElem? hv] at this
          exact ⟨fun _ => hAB v hAv, fun h => by omega⟩
        · rw [if_neg (fun h => hik h.1)]
          exact ⟨fun h => (ih i hi).1 (by omega), fun h => (ih i hi).2 (by omega)⟩
      · rename_i hv
        by_cases hik : k = i
        · subst hik
          have h0 : degAt d k = 0 := degAt_of_none hv
          have hA0 : A 0 := by
            have := (ih k hi).2 (Nat.le_refl k)
            rwa [h0] at this
          refine ⟨fun _ => ?_, fun h => by omega⟩
          rw [h0, ← hzero]
          exact hAB 0 hA0
        · exact ⟨fun h => (ih i hi).1 (by omega), fun h => (ih i hi).2 (by omega)⟩
  intro i hi
  exact (key i hi).1 hi

theorem uadd_parity_even (v : Nat) : uadd v (v % 2) % 2 = 0 := by
  unfold uadd sizeMod
  omega

theorem uadd_parity_le (v M : Nat) (h : v ≤ M) : uadd v (v % 2) ≤ M + M % 2 := by
  unfold uadd sizeMod
  have : (v + v % 2) % 18446744073709551616 ≤ v + v % 2 := Nat.mod_le _ _
  omega

/-- Every degree of lines 50-65 is even. -/
theorem computedDegrees_even {α : Type} (est : α → α → Nat) (conf : ChASE_Config α)
    (unconverged nex : Nat) (ritzv resid : List α) (degrees : List Nat) :
    ∀ i, i < unconverged →
      degAt (computedDegrees est conf unconverged nex ritzv resid degrees) i % 2 = 0 := by
  unfold computedDegrees
  exact evenLoop_all (fun _ => True) (fun v => v % 2 = 0)
    (fun v _ => uadd_parity_even v) unconverged _ (fun _ _ => trivial)

/-- Every degree of lines 50-65 is at most `getMaxDeg()` rounded up to even. -/
theorem computedDegrees_le {α : Type} (est : α → α → Nat) (conf : ChASE_Config α)
    (unconverged nex : Nat) (ritzv resid : List α) (degrees : List Nat)
    (hn : nex < unconverged) (hr : ritzv.length = unconverged)
    (hs : resid.length = unconverged) :
    ∀ i, i < unconverged →
      degAt (computedDegrees est conf unconverged nex ritzv resid degrees) i
        ≤ conf.maxDeg + conf.maxDeg % 2 := by
  unfold computedDegrees
  apply evenLoop_all (fun v => v ≤ conf.maxDeg) (fun v => v ≤ conf.maxDeg + conf.maxDeg % 2)
    (fun v hv => uadd_parity_le v conf.maxDeg hv)
  apply copyLoop_le conf.maxDeg unconverged nex _ hn
  exact degreeLoop_le est conf (unconverged - nex) ritzv resid degrees (by omega) (by omega)

/-! ## The sort of `calc_degrees` (lines 68-75): one permutation for all arrays -/

theorem swap_shift (locked k j i : Nat) :
    Equiv.swap (k + locked) (j + locked) (locked + i) = locked + Equiv.swap k j i := by
  simp only [Equiv.swap_apply_def]
  split_ifs <;> omega

theorem stepPerm_of_lt {n k j : Nat} (σ : Equiv.Perm Nat) (hk : k < n) (hj : j < n) (i : Nat) :
    stepPerm n k j σ i = σ (Equiv.swap k j i) := by
  unfold stepPerm
  rw [if_pos ⟨hk, hj⟩, Equiv.Perm.mul_apply]

theorem sortStep_inv {α γ : Type} {n locked j k : Nat} {s0 s : DegState α γ}
    {σ : Equiv.Perm Nat} (h : DegInv n locked s0 σ s) (hj : j < n) (hk : k < n) :
    ∃ σ1, DegInv n locked s0 σ1 (sortStep locked j k s) := by
  obtain ⟨h1, h2, h3, h4, h5, h6, h7, h8, h9, h10⟩ := h
  unfold sortStep
  rw [List.getElem?_eq_getElem (show k < s.degrees.length by omega),
    List.getElem?_eq_getElem (show j < s.degrees.length by omega)]
  simp only
  split_ifs with hlt
  · refine ⟨stepPerm n k j σ, ?_, ?_, ?_, ?_, stepPerm_fix h5, h6.swap_kj h1 _ _,
      h7.swap_kj h2 _ _, h8.swap_kj h3 _ _, ?_, ?_⟩
    · simp [swap_kj_length, h1]
    · simp [swap_kj_length, h2]
    · simp [swap_kj_length, h3]
    · simp only [swap, swap_kj_length]; exact h4
    · intro i
      simp only [swap]
      rw [swap_kj_getElem? (by omega) (by omega), swap_shift, h9, stepPerm_of_lt σ hk hj]
    · intro c hc
      simp only [swap]
      rw [swap_kj_getElem? (by omega) (by omega),
        Equiv.swap_apply_of_ne_of_ne (by omega) (by omega)]
      exact h10 c hc
  · exact ⟨σ, h1, h2, h3, h4, h5, h6, h7, h8, h9, h10⟩

theorem sortByDegree_inv {α γ : Type} {n locked : Nat} {s0 : DegState α γ}
    (h0 : DegInv n locked s0 1 s0) :
    ∃ σ, DegInv n locked s0 σ (sortByDegree n locked s0) := by
  unfold sortByDegree
  apply forRange_invariant (fun _ s => ∃ σ, DegInv n locked s0 σ s) (Nat.zero_le _)
  · exact ⟨1, h0⟩
  · intro j s _ hj ih
    by_cases hjn : j ≤ n
    · apply forRange_invariant (fun _ t => ∃ σ, DegInv n locked s0 σ t) hjn
      · exact ih
      · intro k t _ hk ⟨σ, hσ⟩
        exact sortStep_inv hσ (by omega) hk
    · omega

/-! ## The sort of `calc_degrees`: the degrees end up in ascending order -/

theorem degAt_swap_kj {d : List Nat} {k j : Nat} (hk : k < d.length) (hj : j < d.length)
    (i : Nat) : degAt (swap_kj k j d) i = degAt d (Equiv.swap k j i) := by
  unfold degAt
  rw [swap_kj_getElem? hk hj]

theorem sortStep_degAt {α γ : Type} (locked j k : Nat) (s : DegState α γ)
    (hj : j < s.degrees.length) (hk : k < s.degrees.length) :
    (sortStep locked j k s).degrees.length = s.degrees.length ∧
    ∀ i, degAt (sortStep locked j k s).degrees i =
      if degAt s.degrees k < degAt s.degrees j then degAt s.degrees (Equiv.swap k j i)
      else degAt s.degrees i := by
  have ek : degAt s.degrees k = s.degrees[k] := by simp [degAt, hk]
  have ej : degAt s.degrees j = s.degrees[j] := by simp [degAt, hj]
  unfold sortStep
  rw [List.getElem?_eq_getElem hk, List.getElem?_eq_getElem hj]
  simp only
  rw [ek, ej]
  split_ifs with hlt
  · exact ⟨swap_kj_length _ _ _, fun i => degAt_swap_kj hk hj i⟩
  · exact ⟨rfl, fun _ => rfl⟩

/-- The inner loop for a fixed `j` (lines 69-75) brings the smallest degree of
the slots `j..n-1` to slot `j` and keeps what the outer loop has established. -/
theorem sortInner_sorted {α γ : Type} {n locked j : Nat} (hj : j < n) (s : DegState α γ)
    (hlen : s.degrees.length = n)
    (hout : ∀ a b, a < j → a ≤ b → b < n → degAt s.degrees a ≤ degAt s.degrees b) :
    (forRange j n (fun k t => sortStep locked j k t) s).degrees.length = n ∧
    (∀ a b, a < j + 1 → a ≤ b → b < n →
      degAt (forRange j n (fun k t => sortStep locked j k t) s).degrees a
        ≤ degAt (forRange j n (fun k t => sortStep locked j k t) s).degrees b) := by
  have key := forRange_invariant
    (fun k (t : DegState α γ) => t.degrees.length = n ∧
      (∀ a b, a < j → a ≤ b → b < n → degAt t.degrees a ≤ degAt t.degrees b) ∧
      (∀ i, j ≤ i → i < k → degAt t.degrees j ≤ degAt t.degrees i))
    (Nat.le_of_lt hj) (fun k t => sortStep locked j k t) s
    ⟨hlen, hout, fun i h1 h2 => by omega⟩
    (by
      intro k t hk1 hk2 ⟨hl, ho, hi⟩
      obtain ⟨hl1, hd⟩ := sortStep_degAt locked j k t
        (show j < t.degrees.length by omega) (show k < t.degrees.length by omega)
      dsimp only
      refine ⟨by omega, ?_, ?_⟩
      · intro a b ha hab hb
        rw [hd a, hd b]
        split_ifs with hlt
        · rw [Equiv.swap_apply_of_ne_of_ne (show a ≠ k by omega) (show a ≠ j by omega)]
          apply ho a _ ha
          · simp only [Equiv.swap_apply_def]
            split_ifs <;> omega
          · simp only [Equiv.swap_apply_def]
            split_ifs <;> omega
        · exact ho a b ha hab hb
      · intro i hi1 hi2
        rw [hd j, hd i]
        split_ifs with hlt
        · rw [Equiv.swap_apply_right]
          by_cases hik : i = k
          · subst hik
            rw [Equiv.swap_apply_left]
            exact Nat.le_of_lt hlt
          · by_cases hij : i = j
            · subst hij
              rw [Equiv.swap_apply_right]
            · rw [Equiv.swap_apply_of_ne_of_ne hik hij]
              have := hi i hi1 (by omega)
              omega
        · by_cases hik : i = k
          · subst hik
            omega
          · exact hi i hi1 (by omega))
  obtain ⟨k1, k2, k3⟩ := key
  refine ⟨k1, ?_⟩
  intro a b ha hab hb
  by_cases haj : a = j
  · subst haj
    exact k3 b hab hb
  · exact k2 a b (by omega) hab hb

theorem sortByDegree_sorted {α γ : Type} (n locked : Nat) (s : DegState α γ)
    (hlen : s.degrees.length = n) :
    (sortByDegree n locked s).degrees.length = n ∧
    ∀ a b, a ≤ b → b < n →
      degAt (sortByDegree n locked s).degrees a ≤ degAt (sortByDegree n locked s).degrees b := by
  have key := forRange_invariant
    (fun j (t : DegState α γ) => t.degrees.length = n ∧
      (∀ a b, a < j → a ≤ b → b < n → degAt t.degrees a ≤ degAt t.degrees b))
    (Nat.zero_le (n - 1))
    (fun j acc => forRange j n (fun k acc1 => sortStep locked j k acc1) acc) s
    ⟨hlen, fun a b h => by omega⟩
    (by
      intro j t _ hj ⟨hl, ho⟩
      dsimp only
      exact sortInner_sorted (show j < n by omega) t hl ho)
  obtain ⟨k1, k2⟩ := key
  refine ⟨k1, ?_⟩
  intro a b hab hb
  by_cases ha : a < n - 1
  · exact k2 a b ha hab hb
  · have : a = b := by omega
    subst this
    exact Nat.le_refl _

/-! ## `calc_degrees`: range, parity and order of the degrees -/

theorem forRange_length (lo hi : Nat) (body : Nat → List Nat → List Nat)
    (hb : ∀ i d, (body i d).length = d.length) (d : List Nat) :
    (forRange lo hi body d).length = d.length := by
  unfold forRange
  generalize List.range' lo (hi - lo) = l
  induction l generalizing d with
  | nil => rfl
  | cons x xs ih =>
    rw [List.foldl_cons, ih, hb]

theorem computedDegrees_length {α : Type} (est : α → α → Nat) (conf : ChASE_Config α)
    (unconverged nex : Nat) (ritzv resid : List α) (degrees : List Nat) :
    (computedDegrees est conf unconverged nex ritzv resid degrees).length = degrees.length := by
  unfold computedDegrees
  simp only
  rw [forRange_length, forRange_length, forRange_length]
  · intro i d
    unfold degreeSlot
    split <;> simp
  · intro i d
    unfold copySlot
    split <;> simp
  · intro i d
    unfold evenSlot
    split <;> simp

/-- The sort moves degrees around without changing them: what holds of every
slot before the sort holds of every slot after it. -/
theorem sortByDegree_all {α γ : Type} (Q : Nat → Prop) (n locked : Nat) (s : DegState α γ)
    (hlen : s.degrees.length = n) (h : ∀ i, i < n → Q (degAt s.degrees i)) :
    ∀ i, i < n → Q (degAt (sortByDegree n locked s).degrees i) := by
  have key := forRange_invariant
    (fun _ (t : DegState α γ) => t.degrees.length = n ∧ ∀ i, i < n → Q (degAt t.degrees i))
    (Nat.zero_le (n - 1))
    (fun j acc => forRange j n (fun k acc1 => sortStep locked j k acc1) acc) s ⟨hlen, h⟩
    (by
      intro j t _ hj ht
      dsimp only
      apply forRange_invariant
        (fun _ (u : DegState α γ) => u.degrees.length = n ∧ ∀ i, i < n → Q (degAt u.degrees i))
        (show j ≤ n by omega)
      · exact ht
      · intro k u _ hk ⟨hl, hq⟩
        obtain ⟨hl1, hd⟩ := sortStep_degAt locked j k u
          (show j < u.degrees.length by omega) (show k < u.degrees.length by omega)
        refine ⟨by omega, ?_⟩
        intro i hi
        rw [hd i]
        split_ifs
        · apply hq
          simp only [Equiv.swap_apply_def]
          split_ifs <;> omega
        · exact hq i hi)
  exact key.2

/-- C6 as stated fails: with `minDeg = 10`, `maxDeg = 35`, no extra degree and
the raw degrees 0 and 100 for the two computed slots, `calc_degrees` leaves the
degrees `[0, 36, 36]`: 0 is below `minDeg` (no line of `calc_degrees` reads
`minDeg`) and 36 is above `maxDeg` (the cap of line 56 comes before the rounding
to even of line 64). -/
theorem calc_degrees_outside_range :
    (calc_degrees (fun t _ => t.toNat) (⟨1, 20, 10, 35, 0, 25, true⟩ : ChASE_Config Int) 3 1
      [0, 100, 7] [0, 0, 0] [20, 20, 20] [7, 8, 9] 0).2.degrees = [0, 36, 36] ∧
    ¬ ∀ i, i < 3 → ∀ v,
      (calc_degrees (fun t _ => t.toNat) (⟨1, 20, 10, 35, 0, 25, true⟩ : ChASE_Config Int) 3 1
        [0, 100, 7] [0, 0, 0] [20, 20, 20] [7, 8, 9] 0).2.degrees[i]? = some v →
      10 ≤ v ∧ v ≤ 35 := by
  refine ⟨by decide, ?_⟩
  intro h
  have h0 := h 0 (by decide) 0 (by decide)
  omega

/-- C6, amended: for every input with `unconverged > nex`, every degree that
`calc_degrees` leaves in `degrees[0..unconverged)` is at most `maxDeg` rounded up
to even, `maxDeg + maxDeg % 2` (so at most `maxDeg` when `maxDeg` is even),
whatever the extra-degree margin is; no lower bound `minDeg` is enforced. -/
theorem calc_degrees_le_maxDeg_even {α γ : Type} (est : α → α → Nat) (conf : ChASE_Config α)
    (unconverged nex : Nat) (ritzv resid : List α) (degrees : List Nat) (cols : List γ)
    ( locked : Nat) (hn : nex < unconverged) (hr : ritzv.length = unconverged)
    (hs : resid.length = unconverged) (hd : degrees.length = unconverged) :
    ∀ i, i < unconverged →
      degAt (calc_degrees est conf unconverged nex ritzv resid degrees cols locked).2.degrees i
        ≤ conf.maxDeg + conf.maxDeg % 2 := by
  unfold calc_degrees
  simp only
  apply sortByDegree_all (fun v => v ≤ conf.maxDeg + conf.maxDeg % 2)
  · simp only [computedDegrees_length, hd]
  · exact computedDegrees_le est conf unconverged nex ritzv resid degrees hn hr hs

/-- A run of the amended C6: the configuration and input of the counterexample,
at slot 1. -/
theorem calc_degrees_le_maxDeg_even_witness :
    1 < 3 ∧ [(0 : Int), 100, 7].length = 3 ∧
    degAt (calc_degrees (fun t _ => t.toNat) (⟨1, 20, 10, 35, 0, 25, true⟩ : ChASE_Config Int)
      3 1 [0, 100, 7] [0, 0, 0] [20, 20, 20] [7, 8, 9] 0).2.degrees 1 ≤ 35 + 35 % 2 := by
  have h := calc_degrees_le_maxDeg_even (fun t _ => t.toNat)
    (⟨1, 20, 10, 35, 0, 25, true⟩ : ChASE_Config Int)
    3 1 [0, 100, 7] [0, 0, 0] [20, 20, 20] [7, 8, 9] 0 (by decide) rfl rfl rfl 1 (by decide)
  exact ⟨by decide, rfl, h⟩

/-- C7: for every input with `unconverged > nex`, every degree that
`calc_degrees` leaves in `degrees[0..unconverged)` is even, and so is the value
it returns. -/
theorem calc_degrees_even {α γ : Type} (est : α → α → Nat) (conf : ChASE_Config α)
    (unconverged nex : Nat) (ritzv resid : List α) (degrees : List Nat) (cols : List γ)
    ( locked : Nat) (hn : nex < unconverged) (hd : degrees.length = unconverged) :
    (∀ i, i < unconverged →
      degAt (calc_degrees est conf unconverged nex ritzv resid degrees cols locked).2.degrees i
        % 2 = 0) ∧
    (calc_degrees est conf unconverged nex ritzv resid degrees cols locked).1 % 2 = 0 := by
  have hall : ∀ i, i < unconverged →
      degAt (calc_degrees est conf unconverged nex ritzv resid degrees cols locked).2.degrees i
        % 2 = 0 := by
    unfold calc_degrees
    simp only
    apply sortByDegree_all (fun v => v % 2 = 0)
    · simp only [computedDegrees_length, hd]
    · exact computedDegrees_even est conf unconverged nex ritzv resid degrees
  refine ⟨hall, ?_⟩
  have hlast := hall (unconverged - 1) (by omega)
  unfold calc_degrees at hlast ⊢
  simp only [List.getD_eq_getElem?_getD] at hlast ⊢
  exact hlast

/-- A run of C7: six slots, two of them buffer slots. -/
theorem calc_degrees_even_witness :
    (∀ i, i < 6 →
      degAt (calc_degrees (fun t _ => t.toNat) (⟨1, 20, 10, 35, 0, 25, true⟩ : ChASE_Config Int)
        6 2 [9, 1, 5, 3, 8, 7] [0, 0, 0, 1, 1, 1] [20, 20, 20, 20, 20, 20]
        [7, 8, 9, 10, 11, 12] 0).2.degrees i % 2 = 0) ∧
    (calc_degrees (fun t _ => t.toNat) (⟨1, 20, 10, 35, 0, 25, true⟩ : ChASE_Config Int)
        6 2 [9, 1, 5, 3, 8, 7] [0, 0, 0, 1, 1, 1] [20, 20, 20, 20, 20, 20]
        [7, 8, 9, 10, 11, 12] 0).1 % 2 = 0 := by
  have h := calc_degrees_even (fun t _ => t.toNat)
    (⟨1, 20, 10, 35, 0, 25, true⟩ : ChASE_Config Int)
    6 2 [9, 1, 5, 3, 8, 7] [0, 0, 0, 1, 1, 1] [20, 20, 20, 20, 20, 20]
    [7, 8, 9, 10, 11, 12] 0 (by decide) rfl
  exact h

/-- One permutation of `0..unconverged-1` rearranges the computed degrees, the
Ritz values, the residuals and the columns `locked + i` in `calc_degrees`. -/
theorem calc_degrees_rearranged {α γ : Type} (est : α → α → Nat) (conf : ChASE_Config α)
    (unconverged nex : Nat) (ritzv resid : List α) (degrees : List Nat) (cols : List γ)
    ( locked : Nat) (hr : ritzv.length = unconverged) (hs : resid.length = unconverged)
    (hd : degrees.length = unconverged) (hc : locked + unconverged ≤ cols.length) :
    ∃ σ : Equiv.Perm Nat, (∀ i, unconverged ≤ i → σ i = i) ∧
      (∀ i,
        (calc_degrees est conf unconverged nex ritzv resid degrees cols locked).2.degrees[i]?
          = (computedDegrees est conf unconverged nex ritzv resid degrees)[σ i]? ∧
        (calc_degrees est conf unconverged nex ritzv resid degrees cols locked).2.ritzv[i]?
          = ritzv[σ i]? ∧
        (calc_degrees est conf unconverged nex ritzv resid degrees cols locked).2.resid[i]?
          = resid[σ i]? ∧
        (calc_degrees est conf unconverged nex ritzv resid degrees cols locked).2.cols[locked + i]?
          = cols[locked + σ i]?) ∧
      ∀ c, c < locked →
        (calc_degrees est conf unconverged nex ritzv resid degrees cols locked).2.cols[c]?
          = cols[c]? := by
  have hcl : (computedDegrees est conf unconverged nex ritzv resid degrees).length
      = unconverged := by rw [computedDegrees_length, hd]
  unfold calc_degrees
  simp only
  have h0 : DegInv unconverged locked
      (⟨computedDegrees est conf unconverged nex ritzv resid degrees, ritzv, resid, cols⟩ :
        DegState α γ) 1
      ⟨computedDegrees est conf unconverged nex ritzv resid degrees, ritzv, resid, cols⟩ :=
    ⟨hcl, hr, hs, hc, fun _ _ => rfl, Rearranged.refl _, Rearranged.refl _,
      Rearranged.refl _, fun _ => rfl, fun _ _ => rfl⟩
  obtain ⟨σ, -, -, -, -, g5, g6, g7, g8, g9, g10⟩ := sortByDegree_inv h0
  exact ⟨σ, g5, fun i => ⟨g6 i, g7 i, g8 i, g9 i⟩, g10⟩

/-- C8: `calc_degrees` sorts the unconverged eigenpairs ascending by degree as
whole records: on return `degrees[0..unconverged)` is non-decreasing, and one
permutation `σ` of `0..unconverged-1` rearranges the computed degrees, the
input Ritz values, the input residuals and the search-space columns
`locked + i`; the columns below `locked` are left as they were. -/
theorem calc_degrees_sorts_records {α γ : Type} (est : α → α → Nat) (conf : ChASE_Config α)
    (unconverged nex : Nat) (ritzv resid : List α) (degrees : List Nat) (cols : List γ)
    ( locked : Nat) (hr : ritzv.length = unconverged) (hs : resid.length = unconverged)
    (hd : degrees.length = unconverged) (hc : locked + unconverged ≤ cols.length) :
    (calc_degrees est conf unconverged nex ritzv resid degrees cols locked).2.degrees.Pairwise
      (fun x y => x ≤ y) ∧
    ∃ σ : Equiv.Perm Nat, (∀ i, unconverged ≤ i → σ i = i) ∧
      (∀ i,
        (calc_degrees est conf unconverged nex ritzv resid degrees cols locked).2.degrees[i]?
          = (computedDegrees est conf unconverged nex ritzv resid degrees)[σ i]? ∧
        (calc_degrees est conf unconverged nex ritzv resid degrees cols locked).2.ritzv[i]?
          = ritzv[σ i]? ∧
        (calc_degrees est conf unconverged nex ritzv resid degrees cols locked).2.resid[i]?
          = resid[σ i]? ∧
        (calc_degrees est conf unconverged nex ritzv resid degrees cols locked).2.cols[locked + i]?
          = cols[locked + σ i]?) ∧
      ∀ c, c < locked →
        (calc_degrees est conf unconverged nex ritzv resid degrees cols locked).2.cols[c]?
          = cols[c]? := by
  have hcl : (computedDegrees est conf unconverged nex ritzv resid degrees).length
      = unconverged := by rw [computedDegrees_length, hd]
  unfold calc_degrees
  simp only
  constructor
  · obtain ⟨h1, h2⟩ := sortByDegree_sorted unconverged locked
      (⟨computedDegrees est conf unconverged nex ritzv resid degrees, ritzv, resid, cols⟩ :
        DegState α γ) hcl
    rw [List.pairwise_iff_getElem]
    intro a b ha hb hab
    have := h2 a b (Nat.le_of_lt hab) (by omega)
    simpa [degAt, ha, hb] using this
  · exact calc_degrees_rearranged est conf unconverged nex ritzv resid degrees cols locked
      hr hs hd hc

/-- A run of C8: six slots behind one locked column. -/
theorem calc_degrees_sorts_records_witness :
    (calc_degrees (fun t _ => t.toNat) (⟨1, 20, 10, 35, 0, 25, true⟩ : ChASE_Config Int)
      6 2 [9, 1, 5, 3, 8, 7] [0, 0, 0, 1, 1, 1] [20, 20, 20, 20, 20, 20]
      [6, 7, 8, 9, 10, 11, 12] 1).2.degrees.Pairwise (fun x y => x ≤ y) ∧
    ∃ σ : Equiv.Perm Nat, (∀ i, 6 ≤ i → σ i = i) ∧
      (∀ i,
        (calc_degrees (fun t _ => t.toNat) (⟨1, 20, 10, 35, 0, 25, true⟩ : ChASE_Config Int)
          6 2 [9, 1, 5, 3, 8, 7] [0, 0, 0, 1, 1, 1] [20, 20, 20, 20, 20, 20]
          [6, 7, 8, 9, 10, 11, 12] 1).2.degrees[i]?
          = (computedDegrees (fun t _ => t.toNat)
              (⟨1, 20, 10, 35, 0, 25, true⟩ : ChASE_Config Int)
              6 2 [9, 1, 5, 3, 8, 7] [0, 0, 0, 1, 1, 1] [20, 20, 20, 20, 20, 20])[σ i]? ∧
        (calc_degrees (fun t _ => t.toNat) (⟨1, 20, 10, 35, 0, 25, true⟩ : ChASE_Config Int)
          6 2 [9, 1, 5, 3, 8, 7] [0, 0, 0, 1, 1, 1] [20, 20, 20, 20, 20, 20]
          [6, 7, 8, 9, 10, 11, 12] 1).2.ritzv[i]? = [(9 : Int), 1, 5, 3, 8, 7][σ i]? ∧
        (calc_degrees (fun t _ => t.toNat) (⟨1, 20, 10, 35, 0, 25, true⟩ : ChASE_Config Int)
          6 2 [9, 1, 5, 3, 8, 7] [0, 0, 0, 1, 1, 1] [20, 20, 20, 20, 20, 20]
          [6, 7, 8, 9, 10, 11, 12] 1).2.resid[i]? = [(0 : Int), 0, 0, 1, 1, 1][σ i]? ∧
        (calc_degrees (fun t _ => t.toNat) (⟨1, 20, 10, 35, 0, 25, true⟩ : ChASE_Config Int)
          6 2 [9, 1, 5, 3, 8, 7] [0, 0, 0, 1, 1, 1] [20, 20, 20, 20, 20, 20]
          [6, 7, 8, 9, 10, 11, 12] 1).2.cols[1 + i]? = [6, 7, 8, 9, 10, 11, 12][1 + σ i]?) ∧
      ∀ c, c < 1 →
        (calc_degrees (fun t _ => t.toNat) (⟨1, 20, 10, 35, 0, 25, true⟩ : ChASE_Config Int)
          6 2 [9, 1, 5, 3, 8, 7] [0, 0, 0, 1, 1, 1] [20, 20, 20, 20, 20, 20]
          [6, 7, 8, 9, 10, 11, 12] 1).2.cols[c]? = [6, 7, 8, 9, 10, 11, 12][c]? := by
  have h := calc_degrees_sorts_records (fun t _ => t.toNat)
    (⟨1, 20, 10, 35, 0, 25, true⟩ : ChASE_Config Int)
    6 2 [9, 1, 5, 3, 8, 7] [0, 0, 0, 1, 1, 1] [20, 20, 20, 20, 20, 20]
    [6, 7, 8, 9, 10, 11, 12] 1 rfl rfl rfl (by decide)
  exact h

/-! ## Which arrays a reordering moves -/

/-- C9 as stated fails: on the Ritz values `[3, 1, 2]` with degrees `[4, 6, 8]`,
`locking` moves the Ritz value 1 to entry 0 and leaves the degrees where they
were, so no permutation rearranges both the Ritz values and the degrees. -/
theorem locking_leaves_degrees_behind :
    ¬ ∃ σ : Equiv.Perm Nat, ∀ i,
      (locking 3 (1 : Int) [3, 1, 2] [0, 0, 10] [0, 0, 20] [4, 6, 8] [7, 8, 9] 0).Lritzv[i]?
        = [(3 : Int), 1, 2][σ i]? ∧
      (locking 3 (1 : Int) [3, 1, 2] [0, 0, 10] [0, 0, 20] [4, 6, 8] [7, 8, 9] 0).degrees[i]?
        = [4, 6, 8][σ i]? := by
  rintro ⟨σ, h⟩
  have e1 : (locking 3 (1 : Int) [3, 1, 2] [0, 0, 10] [0, 0, 20] [4, 6, 8] [7, 8, 9] 0).Lritzv
      = [1, 3, 2] := by decide
  have e2 : (locking 3 (1 : Int) [3, 1, 2] [0, 0, 10] [0, 0, 20] [4, 6, 8] [7, 8, 9] 0).degrees
      = [4, 6, 8] := by decide
  have h0 := h 0
  rw [e1, e2] at h0
  generalize σ 0 = m at h0
  obtain ⟨h1, h2⟩ := h0
  rcases m with _ | _ | _ | m
  · simp at h1
  · simp at h2
  · simp at h1
  · simp at h1

/-- C9, amended: `calc_degrees` rearranges the degrees, the Ritz values, the
residuals and the search-space columns `locked + i` by one permutation and has
no access to the previous residuals, which stay as they are; `locking`
rearranges the Ritz values, the residuals and the previous residuals by one
permutation and leaves the degrees as they are. -/
theorem reordering_moves_records {α γ : Type} [LinearOrder α] (est : α → α → Nat)
    (conf : ChASE_Config α) (unconverged nex : Nat) (tol : α)
    (ritzv resid residLast : List α) (degrees : List Nat) (cols : List γ) ( locked : Nat)
    (hr : ritzv.length = unconverged) (hs : resid.length = unconverged)
    (hl : residLast.length = unconverged) (hd : degrees.length = unconverged)
    (hc : locked + unconverged ≤ cols.length) :
    (∃ σ : Equiv.Perm Nat, (∀ i, unconverged ≤ i → σ i = i) ∧
      ∀ i,
        (calc_degrees est conf unconverged nex ritzv resid degrees cols locked).2.degrees[i]?
          = (computedDegrees est conf unconverged nex ritzv resid degrees)[σ i]? ∧
        (calc_degrees est conf unconverged nex ritzv resid degrees cols locked).2.ritzv[i]?
          = ritzv[σ i]? ∧
        (calc_degrees est conf unconverged nex ritzv resid degrees cols locked).2.resid[i]?
          = resid[σ i]? ∧
        (calc_degrees est conf unconverged nex ritzv resid degrees cols locked).2.cols[locked + i]?
          = cols[locked + σ i]?) ∧
    (∀ (N : Numerics α γ) (s : SolveState α γ),
      (solveDegrees N conf nex s).residLast_ = s.residLast_) ∧
    (∃ σ : Equiv.Perm Nat, (∀ i, unconverged ≤ i → σ i = i) ∧
      ∀ i,
        (locking unconverged tol ritzv resid residLast degrees cols locked).Lritzv[i]?
          = ritzv[σ i]? ∧
        (locking unconverged tol ritzv resid residLast degrees cols locked).resid[i]?
          = resid[σ i]? ∧
        (locking unconverged tol ritzv resid residLast degrees cols locked).residLast[i]?
          = residLast[σ i]?) ∧
    (locking unconverged tol ritzv resid residLast degrees cols locked).degrees = degrees := by
  obtain ⟨σ, c1, c2, -⟩ :=
    calc_degrees_rearranged est conf unconverged nex ritzv resid degrees cols locked hr hs hd hc
  obtain ⟨hperm, hdeg⟩ :=
    locking_rearranged unconverged tol ritzv resid residLast degrees cols locked hr hs hl
  refine ⟨⟨σ, c1, c2⟩, ?_, hperm, hdeg⟩
  intro N s
  unfold solveDegrees
  split_ifs <;> rfl

/-- A run of the amended C9: three slots behind one locked column. -/
theorem reordering_moves_records_witness :
    (∃ σ : Equiv.Perm Nat, (∀ i, 3 ≤ i → σ i = i) ∧
      ∀ i,
        (calc_degrees (fun t _ => t.toNat) (⟨1, 20, 2, 36, 0, 25, true⟩ : ChASE_Config Int) 3 1
          [8, 4, 6] [0, 0, 10] [20, 20, 20] [0, 80, 40, 60] 1).2.degrees[i]?
          = (computedDegrees (fun t _ => t.toNat)
              (⟨1, 20, 2, 36, 0, 25, true⟩ : ChASE_Config Int) 3 1
              [8, 4, 6] [0, 0, 10] [20, 20, 20])[σ i]? ∧
        (calc_degrees (fun t _ => t.toNat) (⟨1, 20, 2, 36, 0, 25, true⟩ : ChASE_Config Int) 3 1
          [8, 4, 6] [0, 0, 10] [20, 20, 20] [0, 80, 40, 60] 1).2.ritzv[i]?
          = [(8 : Int), 4, 6][σ i]? ∧
        (calc_degrees (fun t _ => t.toNat) (⟨1, 20, 2, 36, 0, 25, true⟩ : ChASE_Config Int) 3 1
          [8, 4, 6] [0, 0, 10] [20, 20, 20] [0, 80, 40, 60] 1).2.resid[i]?
          = [(0 : Int), 0, 10][σ i]? ∧
        (calc_degrees (fun t _ => t.toNat) (⟨1, 20, 2, 36, 0, 25, true⟩ : ChASE_Config Int) 3 1
          [8, 4, 6] [0, 0, 10] [20, 20, 20] [0, 80, 40, 60] 1).2.cols[1 + i]?
          = [0, 80, 40, 60][1 + σ i]?) ∧
    (∀ (N : Numerics Int Nat) (s : SolveState Int Nat),
      (solveDegrees N (⟨1, 20, 2, 36, 0, 25, true⟩ : ChASE_Config Int) 1 s).residLast_
        = s.residLast_) ∧
    (∃ σ : Equiv.Perm Nat, (∀ i, 3 ≤ i → σ i = i) ∧
      ∀ i,
        (locking 3 (1 : Int) [8, 4, 6] [0, 0, 10] [0, 0, 20] [20, 20, 20]
          [0, 80, 40, 60] 1).Lritzv[i]? = [(8 : Int), 4, 6][σ i]? ∧
        (locking 3 (1 : Int) [8, 4, 6] [0, 0, 10] [0, 0, 20] [20, 20, 20]
          [0, 80, 40, 60] 1).resid[i]? = [(0 : Int), 0, 10][σ i]? ∧
        (locking 3 (1 : Int) [8, 4, 6] [0, 0, 10] [0, 0, 20] [20, 20, 20]
          [0, 80, 40, 60] 1).residLast[i]? = [(0 : Int), 0, 20][σ i]?) ∧
    (locking 3 (1 : Int) [8, 4, 6] [0, 0, 10] [0, 0, 20] [20, 20, 20]
      [0, 80, 40, 60] 1).degrees = [20, 20, 20] := by
  have h := reordering_moves_records (fun t _ => t.toNat)
    (⟨1, 20, 2, 36, 0, 25, true⟩ : ChASE_Config Int) 3 1 (1 : Int)
    [8, 4, 6] [0, 0, 10] [0, 0, 20] [20, 20, 20] [0, 80, 40, 60] 1 rfl rfl rfl rfl (by decide)
  exact h

/-! ## The counters of the solve loop -/

theorem solveBounds_counts {α γ : Type} [LinearOrder α] (nevex DoSVectors : Nat)
    (s : SolveState α γ) :
    (solveBounds nevex DoSVectors s).locked = s.locked ∧
    (solveBounds nevex DoSVectors s).unconverged = s.unconverged ∧
    (solveBounds nevex DoSVectors s).iteration = s.iteration := by
  unfold solveBounds
  simp only
  split_ifs <;> exact ⟨rfl, rfl, rfl⟩

theorem solveDegrees_counts {α γ : Type} (N : Numerics α γ) (conf : ChASE_Config α)
    (nex : Nat) (s : SolveState α γ) :
    (solveDegrees N conf nex s).locked = s.locked ∧
    (solveDegrees N conf nex s).unconverged = s.unconverged ∧
    (solveDegrees N conf nex s).iteration = s.iteration := by
  unfold solveDegrees
  split_ifs <;> exact ⟨rfl, rfl, rfl⟩

theorem solveNumerics_counts {α γ : Type} [LinearOrder α] (N : Numerics α γ)
    (s : SolveState α γ) :
    (solveNumerics N s).locked = s.locked ∧
    (solveNumerics N s).unconverged = s.unconverged ∧
    (solveNumerics N s).iteration = s.iteration :=
  ⟨rfl, rfl, rfl⟩

/-- `locked += new_converged; unconverged -= new_converged` (lines 486-487)
without wrap-around: `new_converged` is at most `unconverged`. -/
theorem solveLock_counts {α γ : Type} [LinearOrder α] (tol : α) (s : SolveState α γ)
    (h : s.locked + s.unconverged < sizeMod) :
    (solveLock tol s).locked + (solveLock tol s).unconverged = s.locked + s.unconverged ∧
    s.locked ≤ (solveLock tol s).locked ∧
    (solveLock tol s).unconverged ≤ s.unconverged ∧
    (solveLock tol s).iteration = s.iteration + 1 := by
  have hle := locking_converged_le s.unconverged tol (s.ritzv_.drop s.locked)
    (s.resid_.drop s.locked) (s.residLast_.drop s.locked) (s.degrees_.drop s.locked)
    s.cols s.locked
  unfold solveLock
  simp only
  generalize (locking s.unconverged tol (s.ritzv_.drop s.locked) (s.resid_.drop s.locked)
    (s.residLast_.drop s.locked) (s.degrees_.drop s.locked) s.cols s.locked).converged = nc
    at hle ⊢
  unfold uadd usub
  unfold sizeMod at h ⊢
  have e1 : (s.locked + nc) % 18446744073709551616 = s.locked + nc :=
    Nat.mod_eq_of_lt (by omega)
  have e2 : s.unconverged % 18446744073709551616 = s.unconverged :=
    Nat.mod_eq_of_lt (by omega)
  have e3 : nc % 18446744073709551616 = nc := Nat.mod_eq_of_lt (by omega)
  have e4 : (s.unconverged + 18446744073709551616 - nc) % 18446744073709551616
      = s.unconverged - nc := by
    have e5 : s.unconverged + 18446744073709551616 - nc
        = (s.unconverged - nc) + 18446744073709551616 := by omega
    rw [e5, Nat.add_mod_right]
    exact Nat.mod_eq_of_lt (by omega)
  rw [e1, e2, e3, e4]
  exact ⟨by omega, by omega, by omega, trivial⟩

theorem solveIter_counts {α γ : Type} [LinearOrder α] (N : Numerics α γ)
    (conf : ChASE_Config α) (tol : α) (nevex nex DoSVectors : Nat) (s : SolveState α γ)
    (h : s.locked + s.unconverged < sizeMod) :
    (solveIter N conf tol nevex nex DoSVectors s).locked
      + (solveIter N conf tol nevex nex DoSVectors s).unconverged = s.locked + s.unconverged ∧
    s.locked ≤ (solveIter N conf tol nevex nex DoSVectors s).locked ∧
    (solveIter N conf tol nevex nex DoSVectors s).unconverged ≤ s.unconverged ∧
    (solveIter N conf tol nevex nex DoSVectors s).iteration = s.iteration + 1 := by
  obtain ⟨a1, a2, a3⟩ := solveBounds_counts nevex DoSVectors s
  obtain ⟨b1, b2, b3⟩ := solveDegrees_counts N conf nex (solveBounds nevex DoSVectors s)
  obtain ⟨c1, c2, c3⟩ :=
    solveNumerics_counts N (solveDegrees N conf nex (solveBounds nevex DoSVectors s))
  have hl : (solveNumerics N (solveDegrees N conf nex (solveBounds nevex DoSVectors s))).locked
      = s.locked := by rw [c1, b1, a1]
  have hu :
      (solveNumerics N (solveDegrees N conf nex (solveBounds nevex DoSVectors s))).unconverged
      = s.unconverged := by rw [c2, b2, a2]
  have hi :
      (solveNumerics N (solveDegrees N conf nex (solveBounds nevex DoSVectors s))).iteration
      = s.iteration := by rw [c3, b3, a3]
  have key := solveLock_counts tol
    (solveNumerics N (solveDegrees N conf nex (solveBounds nevex DoSVectors s)))
    (by rw [hl, hu]; exact h)
  rw [hl, hu, hi] at key
  exact key

theorem solveAfter_sum {α γ : Type} [LinearOrder α] (N : Numerics α γ)
    (conf : ChASE_Config α) (tol : α) (nev nex DoSVectors : Nat) (init : SolveState α γ)
    (h : init.locked + init.unconverged < sizeMod) (t : Nat) :
    (solveAfter N conf tol nev nex DoSVectors init t).locked
      + (solveAfter N conf tol nev nex DoSVectors init t).unconverged
      = init.locked + init.unconverged := by
  induction t with
  | zero => rfl
  | succ t ih =>
    unfold solveAfter
    simp only
    split_ifs
    · rw [(solveIter_counts N conf tol (uadd nev nex) nex DoSVectors _ (by rw [ih]; exact h)).1,
        ih]
    · exact ih

theorem solveAfter_step {α γ : Type} [LinearOrder α] (N : Numerics α γ)
    (conf : ChASE_Config α) (tol : α) (nev nex DoSVectors : Nat) (init : SolveState α γ)
    (h : init.locked + init.unconverged < sizeMod) (t : Nat) :
    (solveAfter N conf tol nev nex DoSVectors init t).locked
      ≤ (solveAfter N conf tol nev nex DoSVectors init (t + 1)).locked ∧
    (solveAfter N conf tol nev nex DoSVectors init (t + 1)).unconverged
      ≤ (solveAfter N conf tol nev nex DoSVectors init t).unconverged := by
  have hsum := solveAfter_sum N conf tol nev nex DoSVectors init h t
  have hstep : solveAfter N conf tol nev nex DoSVectors init (t + 1)
      = if solveCond conf nex (solveAfter N conf tol nev nex DoSVectors init t) then
          solveIter N conf tol (uadd nev nex) nex DoSVectors
            (solveAfter N conf tol nev nex DoSVectors init t)
        else solveAfter N conf tol nev nex DoSVectors init t := rfl
  rw [hstep]
  split_ifs
  · obtain ⟨-, k2, k3, -⟩ := solveIter_counts N conf tol (uadd nev nex) nex DoSVectors
      (solveAfter N conf tol nev nex DoSVectors init t) (by rw [hsum]; exact h)
    exact ⟨k2, k3⟩
  · exact ⟨Nat.le_refl _, Nat.le_refl _⟩

/-- C10: in `solve`, `locked + unconverged = nev + nex` holds when the loop is
entered and after every pass, `locked` never decreases and `unconverged` never
increases from one pass to the next; the unsigned `unconverged -= new_converged`
does not wrap, because `locking` returns at most `unconverged`.  This holds for
every behaviour `N` of the numerical steps and every configuration. -/
theorem solve_counts_invariant {α γ : Type} [LinearOrder α] (N : Numerics α γ)
    (conf : ChASE_Config α) (tol : α) (nev nex DoSVectors : Nat) (big upperb : α)
    (ritzv_ : List α) (cols : List γ) (h : nev + nex < sizeMod) (t : Nat) :
    (solveAfter N conf tol nev nex DoSVectors
        (solveInit conf nev nex big upperb ritzv_ cols) t).locked
      + (solveAfter N conf tol nev nex DoSVectors
        (solveInit conf nev nex big upperb ritzv_ cols) t).unconverged = nev + nex ∧
    (solveAfter N conf tol nev nex DoSVectors
        (solveInit conf nev nex big upperb ritzv_ cols) t).locked
      ≤ (solveAfter N conf tol nev nex DoSVectors
        (solveInit conf nev nex big upperb ritzv_ cols) (t + 1)).locked ∧
    (solveAfter N conf tol nev nex DoSVectors
        (solveInit conf nev nex big upperb ritzv_ cols) (t + 1)).unconverged
      ≤ (solveAfter N conf tol nev nex DoSVectors
        (solveInit conf nev nex big upperb ritzv_ cols) t).unconverged ∧
    ∀ (unconverged : Nat) (Lritzv resid residLast : List α) (degrees : List Nat)
      (c : List γ) ( locked : Nat),
      (locking unconverged tol Lritzv resid residLast degrees c locked).converged
        ≤ unconverged := by
  have hinit : (solveInit conf nev nex big upperb ritzv_ cols).locked
      + (solveInit conf nev nex big upperb ritzv_ cols).unconverged = nev + nex := by
    show 0 + uadd nev nex = nev + nex
    unfold uadd
    rw [Nat.mod_eq_of_lt h, Nat.zero_add]
  have hlt : (solveInit conf nev nex big upperb ritzv_ cols).locked
      + (solveInit conf nev nex big upperb ritzv_ cols).unconverged < sizeMod := by
    rw [hinit]; exact h
  obtain ⟨m1, m2⟩ := solveAfter_step N conf tol nev nex DoSVectors
    (solveInit conf nev nex big upperb ritzv_ cols) hlt t
  refine ⟨?_, m1, m2, ?_⟩
  · rw [solveAfter_sum N conf tol nev nex DoSVectors _ hlt t, hinit]
  · intro unconverged Lritzv resid residLast degrees c locked
    exact locking_converged_le unconverged tol Lritzv resid residLast degrees c locked

/-- A run of C10: `nev = 3`, `nex = 2` with the sample backend; the second pass
locks pairs. -/
theorem solve_counts_invariant_witness :
    3 + 2 < sizeMod ∧
    ((solveAfter sampleNumerics (⟨1, 20, 10, 35, 0, 25, true⟩ : ChASE_Config Int) 1 3 2 0
        (solveInit (⟨1, 20, 10, 35, 0, 25, true⟩ : ChASE_Config Int) 3 2 1000 500
          [0, 0, 0, 0, 0] [7, 8, 9, 10, 11]) 1).locked
      + (solveAfter sampleNumerics (⟨1, 20, 10, 35, 0, 25, true⟩ : ChASE_Config Int) 1 3 2 0
        (solveInit (⟨1, 20, 10, 35, 0, 25, true⟩ : ChASE_Config Int) 3 2 1000 500
          [0, 0, 0, 0, 0] [7, 8, 9, 10, 11]) 1).unconverged = 3 + 2 ∧
    (solveAfter sampleNumerics (⟨1, 20, 10, 35, 0, 25, true⟩ : ChASE_Config Int) 1 3 2 0
        (solveInit (⟨1, 20, 10, 35, 0, 25, true⟩ : ChASE_Config Int) 3 2 1000 500
          [0, 0, 0, 0, 0] [7, 8, 9, 10, 11]) 1).locked
      ≤ (solveAfter sampleNumerics (⟨1, 20, 10, 35, 0, 25, true⟩ : ChASE_Config Int) 1 3 2 0
        (solveInit (⟨1, 20, 10, 35, 0, 25, true⟩ : ChASE_Config Int) 3 2 1000 500
          [0, 0, 0, 0, 0] [7, 8, 9, 10, 11]) (1 + 1)).locked ∧
    (solveAfter sampleNumerics (⟨1, 20, 10, 35, 0, 25, true⟩ : ChASE_Config Int) 1 3 2 0
        (solveInit (⟨1, 20, 10, 35, 0, 25, true⟩ : ChASE_Config Int) 3 2 1000 500
          [0, 0, 0, 0, 0] [7, 8, 9, 10, 11]) (1 + 1)).unconverged
      ≤ (solveAfter sampleNumerics (⟨1, 20, 10, 35, 0, 25, true⟩ : ChASE_Config Int) 1 3 2 0
        (solveInit (⟨1, 20, 10, 35, 0, 25, true⟩ : ChASE_Config Int) 3 2 1000 500
          [0, 0, 0, 0, 0] [7, 8, 9, 10, 11]) 1).unconverged ∧
    ∀ (unconverged : Nat) (Lritzv resid residLast : List Int) (degrees : List Nat)
      (c : List Nat) ( locked : Nat),
      (locking unconverged (1 : Int) Lritzv resid residLast degrees c locked).converged
        ≤ unconverged) := by
  have h := solve_counts_invariant sampleNumerics
    (⟨1, 20, 10, 35, 0, 25, true⟩ : ChASE_Config Int) 1 3 2 0 1000 500
    [0, 0, 0, 0, 0] [7, 8, 9, 10, 11] (by decide) 1
  exact ⟨by decide, h⟩

/-! ## The loop of `solve`: continuation, termination, iteration count -/

theorem solveIter_iteration {α γ : Type} [LinearOrder α] (N : Numerics α γ)
    (conf : ChASE_Config α) (tol : α) (nevex nex DoSVectors : Nat) (s : SolveState α γ) :
    (solveIter N conf tol nevex nex DoSVectors s).iteration = s.iteration + 1 := by
  obtain ⟨-, -, a3⟩ := solveBounds_counts nevex DoSVectors s
  obtain ⟨-, -, b3⟩ := solveDegrees_counts N conf nex (solveBounds nevex DoSVectors s)
  obtain ⟨-, -, c3⟩ :=
    solveNumerics_counts N (solveDegrees N conf nex (solveBounds nevex DoSVectors s))
  show (solveNumerics N (solveDegrees N conf nex (solveBounds nevex DoSVectors s))).iteration
    + 1 = s.iteration + 1
  rw [c3, b3, a3]

theorem solveCond_iff {α γ : Type} (conf : ChASE_Config α) (nex : Nat)
    (s : SolveState α γ) :
    solveCond conf nex s = true ↔ nex < s.unconverged ∧ s.iteration < conf.maxIter := by
  simp [solveCond]

theorem solveLoop_zero {α γ : Type} [LinearOrder α] (N : Numerics α γ)
    (conf : ChASE_Config α) (tol : α) (nevex nex DoSVectors : Nat) (s : SolveState α γ) :
    solveLoop N conf tol nevex nex DoSVectors 0 s = (s, 0) := rfl

theorem solveLoop_succ {α γ : Type} [LinearOrder α] (N : Numerics α γ)
    (conf : ChASE_Config α) (tol : α) (nevex nex DoSVectors fuel : Nat)
    (s : SolveState α γ) :
    solveLoop N conf tol nevex nex DoSVectors (fuel + 1) s =
      if solveCond conf nex s then
        ((solveLoop N conf tol nevex nex DoSVectors fuel
            (solveIter N conf tol nevex nex DoSVectors s)).1,
          (solveLoop N conf tol nevex nex DoSVectors fuel
            (solveIter N conf tol nevex nex DoSVectors s)).2 + 1)
      else (s, 0) := rfl

/-- The loop counts its passes in `iteration`, makes at most `fuel` passes, and
has left the loop once `fuel` covers what is left up to `maxIter`. -/
theorem solveLoop_spec {α γ : Type} [LinearOrder α] (N : Numerics α γ)
    (conf : ChASE_Config α) (tol : α) (nevex nex DoSVectors : Nat) (fuel : Nat) :
    ∀ s : SolveState α γ,
      (solveLoop N conf tol nevex nex DoSVectors fuel s).1.iteration
        = s.iteration + (solveLoop N conf tol nevex nex DoSVectors fuel s).2 ∧
      (solveLoop N conf tol nevex nex DoSVectors fuel s).2 ≤ fuel ∧
      (conf.maxIter ≤ s.iteration + fuel →
        solveCond conf nex (solveLoop N conf tol nevex nex DoSVectors fuel s).1 = false) := by
  induction fuel with
  | zero =>
    intro s
    rw [solveLoop_zero]
    refine ⟨rfl, Nat.le_refl _, ?_⟩
    intro h
    have : ¬ (solveCond conf nex s = true) := by
      rw [solveCond_iff]
      intro hc
      omega
    simpa using this
  | succ fuel ih =>
    intro s
    rw [solveLoop_succ]
    by_cases hc : solveCond conf nex s = true
    · rw [if_pos hc]
      obtain ⟨i1, i2, i3⟩ := ih (solveIter N conf tol nevex nex DoSVectors s)
      rw [solveIter_iteration] at i1 i3
      refine ⟨?_, ?_, ?_⟩
      · simp only; omega
      · simp only; omega
      · intro h
        exact i3 (by omega)
    · rw [if_neg hc]
      exact ⟨rfl, Nat.zero_le _, fun _ => by simpa using hc⟩

/-- More fuel than is left up to `maxIter` makes no difference. -/
theorem solveLoop_fuel {α γ : Type} [LinearOrder α] (N : Numerics α γ)
    (conf : ChASE_Config α) (tol : α) (nevex nex DoSVectors : Nat) (fuel1 : Nat) :
    ∀ (fuel2 : Nat) (s : SolveState α γ), conf.maxIter ≤ s.iteration + fuel1 →
      conf.maxIter ≤ s.iteration + fuel2 →
      solveLoop N conf tol nevex nex DoSVectors fuel1 s
        = solveLoop N conf tol nevex nex DoSVectors fuel2 s := by
  have stop : ∀ (f : Nat) (s : SolveState α γ), conf.maxIter ≤ s.iteration →
      solveLoop N conf tol nevex nex DoSVectors f s = (s, 0) := by
    intro f s h
    cases f with
    | zero => rfl
    | succ f =>
      rw [solveLoop_succ]
      have : ¬ (solveCond conf nex s = true) := by
        rw [solveCond_iff]
        intro hc
        omega
      rw [if_neg this]
  induction fuel1 with
  | zero =>
    intro fuel2 s h1 _
    rw [stop 0 s (by omega), stop fuel2 s (by omega)]
  | succ fuel1 ih =>
    intro fuel2 s h1 h2
    cases fuel2 with
    | zero => rw [stop 0 s (by omega), stop (fuel1 + 1) s (by omega)]
    | succ fuel2 =>
      rw [solveLoop_succ, solveLoop_succ]
      by_cases hc : solveCond conf nex s = true
      · rw [if_pos hc, if_pos hc]
        rw [ih fuel2 (solveIter N conf tol nevex nex DoSVectors s)
          (by rw [solveIter_iteration]; omega) (by rw [solveIter_iteration]; omega)]
      · rw [if_neg hc, if_neg hc]

theorem solveLoop_sum {α γ : Type} [LinearOrder α] (N : Numerics α γ)
    (conf : ChASE_Config α) (tol : α) (nevex nex DoSVectors : Nat) (fuel : Nat) :
    ∀ s : SolveState α γ, s.locked + s.unconverged < sizeMod →
      (solveLoop N conf tol nevex nex DoSVectors fuel s).1.locked
        + (solveLoop N conf tol nevex nex DoSVectors fuel s).1.unconverged
        = s.locked + s.unconverged := by
  induction fuel with
  | zero => intro s _; rfl
  | succ fuel ih =>
    intro s h
    rw [solveLoop_succ]
    by_cases hc : solveCond conf nex s = true
    · rw [if_pos hc]
      obtain ⟨k1, -, -, -⟩ := solveIter_counts N conf tol nevex nex DoSVectors s h
      simp only
      rw [ih _ (by rw [k1]; exact h), k1]
    · rw [if_neg hc]

/-- C11 as stated fails: with `nev = 3`, `nex = 2` and the second sample backend
the first pass locks three pairs, which leaves `unconverged = 2 = nex` after one
pass of at most 25; the loop is left there, with one pass made. -/
theorem solve_stops_at_nex :
    (solveFrom sampleNumerics2 (⟨1, 20, 10, 35, 0, 25, true⟩ : ChASE_Config Int) 1 3 2 0
      (solveInit (⟨1, 20, 10, 35, 0, 25, true⟩ : ChASE_Config Int) 3 2 1000 500
        [0, 0, 0, 0, 0] [7, 8, 9, 10, 11])).atExit.unconverged = 2 ∧
    (solveFrom sampleNumerics2 (⟨1, 20, 10, 35, 0, 25, true⟩ : ChASE_Config Int) 1 3 2 0
      (solveInit (⟨1, 20, 10, 35, 0, 25, true⟩ : ChASE_Config Int) 3 2 1000 500
        [0, 0, 0, 0, 0] [7, 8, 9, 10, 11])).passes = 1 ∧
    (solveFrom sampleNumerics2 (⟨1, 20, 10, 35, 0, 25, true⟩ : ChASE_Config Int) 1 3 2 0
      (solveInit (⟨1, 20, 10, 35, 0, 25, true⟩ : ChASE_Config Int) 3 2 1000 500
        [0, 0, 0, 0, 0] [7, 8, 9, 10, 11])).iterCount = 1 := by
  decide

/-- C11, amended: the solve loop makes another pass exactly when
`unconverged > nex` and the iteration cap has not been reached; when
`unconverged` equals `nex` it makes none. -/
theorem solve_continues_iff {α γ : Type} [LinearOrder α] (N : Numerics α γ)
    (conf : ChASE_Config α) (tol : α) (nevex nex DoSVectors fuel : Nat)
    (s : SolveState α γ) :
    (0 < (solveLoop N conf tol nevex nex DoSVectors (fuel + 1) s).2 ↔
      (nex < s.unconverged ∧ s.iteration < conf.maxIter)) ∧
    (s.unconverged = nex →
      solveLoop N conf tol nevex nex DoSVectors (fuel + 1) s = (s, 0)) := by
  rw [solveLoop_succ]
  by_cases hc : solveCond conf nex s = true
  · rw [if_pos hc]
    have h := (solveCond_iff conf nex s).mp hc
    refine ⟨⟨fun _ => h, fun _ => Nat.succ_pos _⟩, ?_⟩
    intro he
    omega
  · rw [if_neg hc]
    have h : ¬ (nex < s.unconverged ∧ s.iteration < conf.maxIter) :=
      fun hh => hc ((solveCond_iff conf nex s).mpr hh)
    exact ⟨⟨fun h0 => absurd h0 (Nat.lt_irrefl 0), fun hh => absurd hh h⟩, fun _ => rfl⟩

/-- C12: for every behaviour `N` of the numerical steps the solve loop is left
after at most `maxIter` passes (more fuel than `maxIter` changes nothing and the
loop condition is false at exit); at exit either `unconverged ≤ nex`, and then
`locked ≥ nev`, or exactly `maxIter` passes were made with `unconverged > nex`;
the iteration count of the performance record is the number of passes. -/
theorem solve_terminates {α γ : Type} [LinearOrder α] (N : Numerics α γ)
    (conf : ChASE_Config α) (tol : α) (nev nex DoSVectors : Nat) (big upperb : α)
    (ritzv_ : List α) (cols : List γ) (h : nev + nex < sizeMod) :
    (solveFrom N conf tol nev nex DoSVectors
      (solveInit conf nev nex big upperb ritzv_ cols)).passes ≤ conf.maxIter ∧
    (∀ fuel, conf.maxIter ≤ fuel →
      solveLoop N conf tol (uadd nev nex) nex DoSVectors fuel
        (solveInit conf nev nex big upperb ritzv_ cols)
      = solveLoop N conf tol (uadd nev nex) nex DoSVectors conf.maxIter
        (solveInit conf nev nex big upperb ritzv_ cols)) ∧
    solveCond conf nex (solveFrom N conf tol nev nex DoSVectors
      (solveInit conf nev nex big upperb ritzv_ cols)).atExit = false ∧
    (((solveFrom N conf tol nev nex DoSVectors
        (solveInit conf nev nex big upperb ritzv_ cols)).atExit.unconverged ≤ nex ∧
      nev ≤ (solveFrom N conf tol nev nex DoSVectors
        (solveInit conf nev nex big upperb ritzv_ cols)).atExit.locked) ∨
     ((solveFrom N conf tol nev nex DoSVectors
        (solveInit conf nev nex big upperb ritzv_ cols)).passes = conf.maxIter ∧
      nex < (solveFrom N conf tol nev nex DoSVectors
        (solveInit conf nev nex big upperb ritzv_ cols)).atExit.unconverged)) ∧
    (solveFrom N conf tol nev nex DoSVectors
      (solveInit conf nev nex big upperb ritzv_ cols)).iterCount
      = (solveFrom N conf tol nev nex DoSVectors
        (solveInit conf nev nex big upperb ritzv_ cols)).passes := by
  have hinit : (solveInit conf nev nex big upperb ritzv_ cols).locked
      + (solveInit conf nev nex big upperb ritzv_ cols).unconverged = nev + nex := by
    show 0 + uadd nev nex = nev + nex
    unfold uadd
    rw [Nat.mod_eq_of_lt h, Nat.zero_add]
  have hit : (solveInit conf nev nex big upperb ritzv_ cols).iteration = 0 := rfl
  obtain ⟨s1, s2, s3⟩ := solveLoop_spec N conf tol (uadd nev nex) nex DoSVectors
    conf.maxIter (solveInit conf nev nex big upperb ritzv_ cols)
  have hsum := solveLoop_sum N conf tol (uadd nev nex) nex DoSVectors conf.maxIter
    (solveInit conf nev nex big upperb ritzv_ cols) (by rw [hinit]; exact h)
  rw [hinit] at hsum
  rw [hit, Nat.zero_add] at s1
  have hexit := s3 (by rw [hit]; omega)
  have hcond : ¬ (nex < (solveLoop N conf tol (uadd nev nex) nex DoSVectors conf.maxIter
        (solveInit conf nev nex big upperb ritzv_ cols)).1.unconverged ∧
      (solveLoop N conf tol (uadd nev nex) nex DoSVectors conf.maxIter
        (solveInit conf nev nex big upperb ritzv_ cols)).1.iteration < conf.maxIter) := by
    intro hh
    have := (solveCond_iff conf nex _).mpr hh
    rw [hexit] at this
    cases this
  refine ⟨s2, ?_, hexit, ?_, s1⟩
  · intro fuel hf
    exact solveLoop_fuel N conf tol (uadd nev nex) nex DoSVectors fuel conf.maxIter _
      (by rw [hit]; omega) (by rw [hit]; omega)
  · show ((solveLoop N conf tol (uadd nev nex) nex DoSVectors conf.maxIter
        (solveInit conf nev nex big upperb ritzv_ cols)).1.unconverged ≤ nex ∧
      nev ≤ (solveLoop N conf tol (uadd nev nex) nex DoSVectors conf.maxIter
        (solveInit conf nev nex big upperb ritzv_ cols)).1.locked) ∨
     ((solveLoop N conf tol (uadd nev nex) nex DoSVectors conf.maxIter
        (solveInit conf nev nex big upperb ritzv_ cols)).2 = conf.maxIter ∧
      nex < (solveLoop N conf tol (uadd nev nex) nex DoSVectors conf.maxIter
        (solveInit conf nev nex big upperb ritzv_ cols)).1.unconverged)
    by_cases hu : (solveLoop N conf tol (uadd nev nex) nex DoSVectors conf.maxIter
        (solveInit conf nev nex big upperb ritzv_ cols)).1.unconverged ≤ nex
    · left
      exact ⟨hu, by omega⟩
    · right
      have hi : ¬ ((solveLoop N conf tol (uadd nev nex) nex DoSVectors conf.maxIter
          (solveInit conf nev nex big upperb ritzv_ cols)).1.iteration < conf.maxIter) :=
        fun hlt => hcond ⟨by omega, hlt⟩
      exact ⟨by omega, by omega⟩

/-! ## The final sort of `solve` (lines 497-504) -/

theorem LeAt_self {α : Type} [LinearOrder α] (l : List α) (a : Nat) : LeAt l a a := by
  intro x y hx hy
  rw [hx] at hy
  cases hy
  exact le_refl x

theorem finalSortStep_spec {α γ : Type} [LinearOrder α] (i j : Nat) (s : List α × List γ)
    (hi : i < s.1.length) (hj : j < s.1.length) (hi2 : i < s.2.length)
    (hj2 : j < s.2.length) :
    (finalSortStep i j s).1.length = s.1.length ∧
    (finalSortStep i j s).2.length = s.2.length ∧
    ((s.1[j] < s.1[i] ∧ ∀ p,
        (finalSortStep i j s).1[p]? = s.1[Equiv.swap i j p]? ∧
        (finalSortStep i j s).2[p]? = s.2[Equiv.swap i j p]?) ∨
     (¬ s.1[j] < s.1[i] ∧ finalSortStep i j s = s)) := by
  unfold finalSortStep
  rw [List.getElem?_eq_getElem hi, List.getElem?_eq_getElem hj]
  simp only
  split_ifs with h
  · refine ⟨swap_kj_length _ _ _, ?_, Or.inl ⟨h, fun p => ⟨?_, ?_⟩⟩⟩
    · simp only [swap, swap_kj_length]
    · exact swap_kj_getElem? hi hj p
    · simp only [swap]
      exact swap_kj_getElem? hi2 hj2 p
  · exact ⟨rfl, rfl, Or.inr ⟨h, rfl⟩⟩

/-- One permutation of `0..nev-1` rearranges the Ritz values and the columns in
the final sort. -/
theorem finalSort_rearranged {α γ : Type} [LinearOrder α] (nev : Nat) (r : List α)
    (cs : List γ) (hr : nev ≤ r.length) (hc : nev ≤ cs.length) :
    ∃ σ : Equiv.Perm Nat, (∀ p, nev ≤ p → σ p = p) ∧
      ∀ p, (finalSort nev (r, cs)).1[p]? = r[σ p]? ∧ (finalSort nev (r, cs)).2[p]? = cs[σ p]? := by
  have key := forRange_invariant
    (fun _ (t : List α × List γ) => t.1.length = r.length ∧ t.2.length = cs.length ∧
      ∃ σ : Equiv.Perm Nat, (∀ p, nev ≤ p → σ p = p) ∧
        ∀ p, t.1[p]? = r[σ p]? ∧ t.2[p]? = cs[σ p]?)
    (Nat.zero_le (nev - 1))
    (fun i acc => forRange (i + 1) nev (fun j acc1 => finalSortStep i j acc1) acc) (r, cs)
    ⟨rfl, rfl, 1, fun _ _ => rfl, fun _ => ⟨rfl, rfl⟩⟩
    (by
      intro i t _ hi ht
      dsimp only
      apply forRange_invariant
        (fun _ (u : List α × List γ) => u.1.length = r.length ∧ u.2.length = cs.length ∧
          ∃ σ : Equiv.Perm Nat, (∀ p, nev ≤ p → σ p = p) ∧
            ∀ p, u.1[p]? = r[σ p]? ∧ u.2[p]? = cs[σ p]?)
        (show i + 1 ≤ nev by omega)
      · exact ht
      · intro j u hj1 hj2 ⟨l1, l2, σ, hfix, hσ⟩
        obtain ⟨m1, m2, hcase⟩ := finalSortStep_spec i j u (by omega) (by omega)
          (by omega) (by omega)
        refine ⟨by omega, by omega, ?_⟩
        rcases hcase with ⟨-, hsw⟩ | ⟨-, hsame⟩
        · refine ⟨σ * Equiv.swap i j, ?_, ?_⟩
          · intro p hp
            rw [Equiv.Perm.mul_apply,
              Equiv.swap_apply_of_ne_of_ne (by omega) (by omega)]
            exact hfix p hp
          · intro p
            rw [(hsw p).1, (hsw p).2, Equiv.Perm.mul_apply]
            exact hσ _
        · rw [hsame]
          exact ⟨σ, hfix, hσ⟩)
  obtain ⟨-, -, σ, h1, h2⟩ := key
  exact ⟨σ, h1, h2⟩

/-- The inner loop of the final sort for a fixed `i` brings the smallest of the
entries `i..nev-1` to entry `i` and keeps what the outer loop has established. -/
theorem finalSortInner_sorted {α γ : Type} [LinearOrder α] {nev i : Nat} (L1 L2 : Nat)
    (hi : i < nev) (hL1 : nev ≤ L1) (hL2 : nev ≤ L2) (t : List α × List γ)
    (hl1 : t.1.length = L1) (hl2 : t.2.length = L2)
    (hout : ∀ a b, a < i → a ≤ b → b < nev → LeAt t.1 a b) :
    (forRange (i + 1) nev (fun j acc1 => finalSortStep i j acc1) t).1.length = L1 ∧
    (forRange (i + 1) nev (fun j acc1 => finalSortStep i j acc1) t).2.length = L2 ∧
    ∀ a b, a < i + 1 → a ≤ b → b < nev →
      LeAt (forRange (i + 1) nev (fun j acc1 => finalSortStep i j acc1) t).1 a b := by
  have key := forRange_invariant
    (fun j (u : List α × List γ) => u.1.length = L1 ∧ u.2.length = L2 ∧
      (∀ a b, a < i → a ≤ b → b < nev → LeAt u.1 a b) ∧
      (∀ p, i < p → p < j → LeAt u.1 i p))
    (show i + 1 ≤ nev by omega) (fun j acc1 => finalSortStep i j acc1) t
    ⟨hl1, hl2, hout, fun p h1 h2 => by omega⟩
    (by
      intro j u hj1 hj2 ⟨l1, l2, ho, hin⟩
      obtain ⟨m1, m2, hcase⟩ := finalSortStep_spec i j u (by omega) (by omega)
        (by omega) (by omega)
      dsimp only
      refine ⟨by omega, by omega, ?_⟩
      have hiu : i < u.1.length := by omega
      have hju : j < u.1.length := by omega
      rcases hcase with ⟨hlt, hsw⟩ | ⟨hnlt, hsame⟩
      · constructor
        · intro a b ha hab hb x y hx hy
          rw [(hsw a).1, Equiv.swap_apply_of_ne_of_ne (show a ≠ i by omega)
            (show a ≠ j by omega)] at hx
          rw [(hsw b).1] at hy
          refine ho a (Equiv.swap i j b) ha ?_ ?_ x y hx hy
          · simp only [Equiv.swap_apply_def]
            split_ifs <;> omega
          · simp only [Equiv.swap_apply_def]
            split_ifs <;> omega
        · intro p hp1 hp2 x y hx hy
          rw [(hsw i).1, Equiv.swap_apply_left, List.getElem?_eq_getElem hju] at hx
          cases hx
          rw [(hsw p).1] at hy
          by_cases hpj : p = j
          · subst hpj
            rw [Equiv.swap_apply_right, List.getElem?_eq_getElem hiu] at hy
            cases hy
            exact le_of_lt hlt
          · rw [Equiv.swap_apply_of_ne_of_ne (show p ≠ i by omega) hpj] at hy
            have h1 := hin p hp1 (by omega) u.1[i] y (List.getElem?_eq_getElem hiu) hy
            exact le_trans (le_of_lt hlt) h1
      · rw [hsame]
        refine ⟨ho, ?_⟩
        intro p hp1 hp2 x y hx hy
        by_cases hpj : p = j
        · subst hpj
          rw [List.getElem?_eq_getElem hiu] at hx
          rw [List.getElem?_eq_getElem hju] at hy
          cases hx
          cases hy
          exact not_lt.mp hnlt
        · exact hin p hp1 (by omega) x y hx hy)
  obtain ⟨k1, k2, k3, k4⟩ := key
  refine ⟨k1, k2, ?_⟩
  intro a b ha hab hb
  by_cases hai : a = i
  · subst hai
    by_cases hba : b = a
    · subst hba
      exact LeAt_self _ _
    · exact k4 b (by omega) hb
  · exact k3 a b (by omega) hab hb

/-- The final sort leaves the first `nev` Ritz values in ascending order. -/
theorem finalSort_sorted {α γ : Type} [LinearOrder α] (nev : Nat) (r : List α)
    (cs : List γ) (hr : nev ≤ r.length) (hc : nev ≤ cs.length) :
    ∀ a b, a ≤ b → b < nev → LeAt (finalSort nev (r, cs)).1 a b := by
  have key := forRange_invariant
    (fun i (t : List α × List γ) => t.1.length = r.length ∧ t.2.length = cs.length ∧
      ∀ a b, a < i → a ≤ b → b < nev → LeAt t.1 a b)
    (Nat.zero_le (nev - 1))
    (fun i acc => forRange (i + 1) nev (fun j acc1 => finalSortStep i j acc1) acc) (r, cs)
    ⟨rfl, rfl, fun a b h => by omega⟩
    (by
      intro i t _ hi ⟨l1, l2, ho⟩
      dsimp only
      exact finalSortInner_sorted r.length cs.length (show i < nev by omega) hr hc t l1 l2 ho)
  obtain ⟨-, -, k⟩ := key
  intro a b hab hb
  by_cases ha : a < nev - 1
  · exact k a b ha hab hb
  · have : a = b := by omega
    subst this
    exact LeAt_self _ _

/-- C13: when `solve` returns (`nev ≥ 1`, and the Ritz-value array and the search
space hold at least `nev` entries at loop exit), the first `nev` entries of the
caller's Ritz-value array are in ascending order, and one permutation of
`0..nev-1` rearranges both the Ritz values and the search-space columns that
the loop left: every exchange of entries `i` and `j` exchanges the columns `i`
and `j` too. -/
theorem solve_returns_sorted {α γ : Type} [LinearOrder α] (N : Numerics α γ)
    (conf : ChASE_Config α) (tol : α) (nev nex DoSVectors : Nat) (init : SolveState α γ)
    (_hnev : 1 ≤ nev)
    (hr : nev ≤ (solveFrom N conf tol nev nex DoSVectors init).atExit.ritzv_.length)
    (hc : nev ≤ (solveFrom N conf tol nev nex DoSVectors init).atExit.cols.length) :
    (∀ a b, a ≤ b → b < nev → ∀ x y,
      (solveFrom N conf tol nev nex DoSVectors init).ritzv_[a]? = some x →
      (solveFrom N conf tol nev nex DoSVectors init).ritzv_[b]? = some y → x ≤ y) ∧
    ∃ σ : Equiv.Perm Nat, (∀ p, nev ≤ p → σ p = p) ∧
      ∀ p,
        (solveFrom N conf tol nev nex DoSVectors init).ritzv_[p]?
          = (solveFrom N conf tol nev nex DoSVectors init).atExit.ritzv_[σ p]? ∧
        (solveFrom N conf tol nev nex DoSVectors init).cols[p]?
          = (solveFrom N conf tol nev nex DoSVectors init).atExit.cols[σ p]? :=
  ⟨fun a b hab hb x y hx hy => finalSort_sorted nev _ _ hr hc a b hab hb x y hx hy,
    finalSort_rearranged nev _ _ hr hc⟩

/-- A run of C12: `nev = 3`, `nex = 2`, at most 25 passes, with the second sample
backend. -/
theorem solve_terminates_witness :
    3 + 2 < sizeMod ∧
    ((solveFrom sampleNumerics2 (⟨1, 20, 10, 35, 0, 25, true⟩ : ChASE_Config Int) 1 3 2 0
      (solveInit (⟨1, 20, 10, 35, 0, 25, true⟩ : ChASE_Config Int) 3 2 1000 500
        [0, 0, 0, 0, 0] [7, 8, 9, 10, 11])).passes ≤ 25 ∧
    (∀ fuel, 25 ≤ fuel →
      solveLoop sampleNumerics2 (⟨1, 20, 10, 35, 0, 25, true⟩ : ChASE_Config Int) 1 (uadd 3 2) 2 0 fuel
        (solveInit (⟨1, 20, 10, 35, 0, 25, true⟩ : ChASE_Config Int) 3 2 1000 500
          [0, 0, 0, 0, 0] [7, 8, 9, 10, 11])
      = solveLoop sampleNumerics2 (⟨1, 20, 10, 35, 0, 25, true⟩ : ChASE_Config Int) 1 (uadd 3 2) 2 0 25
        (solveInit (⟨1, 20, 10, 35, 0, 25, true⟩ : ChASE_Config Int) 3 2 1000 500
          [0, 0, 0, 0, 0] [7, 8, 9, 10, 11])) ∧
    solveCond (⟨1, 20, 10, 35, 0, 25, true⟩ : ChASE_Config Int) 2 (solveFrom sampleNumerics2 (⟨1, 20, 10, 35, 0, 25, true⟩ : ChASE_Config Int) 1 3 2 0
      (solveInit (⟨1, 20, 10, 35, 0, 25, true⟩ : ChASE_Config Int) 3 2 1000 500
        [0, 0, 0, 0, 0] [7, 8, 9, 10, 11])).atExit = false ∧
    (((solveFrom sampleNumerics2 (⟨1, 20, 10, 35, 0, 25, true⟩ : ChASE_Config Int) 1 3 2 0
      (solveInit (⟨1, 20, 10, 35, 0, 25, true⟩ : ChASE_Config Int) 3 2 1000 500
        [0, 0, 0, 0, 0] [7, 8, 9, 10, 11])).atExit.unconverged ≤ 2 ∧
      3 ≤ (solveFrom sampleNumerics2 (⟨1, 20, 10, 35, 0, 25, true⟩ : ChASE_Config Int) 1 3 2 0
      (solveInit (⟨1, 20, 10, 35, 0, 25, true⟩ : ChASE_Config Int) 3 2 1000 500
        [0, 0, 0, 0, 0] [7, 8, 9, 10, 11])).atExit.locked) ∨
     ((solveFrom sampleNumerics2 (⟨1, 20, 10, 35, 0, 25, true⟩ : ChASE_Config Int) 1 3 2 0
      (solveInit (⟨1, 20, 10, 35, 0, 25, true⟩ : ChASE_Config Int) 3 2 1000 500
        [0, 0, 0, 0, 0] [7, 8, 9, 10, 11])).passes = 25 ∧
      2 < (solveFrom sampleNumerics2 (⟨1, 20, 10, 35, 0, 25, true⟩ : ChASE_Config Int) 1 3 2 0
      (solveInit (⟨1, 20, 10, 35, 0, 25, true⟩ : ChASE_Config Int) 3 2 1000 500
        [0, 0, 0, 0, 0] [7, 8, 9, 10, 11])).atExit.unconverged)) ∧
    (solveFrom sampleNumerics2 (⟨1, 20, 10, 35, 0, 25, true⟩ : ChASE_Config Int) 1 3 2 0
      (solveInit (⟨1, 20, 10, 35, 0, 25, true⟩ : ChASE_Config Int) 3 2 1000 500
        [0, 0, 0, 0, 0] [7, 8, 9, 10, 11])).iterCount
      = (solveFrom sampleNumerics2 (⟨1, 20, 10, 35, 0, 25, true⟩ : ChASE_Config Int) 1 3 2 0
      (solveInit (⟨1, 20, 10, 35, 0, 25, true⟩ : ChASE_Config Int) 3 2 1000 500
        [0, 0, 0, 0, 0] [7, 8, 9, 10, 11])).passes) := by
  have h := solve_terminates sampleNumerics2
    (⟨1, 20, 10, 35, 0, 25, true⟩ : ChASE_Config Int) 1 3 2 0 1000 500
    [0, 0, 0, 0, 0] [7, 8, 9, 10, 11] (by decide)
  exact ⟨by decide, h⟩

set_option maxRecDepth 100000 in
/-- A run of C13: with the first sample backend the loop leaves the Ritz values
`[9, 8, 7, 6, 5]`; `nev = 3`. -/
theorem solve_returns_sorted_witness :
    (solveFrom sampleNumerics (⟨1, 20, 10, 35, 0, 25, true⟩ : ChASE_Config Int) 1 3 2 0
      (solveInit (⟨1, 20, 10, 35, 0, 25, true⟩ : ChASE_Config Int) 3 2 1000 500
        [0, 0, 0, 0, 0] [7, 8, 9, 10, 11])).atExit.ritzv_ = [9, 8, 7, 6, 5] ∧
    (solveFrom sampleNumerics (⟨1, 20, 10, 35, 0, 25, true⟩ : ChASE_Config Int) 1 3 2 0
      (solveInit (⟨1, 20, 10, 35, 0, 25, true⟩ : ChASE_Config Int) 3 2 1000 500
        [0, 0, 0, 0, 0] [7, 8, 9, 10, 11])).ritzv_ = [7, 8, 9, 6, 5] ∧
    ((∀ a b, a ≤ b → b < 3 → ∀ x y,
      (solveFrom sampleNumerics (⟨1, 20, 10, 35, 0, 25, true⟩ : ChASE_Config Int) 1 3 2 0
      (solveInit (⟨1, 20, 10, 35, 0, 25, true⟩ : ChASE_Config Int) 3 2 1000 500
        [0, 0, 0, 0, 0] [7, 8, 9, 10, 11])).ritzv_[a]? = some x →
      (solveFrom sampleNumerics (⟨1, 20, 10, 35, 0, 25, true⟩ : ChASE_Config Int) 1 3 2 0
      (solveInit (⟨1, 20, 10, 35, 0, 25, true⟩ : ChASE_Config Int) 3 2 1000 500
        [0, 0, 0, 0, 0] [7, 8, 9, 10, 11])).ritzv_[b]? = some y → x ≤ y) ∧
    ∃ σ : Equiv.Perm Nat, (∀ p, 3 ≤ p → σ p = p) ∧
      ∀ p,
        (solveFrom sampleNumerics (⟨1, 20, 10, 35, 0, 25, true⟩ : ChASE_Config Int) 1 3 2 0
      (solveInit (⟨1, 20, 10, 35, 0, 25, true⟩ : ChASE_Config Int) 3 2 1000 500
        [0, 0, 0, 0, 0] [7, 8, 9, 10, 11])).ritzv_[p]?
          = (solveFrom sampleNumerics (⟨1, 20, 10, 35, 0, 25, true⟩ : ChASE_Config Int) 1 3 2 0
      (solveInit (⟨1, 20, 10, 35, 0, 25, true⟩ : ChASE_Config Int) 3 2 1000 500
        [0, 0, 0, 0, 0] [7, 8, 9, 10, 11])).atExit.ritzv_[σ p]? ∧
        (solveFrom sampleNumerics (⟨1, 20, 10, 35, 0, 25, true⟩ : ChASE_Config Int) 1 3 2 0
      (solveInit (⟨1, 20, 10, 35, 0, 25, true⟩ : ChASE_Config Int) 3 2 1000 500
        [0, 0, 0, 0, 0] [7, 8, 9, 10, 11])).cols[p]?
          = (solveFrom sampleNumerics (⟨1, 20, 10, 35, 0, 25, true⟩ : ChASE_Config Int) 1 3 2 0
      (solveInit (⟨1, 20, 10, 35, 0, 25, true⟩ : ChASE_Config Int) 3 2 1000 500
        [0, 0, 0, 0, 0] [7, 8, 9, 10, 11])).atExit.cols[σ p]?) := by
  have h := solve_returns_sorted sampleNumerics
    (⟨1, 20, 10, 35, 0, 25, true⟩ : ChASE_Config Int) 1 3 2 0
    (solveInit (⟨1, 20, 10, 35, 0, 25, true⟩ : ChASE_Config Int) 3 2 1000 500
      [0, 0, 0, 0, 0] [7, 8, 9, 10, 11]) (by decide) (by decide) (by decide)
  exact ⟨by decide, by decide, h⟩

/-! ## `filter`: the number of multiplications -/

theorem usub_succ_one {x : Nat} (h : x + 1 < sizeMod) : usub (x + 1) 1 = x := by
  unfold usub
  unfold sizeMod at h ⊢
  rw [Nat.mod_eq_of_lt h, Nat.mod_eq_of_lt (show 1 < 18446744073709551616 by decide)]
  have e : x + 1 + 18446744073709551616 - 1 = x + 18446744073709551616 := by omega
  rw [e, Nat.add_mod_right]
  exact Nat.mod_eq_of_lt (by omega)

/-- The drop loop changes neither `Av` nor `num_mult`, `sigma` or the calls. -/
theorem dropLoop_frame {K : Type} (n : Nat) (L : List Nat) :
    ∀ s : FilterState K,
      (dropLoop n L s).Av = s.Av ∧ (dropLoop n L s).num_mult = s.num_mult ∧
      (dropLoop n L s).calls = s.calls ∧ (dropLoop n L s).sigma = s.sigma := by
  induction L with
  | nil => intro s; exact ⟨rfl, rfl, rfl, rfl⟩
  | cons d rest ih =>
    intro s
    unfold dropLoop
    split_ifs
    · obtain ⟨h1, h2, h3, h4⟩ := ih
        { s with
          degrees := rest
          ptr := s.ptr + 1
          unprocessed := usub s.unprocessed 1
          offset := uadd s.offset n
          reads := s.reads ++ [s.ptr] }
      exact ⟨h1, h2, h3, h4⟩
    · exact ⟨rfl, rfl, rfl, rfl⟩

/-- On a window `l` that holds a degree above `num_mult`, the drop loop stops
inside the window: it drops the leading degrees up to `num_mult` and counts
`unprocessed` down by their number. -/
theorem dropLoop_window {K : Type} (n : Nat) (l beyond : List Nat) :
    ∀ s : FilterState K, (∃ d, d ∈ l ∧ s.num_mult < d) → s.unprocessed = l.length →
      l.length < sizeMod →
      (dropLoop n (l ++ beyond) s).degrees
        = l.dropWhile (fun d => decide (d ≤ s.num_mult)) ++ beyond ∧
      (dropLoop n (l ++ beyond) s).unprocessed
        = (l.dropWhile (fun d => decide (d ≤ s.num_mult))).length := by
  induction l with
  | nil =>
    intro s ⟨d, hd, _⟩
    cases hd
  | cons d rest ih =>
    intro s ⟨d0, hd0, hlt0⟩ hu hlen
    rw [List.cons_append]
    unfold dropLoop
    by_cases hc : d ≤ s.num_mult
    · rw [if_pos ⟨Nat.zero_le _, hc⟩]
      have hmem : d0 ∈ rest := by
        rcases List.mem_cons.mp hd0 with h | h
        · omega
        · exact h
      have hlen' : rest.length + 1 < sizeMod := by simpa using hlen
      obtain ⟨h1, h2⟩ := ih
        { s with
          degrees := rest ++ beyond
          ptr := s.ptr + 1
          unprocessed := usub s.unprocessed 1
          offset := uadd s.offset n
          reads := s.reads ++ [s.ptr] }
        ⟨d0, hmem, hlt0⟩
        (by
          show usub s.unprocessed 1 = rest.length
          rw [hu, List.length_cons]
          exact usub_succ_one hlen')
        (by omega)
      simp only [List.dropWhile_cons, hc, decide_True, if_true]
      exact ⟨h1, h2⟩
    · have hne : ¬ (0 ≤ s.unprocessed ∧ d ≤ s.num_mult) := fun h => hc h.2
      rw [if_neg hne]
      simp only [List.dropWhile_cons, hc, decide_False]
      exact ⟨rfl, hu⟩

theorem capSum_succ (s : Nat) (l : List Nat) :
    capSum (s + 1) l = capSum s l + (l.filter (fun d => decide (s < d))).length := by
  unfold capSum
  induction l with
  | nil => rfl
  | cons d rest ih =>
    simp only [List.map_cons, List.sum_cons, List.filter_cons]
    by_cases h : s < d
    · simp only [h, decide_True, if_true, List.length_cons]
      rw [ih]
      have e1 : min d (s + 1) = s + 1 := Nat.min_eq_right (by omega)
      have e2 : min d s = s := Nat.min_eq_right (by omega)
      rw [e1, e2]
      omega
    · simp only [h, decide_False]
      rw [ih]
      have e1 : min d (s + 1) = d := Nat.min_eq_left (by omega)
      have e2 : min d s = d := Nat.min_eq_left (by omega)
      rw [e1, e2]
      simp
      omega

theorem capSum_le_sum (s : Nat) (l : List Nat) : capSum s l ≤ l.sum := by
  unfold capSum
  induction l with
  | nil => exact Nat.le_refl _
  | cons d rest ih =>
    simp only [List.map_cons, List.sum_cons]
    have : min d s ≤ d := Nat.min_le_left _ _
    omega

theorem capSum_of_le (s : Nat) (l : List Nat) (h : ∀ d, d ∈ l → d ≤ s) :
    capSum s l = l.sum := by
  unfold capSum
  induction l with
  | nil => rfl
  | cons d rest ih =>
    simp only [List.map_cons, List.sum_cons]
    rw [ih (fun x hx => h x (List.mem_cons_of_mem _ hx)),
      Nat.min_eq_left (h d (List.mem_cons_self _ _))]

theorem capSum_one (l : List Nat) (h : ∀ d, d ∈ l → 1 ≤ d) : capSum 1 l = l.length := by
  unfold capSum
  induction l with
  | nil => rfl
  | cons d rest ih =>
    simp only [List.map_cons, List.sum_cons, List.length_cons]
    rw [ih (fun x hx => h x (List.mem_cons_of_mem _ hx)),
      Nat.min_eq_right (h d (List.mem_cons_self _ _))]
    omega

/-- In a non-decreasing list, dropping the leading degrees up to `s` leaves the
degrees above `s`. -/
theorem dropWhile_eq_filter_of_sorted (s : Nat) (l : List Nat)
    (hs : l.Pairwise (fun x y => x ≤ y)) :
    l.dropWhile (fun d => decide (d ≤ s)) = l.filter (fun d => decide (s < d)) := by
  induction l with
  | nil => rfl
  | cons d rest ih =>
    have hrest := (List.pairwise_cons.mp hs).2
    have hhead := (List.pairwise_cons.mp hs).1
    by_cases h : d ≤ s
    · have h2 : ¬ s < d := by omega
      simp only [List.dropWhile_cons, List.filter_cons, h, h2, decide_True, decide_False,
        if_true]
      simpa using ih hrest
    · have h2 : s < d := by omega
      have e : rest.filter (fun d => decide (s < d)) = rest := by
        rw [List.filter_eq_self]
        intro x hx
        have := hhead x hx
        simp only [decide_eq_true_eq]
        omega
      simp [List.dropWhile_cons, List.filter_cons, h, h2, e]

theorem capSum_zero (l : List Nat) : capSum 0 l = 0 := by
  unfold capSum
  induction l with
  | nil => rfl
  | cons d rest ih =>
    simp only [List.map_cons, List.sum_cons]
    rw [ih]
    simp

theorem dropWhile_dropWhile_le (s t : Nat) (hst : s ≤ t) (l : List Nat) :
    (l.dropWhile (fun d => decide (d ≤ s))).dropWhile (fun d => decide (d ≤ t))
      = l.dropWhile (fun d => decide (d ≤ t)) := by
  induction l with
  | nil => rfl
  | cons d rest ih =>
    by_cases h : d ≤ s
    · have h2 : d ≤ t := by omega
      simp only [List.dropWhile_cons, h, h2, decide_True, if_true]
      exact ih
    · simp [List.dropWhile_cons, h]

theorem length_le_sum_of_pos (l : List Nat) (h : ∀ d, d ∈ l → 1 ≤ d) : l.length ≤ l.sum := by
  rw [← capSum_one l h]
  exact capSum_le_sum 1 l

theorem length_dropWhile_le (p : Nat → Bool) (l : List Nat) :
    (l.dropWhile p).length ≤ l.length := by
  induction l with
  | nil => exact Nat.le_refl _
  | cons d rest ih =>
    simp only [List.dropWhile_cons]
    split
    · simp only [List.length_cons]; omega
    · exact Nat.le_refl _

/-- One multiplication step of `filter` takes the invariant from `s` to `s + 1`. -/
theorem filterStep_inv {K : Type} (n : Nat) (alpha beta : K) (l beyond : List Nat)
    (deg s : Nat) (st : FilterState K) (hs : l.Pairwise (fun x y => x ≤ y))
    (h1 : ∀ d, d ∈ l → 1 ≤ d) (hdeg : deg ∈ l) (hsum : l.sum < sizeMod)
    (hinv : FilterInv l beyond deg s st) (hlt : s < deg) :
    FilterInv l beyond deg (s + 1) (filterStep n alpha beta st) := by
  obtain ⟨i1, i2, i3⟩ := hinv
  obtain ⟨i4, i5⟩ := i3 hlt
  have hW : l.dropWhile (fun d => decide (d ≤ s)) = l.filter (fun d => decide (s < d)) :=
    dropWhile_eq_filter_of_sorted s l hs
  have hcap : capSum (s + 1) l
      = capSum s l + (l.dropWhile (fun d => decide (d ≤ s))).length := by
    rw [hW]; exact capSum_succ s l
  have hbound : capSum (s + 1) l < sizeMod :=
    Nat.lt_of_le_of_lt (capSum_le_sum _ _) hsum
  have hWlen : (l.dropWhile (fun d => decide (d ≤ s))).length < sizeMod := by
    have a1 := length_dropWhile_le (fun d => decide (d ≤ s)) l
    have a2 := length_le_sum_of_pos l h1
    omega
  unfold filterStep
  simp only
  obtain ⟨f1, f2, -, -⟩ := dropLoop_frame n st.degrees
    ({ st with
      calls := st.calls ++ [FilterCall.threeTerms st.unprocessed alpha beta (st.offset / n)]
      Av := uadd st.Av st.unprocessed
      num_mult := st.num_mult + 1 } : FilterState K)
  refine ⟨?_, ?_, ?_⟩
  · rw [f2]
    show st.num_mult + 1 = s + 1
    rw [i1]
  · rw [f1]
    show uadd st.Av st.unprocessed = capSum (s + 1) l
    rw [i2, i5, hcap]
    unfold uadd
    exact Nat.mod_eq_of_lt (by rw [← hcap]; exact hbound)
  · intro hlt2
    have hex : ∃ d, d ∈ l.dropWhile (fun d => decide (d ≤ s)) ∧ s + 1 < d := by
      refine ⟨deg, ?_, hlt2⟩
      rw [hW, List.mem_filter]
      exact ⟨hdeg, by simpa using hlt⟩
    obtain ⟨w1, w2⟩ := dropLoop_window n (l.dropWhile (fun d => decide (d ≤ s))) beyond
      ({ st with
        calls := st.calls ++ [FilterCall.threeTerms st.unprocessed alpha beta (st.offset / n)]
        Av := uadd st.Av st.unprocessed
        num_mult := st.num_mult + 1 } : FilterState K)
      (by
        show ∃ d, d ∈ l.dropWhile (fun d => decide (d ≤ s)) ∧ st.num_mult + 1 < d
        rw [i1]; exact hex)
      i5 hWlen
    have hnm : ({ st with
        calls := st.calls ++ [FilterCall.threeTerms st.unprocessed alpha beta (st.offset / n)]
        Av := uadd st.Av st.unprocessed
        num_mult := st.num_mult + 1 } : FilterState K).num_mult = s + 1 := by
      show st.num_mult + 1 = s + 1
      rw [i1]
    rw [hnm] at w1 w2
    rw [dropWhile_dropWhile_le s (s + 1) (Nat.le_succ s) l] at w1 w2
    rw [← i4] at w1 w2
    exact ⟨w1, w2⟩

/-- After all `deg` steps `Av` is the capped sum at `deg`. -/
theorem filter_inv {K : Type} [Field K] (n deg : Nat) (l beyond : List Nat)
    (lambda_1 lower upper : K) (hs : l.Pairwise (fun x y => x ≤ y))
    (h1 : ∀ d, d ∈ l → 1 ≤ d) (hdeg : deg ∈ l) (hsum : l.sum < sizeMod) :
    (filter n l.length deg (l ++ beyond) lambda_1 lower upper).Av = capSum deg l := by
  have hdeg1 : 1 ≤ deg := h1 deg hdeg
  have hW0 : l.dropWhile (fun d => decide (d ≤ 0)) = l := by
    cases l with
    | nil => rfl
    | cons d rest =>
      have := h1 d (List.mem_cons_self _ _)
      have hd : ¬ (decide (d ≤ 0) = true) := by
        simp only [decide_eq_true_eq]; omega
      rw [List.dropWhile_cons, if_neg hd]
  unfold filter
  simp only
  have h0 : FilterInv l beyond deg 0
      ({ degrees := l ++ beyond
         unprocessed := l.length
         offset := 0
         num_mult := 0
         Av := 0
         sigma := (upper - lower) / 2 / (lambda_1 - (upper + lower) / 2)
         calls := [FilterCall.shift (-((upper + lower) / 2)) false]
         ptr := 0
         reads := []
         fault := false } : FilterState K) := by
    refine ⟨rfl, (capSum_zero l).symm, fun _ => ?_⟩
    rw [hW0]
    exact ⟨rfl, rfl⟩
  have hstep1 := filterStep_inv n
    ((upper - lower) / 2 / (lambda_1 - (upper + lower) / 2) / ((upper - lower) / 2)) 0
    l beyond deg 0 _ hs h1 hdeg hsum h0 (by omega)
  have key := forRange_invariant
    (fun i (st : FilterState K) => FilterInv l beyond deg (i - 1) st)
    (show 2 ≤ deg + 1 by omega)
    (fun _ s => filterLoopBody n ((upper - lower) / 2 / (lambda_1 - (upper + lower) / 2))
      ((upper - lower) / 2) s)
    _ hstep1
    (by
      intro i st hi1 hi2 hinv
      dsimp only
      unfold filterLoopBody
      simp only
      have hinv' : FilterInv l beyond deg (i - 1)
          ({ st with sigma := 1 / (2 / ((upper - lower) / 2 /
            (lambda_1 - (upper + lower) / 2)) - st.sigma) } : FilterState K) := hinv
      have := filterStep_inv n
        (2 * (1 / (2 / ((upper - lower) / 2 / (lambda_1 - (upper + lower) / 2)) - st.sigma))
          / ((upper - lower) / 2))
        (-(st.sigma * (1 / (2 / ((upper - lower) / 2 /
          (lambda_1 - (upper + lower) / 2)) - st.sigma))))
        l beyond deg (i - 1) _ hs h1 hdeg hsum hinv' (by omega)
      have e : i - 1 + 1 = i + 1 - 1 := by omega
      rw [e] at this
      exact this)
  exact key.2.1

/-- C14: for every non-decreasing list of per-vector degrees that are all at
least 1, with `deg` its largest entry (so the list is not empty), `filter`
returns exactly the sum of the degrees, whatever lies in memory behind them. -/
theorem filter_returns_degree_sum {K : Type} [Field K] (n deg : Nat)
    (degrees beyond : List Nat) (lambda_1 lower upper : K)
    (hs : degrees.Pairwise (fun x y => x ≤ y)) (h1 : ∀ d, d ∈ degrees → 1 ≤ d)
    (hdeg : deg ∈ degrees) (hmax : ∀ d, d ∈ degrees → d ≤ deg)
    (hsum : degrees.sum < sizeMod) :
    (filter n degrees.length deg (degrees ++ beyond) lambda_1 lower upper).Av
      = degrees.sum := by
  rw [filter_inv n deg degrees beyond lambda_1 lower upper hs h1 hdeg hsum]
  exact capSum_of_le deg degrees hmax

/-- A run of C14: the degrees `[2, 2, 4]` cost 8 multiplications, not
`3 * 4 = 12`. -/
theorem filter_returns_degree_sum_witness :
    [2, 2, 4].Pairwise (fun x y => x ≤ y) ∧ 4 ∈ [2, 2, 4] ∧ [2, 2, 4].sum = 8 ∧
    (filter 10 [2, 2, 4].length 4 ([2, 2, 4] ++ [0, 7]) (0 : ℚ) 2 10).Av = [2, 2, 4].sum := by
  have h := filter_returns_degree_sum 10 4 [2, 2, 4] [0, 7] (0 : ℚ) 2 10
    (by decide) (by decide) (by decide) (by decide) (by decide)
  exact ⟨by decide, by decide, by decide, h⟩

/-! ## Shift and unshift of the operator -/

theorem addAt_getElem? {K : Type} [Add K] (k : Nat) (c : K) (H : List K) (p : Nat) :
    (addAt k c H)[p]? = if p = k then (H[p]?).map (fun h => h + c) else H[p]? := by
  unfold addAt
  split
  · rename_i h hh
    rw [List.getElem?_set]
    by_cases hpk : p = k
    · subst hpk
      have hlt : p < H.length := (List.getElem?_eq_some.mp hh).1
      simp [hlt, hh]
    · have : ¬ k = p := fun e => hpk e.symm
      simp [hpk, this]
  · rename_i hh
    by_cases hpk : p = k
    · subst hpk
      simp [hh]
    · simp [hpk]

theorem addAt_comm {K : Type} [AddCommGroup K] (k k1 : Nat) (c c1 : K) (H : List K) :
    addAt k c (addAt k1 c1 H) = addAt k1 c1 (addAt k c H) := by
  apply List.ext_getElem?
  intro p
  rw [addAt_getElem?, addAt_getElem?, addAt_getElem?, addAt_getElem?]
  split_ifs <;> cases H[p]? <;> first | rfl | simp [add_right_comm]

theorem addAt_cancel {K : Type} [AddCommGroup K] (k : Nat) (c : K) (H : List K) :
    addAt k c (addAt k (-c) H) = H := by
  apply List.ext_getElem?
  intro p
  rw [addAt_getElem?, addAt_getElem?]
  split_ifs <;> cases H[p]? <;> first | rfl | simp

theorem AddProg.comm {K : Type} [AddCommGroup K] {F : K → List K → List K}
    (hF : AddProg F) : ∀ (k : Nat) (c c1 : K) (H : List K),
      addAt k c1 (F c H) = F c (addAt k c1 H) := by
  induction hF with
  | id => intro k c c1 H; rfl
  | step k0 F0 _ ih =>
    intro k c c1 H
    show addAt k c1 (addAt k0 c (F0 c H)) = addAt k0 c (F0 c (addAt k c1 H))
    rw [addAt_comm, ih]

/-- A program of statements `H[k] += c`, run with `-c` and then with `c`, leaves
every stored entry as it was. -/
theorem AddProg.round_trip {K : Type} [AddCommGroup K] {F : K → List K → List K}
    (hF : AddProg F) : ∀ (c : K) (H : List K), F c (F (-c) H) = H := by
  induction hF with
  | id => intro c H; rfl
  | step k0 F0 h0 ih =>
    intro c H
    show addAt k0 c (F0 c (addAt k0 (-c) (F0 (-c) H))) = H
    rw [← h0.comm k0 c (-c), ih, addAt_cancel]

theorem AddProg.comp {K : Type} [Add K] {F G : K → List K → List K}
    (hF : AddProg F) (hG : AddProg G) : AddProg (fun c H => G c (F c H)) := by
  induction hG with
  | id => exact hF
  | step k0 G0 _ ih => exact AddProg.step k0 _ ih

theorem AddProg.foldl {K : Type} [Add K] (body : Nat → K → List K → List K)
    (hb : ∀ i, AddProg (body i)) (L : List Nat) :
    AddProg (fun c H => L.foldl (fun acc i => body i c acc) H) := by
  induction L with
  | nil => exact AddProg.id
  | cons x xs ih => exact AddProg.comp (hb x) ih

theorem AddProg.forRange {K : Type} [Add K] (lo hi : Nat) (body : Nat → K → List K → List K)
    (hb : ∀ i, AddProg (body i)) :
    AddProg (fun c H => ChASE.forRange lo hi (fun i acc => body i c acc) H) :=
  AddProg.foldl body hb _

theorem seqShiftMatrix_prog {K : Type} [Add K] (N_ : Nat) :
    AddProg (fun (c : K) H => seqShiftMatrix N_ c H) :=
  AddProg.forRange 0 N_ (fun i c H => addAt (i + i * N_) c H)
    (fun i => AddProg.step (i + i * N_) _ AddProg.id)

theorem hemmShiftMatrix_prog {K : Type} [Add K] (n_ m_ off0 off1 : Nat) :
    AddProg (fun (c : K) H => hemmShiftMatrix n_ m_ off0 off1 c H) := by
  apply AddProg.forRange 0 n_
    (fun i c H => ChASE.forRange 0 m_
      (fun j H1 => if off0 + j = i + off1 then addAt (i * m_ + j) c H1 else H1) H)
  intro i
  apply AddProg.forRange 0 m_
    (fun j c H1 => if off0 + j = i + off1 then addAt (i * m_ + j) c H1 else H1)
  intro j
  by_cases h : off0 + j = i + off1
  · simp only [h, if_true]
    exact AddProg.step (i * m_ + j) _ AddProg.id
  · simp only [h, if_false]
    exact AddProg.id

theorem forRange_of_ge {σ : Type} {lo hi : Nat} (h : hi ≤ lo) (body : Nat → σ → σ) (s : σ) :
    forRange lo hi body s = s := by
  unfold forRange
  rw [Nat.sub_eq_zero_of_le h]
  rfl

theorem filterStep_calls {K : Type} (n : Nat) (alpha beta : K) (st : FilterState K) :
    (filterStep n alpha beta st).calls
      = st.calls ++ [FilterCall.threeTerms st.unprocessed alpha beta (st.offset / n)] := by
  unfold filterStep
  simp only
  rw [(dropLoop_frame n _ _).2.2.1]

theorem calls_snoc {K : Type} (c0 : FilterCall K) (calls mid : List (FilterCall K))
    (x : FilterCall K) (h : calls = c0 :: mid) (hm : ∀ y, y ∈ mid → y.isThreeTerms)
    (hx : x.isThreeTerms) :
    ∃ mid1 : List (FilterCall K),
      calls ++ [x] = c0 :: mid1 ∧ ∀ y, y ∈ mid1 → y.isThreeTerms := by
  refine ⟨mid ++ [x], by rw [h]; rfl, ?_⟩
  intro y hy
  rcases List.mem_append.mp hy with h1 | h1
  · exact hm y h1
  · rw [List.mem_singleton.mp h1]
    exact hx

theorem filterLoop_calls {K : Type} [Field K] (n deg : Nat) (sigma_1 e : K)
    (c0 : FilterCall K) (s1 : FilterState K)
    (h1 : ∃ mid : List (FilterCall K), s1.calls = c0 :: mid ∧ ∀ x, x ∈ mid → x.isThreeTerms) :
    ∃ mid : List (FilterCall K),
      (forRange 2 (deg + 1) (fun _ s => filterLoopBody n sigma_1 e s) s1).calls = c0 :: mid ∧
      ∀ x, x ∈ mid → x.isThreeTerms := by
  by_cases hd : 2 ≤ deg + 1
  · apply forRange_invariant
      (fun _ (st : FilterState K) => ∃ mid : List (FilterCall K),
        st.calls = c0 :: mid ∧ ∀ x, x ∈ mid → x.isThreeTerms) hd
    · exact h1
    · intro i st _ _ ⟨mid, hm1, hm2⟩
      unfold filterLoopBody
      simp only
      rw [filterStep_calls]
      exact calls_snoc _ _ mid _ hm1 hm2 trivial
  · rw [forRange_of_ge (by omega)]
    exact h1

/-- The calls of `filter`: `shift(-c)` first, `shift(+c, true)` last, and
`threeTerms` calls in between. -/
theorem filter_calls {K : Type} [Field K] (n unprocessed deg : Nat) (degrees : List Nat)
    (lambda_1 lower upper : K) :
    ∃ mid : List (FilterCall K),
      (filter n unprocessed deg degrees lambda_1 lower upper).calls
        = FilterCall.shift (-((upper + lower) / 2)) false
          :: (mid ++ [FilterCall.shift ((upper + lower) / 2) true]) ∧
      ∀ x, x ∈ mid → x.isThreeTerms := by
  have hstep : ∃ mid : List (FilterCall K),
      (filterStep n
        ((upper - lower) / 2 / (lambda_1 - (upper + lower) / 2) / ((upper - lower) / 2)) 0
        ({ degrees := degrees
           unprocessed := unprocessed
           offset := 0
           num_mult := 0
           Av := 0
           sigma := (upper - lower) / 2 / (lambda_1 - (upper + lower) / 2)
           calls := [FilterCall.shift (-((upper + lower) / 2)) false]
           ptr := 0
           reads := []
           fault := false } : FilterState K)).calls
        = FilterCall.shift (-((upper + lower) / 2)) false :: mid ∧
      ∀ x, x ∈ mid → x.isThreeTerms := by
    rw [filterStep_calls]
    exact calls_snoc _ _ [] _ rfl (fun y hy => by cases hy) trivial
  obtain ⟨mid, hm1, hm2⟩ := filterLoop_calls n deg
    ((upper - lower) / 2 / (lambda_1 - (upper + lower) / 2)) ((upper - lower) / 2)
    (FilterCall.shift (-((upper + lower) / 2)) false) _ hstep
  refine ⟨mid, ?_, hm2⟩
  unfold filter
  simp only
  rw [hm1]
  rfl

theorem runCalls_threeTerms {K : Type} (S : K → List K → List K)
    (mid : List (FilterCall K)) (h : ∀ x, x ∈ mid → x.isThreeTerms) (H : List K) :
    runCalls S mid H = H := by
  unfold runCalls
  induction mid generalizing H with
  | nil => rfl
  | cons x xs ih =>
    rw [List.foldl_cons]
    have hx := h x (List.mem_cons_self _ _)
    cases x with
    | shift c b => exact absurd hx (fun hf => hf)
    | threeTerms b al be o =>
      simp only
      exact ih (fun y hy => h y (List.mem_cons_of_mem _ hy)) H

/-- The operator after the calls of `filter` is the operator shifted by `-c`
and then by `c`. -/
theorem runCalls_filter {K : Type} [Field K] (S : K → List K → List K)
    (n unprocessed deg : Nat) (degrees : List Nat) (lambda_1 lower upper : K)
    (H : List K) :
    runCalls S (filter n unprocessed deg degrees lambda_1 lower upper).calls H
      = S ((upper + lower) / 2) (S (-((upper + lower) / 2)) H) := by
  obtain ⟨mid, hm1, hm2⟩ := filter_calls n unprocessed deg degrees lambda_1 lower upper
  rw [hm1]
  have e : runCalls S
      (FilterCall.shift (-((upper + lower) / 2)) false
        :: (mid ++ [FilterCall.shift ((upper + lower) / 2) true])) H
      = runCalls S [FilterCall.shift ((upper + lower) / 2) true]
        (runCalls S mid (S (-((upper + lower) / 2)) H)) := by
    unfold runCalls
    rw [List.foldl_cons, List.foldl_append]
  rw [e, runCalls_threeTerms S mid hm2]
  rfl

/-- C15: `filter` calls `shift(-c)` once, before its first multiplication, and
`shift(+c)` once, after its last, with `c = (upper + lower) / 2`; in exact
arithmetic `shiftMatrix(-c)` followed by `shiftMatrix(+c)` returns every stored
entry of the operator to its value, for the sequential backend and for
`ChaseMpiHemm`; so the operator after `filter` is the operator before it. -/
theorem filter_shift_round_trip {K : Type} [Field K] (n unprocessed deg : Nat)
    (degrees : List Nat) (lambda_1 lower upper : K) (N_ n_ m_ off0 off1 : Nat)
    (H : List K) :
    (∃ mid : List (FilterCall K),
      (filter n unprocessed deg degrees lambda_1 lower upper).calls
        = FilterCall.shift (-((upper + lower) / 2)) false
          :: (mid ++ [FilterCall.shift ((upper + lower) / 2) true]) ∧
      ∀ x, x ∈ mid → x.isThreeTerms) ∧
    (∀ c : K, seqShiftMatrix N_ c (seqShiftMatrix N_ (-c) H) = H) ∧
    (∀ c : K, hemmShiftMatrix n_ m_ off0 off1 c (hemmShiftMatrix n_ m_ off0 off1 (-c) H) = H) ∧
    runCalls (seqShiftMatrix N_)
      (filter n unprocessed deg degrees lambda_1 lower upper).calls H = H ∧
    runCalls (hemmShiftMatrix n_ m_ off0 off1)
      (filter n unprocessed deg degrees lambda_1 lower upper).calls H = H := by
  refine ⟨filter_calls n unprocessed deg degrees lambda_1 lower upper, ?_, ?_, ?_, ?_⟩
  · intro c
    exact (seqShiftMatrix_prog N_).round_trip c H
  · intro c
    exact (hemmShiftMatrix_prog n_ m_ off0 off1).round_trip c H
  · rw [runCalls_filter]
    exact (seqShiftMatrix_prog N_).round_trip _ H
  · rw [runCalls_filter]
    exact (hemmShiftMatrix_prog n_ m_ off0 off1).round_trip _ H

/-! ## `lanczos`: the spectral bounds and the returned index -/

theorem lanczosUpperb_max {K : Type} [LinearOrder K] (B : LanczosBackend K) (numvec : Nat)
    (h : 1 ≤ numvec) :
    (∀ i, i < numvec → B.upperb_ i ≤ lanczosUpperb B numvec) ∧
    ∃ i, i < numvec ∧ lanczosUpperb B numvec = B.upperb_ i := by
  unfold lanczosUpperb
  apply forRange_invariant
    (fun k (ub : K) => (∀ i, i < k → B.upperb_ i ≤ ub) ∧ ∃ i, i < k ∧ ub = B.upperb_ i) h
  · refine ⟨?_, 0, Nat.zero_lt_one, rfl⟩
    intro i hi
    have : i = 0 := by omega
    subst this
    exact le_refl _
  · intro k ub _ _ ⟨h1, j, hj, hub⟩
    constructor
    · intro i hi
      by_cases hik : i = k
      · subst hik
        exact le_max_left _ _
      · exact le_trans (h1 i (by omega)) (le_max_right _ _)
    · rcases le_total (B.upperb_ k) ub with hle | hle
      · exact ⟨j, by omega, by rw [max_eq_right hle]; exact hub⟩
      · exact ⟨k, by omega, max_eq_left hle⟩

theorem lanczos_dos_upperb {K : Type} [LinearOrderedField K] (B : LanczosBackend K)
    (G : K → K) (junk : K) (N numvec m nevex getNex : Nat) (ritzv_ : List K) :
    (lanczos B G junk N numvec m nevex getNex true ritzv_).upperb = lanczosUpperb B numvec := by
  unfold lanczos
  simp

theorem lanczos_dos_search {K : Type} [LinearOrderedField K] (B : LanczosBackend K)
    (G : K → K) (junk : K) (N numvec m nevex getNex : Nat) (ritzv_ : List K) :
    (lanczos B G junk N numvec m nevex getNex true ritzv_).search
      = ((nevex + getNex / 2 : Nat) : K) / (N : K) := by
  unfold lanczos
  simp

/-- C16: in density-of-states mode with `numvec ≥ 1` runs, the bound `lanczos`
writes to `*upperb` is the maximum of the upper values of the runs: it is at
least the value of every run and it is the value of one of them. -/
theorem lanczos_upperb_is_max {K : Type} [LinearOrderedField K] (B : LanczosBackend K)
    (G : K → K) (junk : K) (N numvec m nevex getNex : Nat) (ritzv_ : List K)
    (h : 1 ≤ numvec) :
    (∀ i, i < numvec →
      B.upperb_ i ≤ (lanczos B G junk N numvec m nevex getNex true ritzv_).upperb) ∧
    ∃ i, i < numvec ∧
      (lanczos B G junk N numvec m nevex getNex true ritzv_).upperb = B.upperb_ i := by
  rw [lanczos_dos_upperb]
  exact lanczosUpperb_max B numvec h

/-- A run of C16: six runs with the upper values 10, 11, ..., 15. -/
theorem lanczos_upperb_is_max_witness :
    1 ≤ 6 ∧
    (lanczos sampleLanczos sampleG 0 40 6 1 2 1 true [0, 0]).upperb = 15 ∧
    ((∀ i, i < 6 →
      sampleLanczos.upperb_ i
        ≤ (lanczos sampleLanczos sampleG 0 40 6 1 2 1 true [0, 0]).upperb) ∧
    ∃ i, i < 6 ∧
      (lanczos sampleLanczos sampleG 0 40 6 1 2 1 true [0, 0]).upperb
        = sampleLanczos.upperb_ i) := by
  have h := lanczos_upperb_is_max sampleLanczos sampleG 0 40 6 1 2 1 [0, 0] (by decide)
  exact ⟨by decide, by with_unfolding_all decide, h⟩

/-- C17 as stated fails: for `nev = 3`, `nex = 2`, `N = 10` the target fraction
of the `lanczos` call of `solve` is `(5 + 2 / 2) / 10 = 6 / 10`, not
`(3 + 2 / 2) / 10`: the first summand is `nevex = nev + nex`. -/
theorem lanczos_search_uses_nevex :
    (solveLanczos sampleLanczos sampleG 0 10 3 2 1 true [0, 0, 0, 0, 0]).search = 6 / 10 ∧
    (solveLanczos sampleLanczos sampleG 0 10 3 2 1 true [0, 0, 0, 0, 0]).search
      ≠ ((3 : ℚ) + 2 / 2) / 10 := by
  have e : (solveLanczos sampleLanczos sampleG 0 10 3 2 1 true [0, 0, 0, 0, 0]).search
      = 6 / 10 := by
    unfold solveLanczos
    rw [lanczos_dos_search]
    norm_num [uadd, sizeMod]
  refine ⟨e, ?_⟩
  rw [e]
  norm_num

/-- C17, amended: the target fraction that `lanczos` compares the smoothed
cumulative density against, in the call that `solve` makes, is
`(nev + nex + nex / 2) / N` with `nex / 2` the integer quotient: the first
summand is the argument `nevex = nev + nex` of `lanczos`. -/
theorem lanczos_search_target {K : Type} [LinearOrderedField K] (B : LanczosBackend K)
    (G : K → K) (junk : K) (N nev nex lanczosIter : Nat) (ritzv : List K)
    (h : nev + nex < sizeMod) :
    (solveLanczos B G junk N nev nex lanczosIter true ritzv).search
      = ((nev + nex + nex / 2 : Nat) : K) / (N : K) := by
  unfold solveLanczos
  rw [lanczos_dos_search]
  unfold uadd
  rw [Nat.mod_eq_of_lt h]

/-- A run of the amended C17: `nev = 3`, `nex = 2`, `N = 10`. -/
theorem lanczos_search_target_witness :
    3 + 2 < sizeMod ∧
    (solveLanczos sampleLanczos sampleG 0 10 3 2 1 true [0, 0, 0, 0, 0]).search
      = ((3 + 2 + 2 / 2 : Nat) : ℚ) / ((10 : Nat) : ℚ) := by
  have h := lanczos_search_target sampleLanczos sampleG 0 10 3 2 1 [0, 0, 0, 0, 0] (by decide)
  exact ⟨by decide, h⟩

/-- C18: `N = 40`, `nev = nex = 1`, one Lanczos step per run; run 0 finds the Ritz
value 1 and the last run the Ritz value 5.  The lower bound becomes 1, no Ritz
value of the last run lies below it, and `lanczos` returns `idx = 0 - 1`, which
as `std::size_t` is `2^64 - 1`: neither the count 0 nor a value up to `m = 1`. -/
theorem lanczos_returns_minus_one :
    (solveLanczos sampleLanczos sampleG 0 40 1 1 1 true [0, 0]).origin
      = LowerbOrigin.entry 0 ∧
    (solveLanczos sampleLanczos sampleG 0 40 1 1 1 true [0, 0]).lowerb = 1 ∧
    sampleLanczos.Theta 5 0 = 5 ∧
    (solveLanczos sampleLanczos sampleG 0 40 1 1 1 true [0, 0]).idx = -1 ∧
    (solveLanczos sampleLanczos sampleG 0 40 1 1 1 true [0, 0]).ret
      = 18446744073709551615 := by
  refine ⟨?_, ?_, ?_, ?_, ?_⟩ <;> with_unfolding_all decide

/-- C19: with the sample runs and `nev = nex = 1`, for `N = 1000` the density at
the smallest Ritz value, `1/12`, is already more than twice the target `1/500`,
and `lowerb` is read from `ThetaSorted[-1]`; for `nev = 6`, `nex = 3`, `N = 10`
the target is 1, the density never exceeds it, and `lowerb` is never assigned. -/
theorem lanczos_lowerb_unsafe :
    (solveLanczos sampleLanczos sampleG 0 1000 1 1 1 true [0, 0]).origin
      = LowerbOrigin.outOfRange ∧
    (solveLanczos sampleLanczos sampleG 0 10 6 3 1 true
      [0, 0, 0, 0, 0, 0, 0, 0, 0]).origin = LowerbOrigin.unset := by
  refine ⟨?_, ?_⟩ <;> with_unfolding_all decide

/-! ## The distributed multiply: `next_` alternates -/

theorem dla_apply_next {K : Type} (n_ m_ : Nat) (alpha beta : K)
    (offset block locked : Nat) (s : MultState K) :
    (ChaseMpiDLA.apply n_ m_ alpha beta offset block locked s).next_
      = if s.next_ = NextOp.bAc then NextOp.cAb else NextOp.bAc := by
  unfold ChaseMpiDLA.apply
  split_ifs <;> rfl

theorem hemm_apply_next {K : Type} [Zero K] [One K] (n_ m_ : Nat) (alpha beta : K)
    (offset block : Nat) (s : MultState K) :
    (ChaseMpiHemm.apply n_ m_ alpha beta offset block s).next_
      = if s.next_ = NextOp.bAc then NextOp.cAb else NextOp.bAc := by
  unfold ChaseMpiHemm.apply
  split_ifs <;> rfl

theorem foldl_next_parity {S A : Type} (next : S → NextOp) (f : S → A → S)
    (hf : ∀ s a, next (f s a) = if next s = NextOp.bAc then NextOp.cAb else NextOp.bAc)
    (args : List A) :
    ∀ s, next (args.foldl f s)
      = if args.length % 2 = 0 then next s
        else (if next s = NextOp.bAc then NextOp.cAb else NextOp.bAc) := by
  induction args with
  | nil => intro s; rfl
  | cons a rest ih =>
    intro s
    rw [List.foldl_cons, ih, hf, List.length_cons]
    rcases Nat.mod_two_eq_zero_or_one rest.length with h | h
    · have h2 : (rest.length + 1) % 2 = 1 := by omega
      rw [h, h2]
      simp
    · have h2 : (rest.length + 1) % 2 = 0 := by omega
      rw [h, h2]
      cases hs : next s <;> simp

theorem dla_applyAll_next {K : Type} (n_ m_ locked : Nat)
    (args : List (ApplyArgs K)) (s : MultState K) :
    (ChaseMpiDLA.applyAll n_ m_ args (ChaseMpiDLA.preApplication locked s)).next_
      = if args.length % 2 = 0 then NextOp.bAc else NextOp.cAb := by
  unfold ChaseMpiDLA.applyAll
  rw [foldl_next_parity MultState.next_ _ (fun s a => dla_apply_next n_ m_ _ _ _ _ _ s)]
  simp [ChaseMpiDLA.preApplication]

theorem hemm_applyAll_next {K : Type} [Zero K] [One K] (n_ m_ locked : Nat)
    (args : List (ApplyArgs K)) (s : MultState K) :
    (ChaseMpiHemm.applyAll n_ m_ args (ChaseMpiHemm.preApplication locked s)).next_
      = if args.length % 2 = 0 then NextOp.bAc else NextOp.cAb := by
  unfold ChaseMpiHemm.applyAll
  rw [foldl_next_parity MultState.next_ _ (fun s a => hemm_apply_next n_ m_ _ _ _ _ s)]
  simp [ChaseMpiHemm.preApplication]

/-- C20 as stated fails for `ChaseMpiHemm`: on a rank with a `3 × 2` block of `H`,
the `apply` made in state `bAc` right after `preApplication` reduces two
elements of the intermediate buffer `IMT_` over the column communicator and
then updates `B_` locally; the next `apply`, in state `cAb`, reduces three
elements of `IMT_` over the row communicator.  Neither reduces `B_` or `C_`. -/
theorem hemm_apply_reduces_IMT :
    (ChaseMpiHemm.apply 2 3 (7 : Int) 5 0 1
        (ChaseMpiHemm.preApplication 0 ⟨NextOp.cAb, 0, []⟩)).calls
      = [MpiCall.gemm 1 0 0 1 none,
         MpiCall.allreduce Buffer.IMT 0 2 Comm.col_comm,
         MpiCall.scal 2 5 Buffer.B 0,
         MpiCall.axpy 2 7 Buffer.IMT 0 Buffer.B 0] ∧
    ((ChaseMpiHemm.applyAll 2 3 [⟨(7 : Int), 5, 0, 1, 0⟩, ⟨7, 5, 0, 1, 0⟩]
        (ChaseMpiHemm.preApplication 0 ⟨NextOp.cAb, 0, []⟩)).calls.filterMap
      MpiCall.reduced) = [Buffer.IMT, Buffer.IMT] := by
  constructor <;> decide

/-- C20, amended: in `ChaseMpiDLA` and in `ChaseMpiHemm`, after `preApplication`
followed by `k` calls of `apply` the state `next_` is `bAc` when `k` is even and
`cAb` when `k` is odd.  An `apply` of `ChaseMpiDLA` calls the local multiply and
then sum-reduces, in state `bAc`, `n_ * block` elements of `B_` over the column
communicator and, in state `cAb`, `m_ * block` elements of `C_` over the row
communicator.  An `apply` of `ChaseMpiHemm` sum-reduces the same number of
elements of the intermediate buffer `IMT_` over the same communicator and then
scales `B_` (resp. `C_`) by `beta` and adds `alpha` times the reduced part of
`IMT_` to it.  The counts are products in `std::size_t`. -/
theorem nextOp_toggles {K : Type} [Zero K] [One K] (n_ m_ locked0 : Nat)
    (args : List (ApplyArgs K)) (s : MultState K)
    (alpha beta : K) (offset block locked : Nat) :
    (ChaseMpiDLA.applyAll n_ m_ args (ChaseMpiDLA.preApplication locked0 s)).next_
      = (if args.length % 2 = 0 then NextOp.bAc else NextOp.cAb) ∧
    (ChaseMpiHemm.applyAll n_ m_ args (ChaseMpiHemm.preApplication locked0 s)).next_
      = (if args.length % 2 = 0 then NextOp.bAc else NextOp.cAb) ∧
    (ChaseMpiDLA.apply n_ m_ alpha beta offset block locked s).calls
      = s.calls ++
        [MpiCall.gemm alpha beta offset block (some locked),
         if s.next_ = NextOp.bAc then
           MpiCall.allreduce Buffer.B (uadd (umul locked n_) (umul offset n_))
             (umul n_ block) Comm.col_comm
         else
           MpiCall.allreduce Buffer.C (uadd (umul locked m_) (umul offset m_))
             (umul m_ block) Comm.row_comm] ∧
    (ChaseMpiHemm.apply n_ m_ alpha beta offset block s).calls
      = s.calls ++
        (if s.next_ = NextOp.bAc then
          [MpiCall.gemm 1 0 offset block none,
           MpiCall.allreduce Buffer.IMT (umul offset n_) (umul n_ block) Comm.col_comm,
           MpiCall.scal (umul n_ block) beta Buffer.B (umul offset n_),
           MpiCall.axpy (umul n_ block) alpha Buffer.IMT (umul offset n_)
             Buffer.B (umul offset n_)]
        else
          [MpiCall.gemm 1 0 offset block none,
           MpiCall.allreduce Buffer.IMT (umul offset m_) (umul m_ block) Comm.row_comm,
           MpiCall.scal (umul m_ block) beta Buffer.C (umul offset m_),
           MpiCall.axpy (umul m_ block) alpha Buffer.IMT (umul offset m_)
             Buffer.C (umul offset m_)]) := by
  refine ⟨dla_applyAll_next n_ m_ locked0 args s,
    hemm_applyAll_next n_ m_ locked0 args s, ?_, ?_⟩
  · unfold ChaseMpiDLA.apply
    split_ifs <;> rfl
  · unfold ChaseMpiHemm.apply
    split_ifs <;> rfl

/-! ## The distributed multiply: what resets `next_` -/

/-- C21 as stated fails.  In `ChaseMpiDLA`, after construction, a first
`shiftMatrix`, and one `apply`, the state is `cAb` and a second `shiftMatrix`
leaves it at `cAb`: the reset is guarded by `istartOfFilter_`, which the first
call cleared.  In `ChaseMpiHemm`, `shiftMatrix` after `preApplication` and one
`apply` leaves the state at `cAb` as well: it never assigns `next_`. -/
theorem shiftMatrix_leaves_cAb :
    (ChaseMpiDLA.shiftMatrix (3 : Int) true
      (DlaState.apply 2 3 1 0 0 1 0
        (ChaseMpiDLA.shiftMatrix (-3) false (ChaseMpiDLA.ctor NextOp.cAb 0)))).mult.next_
      = NextOp.cAb ∧
    (ChaseMpiHemm.shiftMatrix 2 3 0 0 (3 : Int)
      (HemmState.apply 2 3 1 0 0 1
        (HemmState.preApplication 0 ⟨⟨NextOp.cAb, 0, []⟩, [0, 0, 0, 0, 0, 0]⟩))).mult.next_
      = NextOp.cAb := by
  constructor <;> decide

/-- C21, amended: every call of `preApplication`, of `ChaseMpiDLA` and of
`ChaseMpiHemm`, leaves `next_` at `bAc`, whatever the state was.  A call of
`ChaseMpiDLA::shiftMatrix` leaves `next_` at `bAc` when `istartOfFilter_` is
set, which is the case only until the first `shiftMatrix` after construction,
and otherwise leaves `next_` as it was; it always clears `istartOfFilter_`.
A call of `ChaseMpiHemm::shiftMatrix` leaves `next_` as it was. -/
theorem nextOp_reset {K : Type} [Add K] (s : DlaState K) (t : HemmState K)
    (locked n_ m_ off0 off1 : Nat) (c : K) (isunshift : Bool) :
    (DlaState.preApplication locked s).mult.next_ = NextOp.bAc ∧
    (HemmState.preApplication locked t).mult.next_ = NextOp.bAc ∧
    (ChaseMpiDLA.shiftMatrix c isunshift s).mult.next_
      = (if s.istartOfFilter_ then NextOp.bAc else s.mult.next_) ∧
    (ChaseMpiDLA.shiftMatrix c isunshift s).istartOfFilter_ = false ∧
    (ChaseMpiDLA.shiftMatrix c isunshift
      (ChaseMpiDLA.ctor NextOp.cAb locked)).mult.next_ = NextOp.bAc ∧
    (ChaseMpiHemm.shiftMatrix n_ m_ off0 off1 c t).mult.next_ = t.mult.next_ := by
  refine ⟨rfl, rfl, ?_, rfl, rfl, rfl⟩
  unfold ChaseMpiDLA.shiftMatrix
  cases s.istartOfFilter_ <;> rfl

/-! ## `cholQR`: the shift of the Gram matrix -/

theorem diag_index_inj {nevex t k : Nat} (h : t * nevex + t = k * nevex + k) : t = k := by
  have e1 : t * nevex + t = t * (nevex + 1) := by ring
  have e2 : k * nevex + k = k * (nevex + 1) := by ring
  rw [e1, e2] at h
  exact Nat.eq_of_mul_eq_mul_right (Nat.succ_pos nevex) h

theorem diag_index_iff {nevex i j : Nat} (hj : j < nevex) :
    (∃ t, t < nevex ∧ i * nevex + j = t * nevex + t) ↔ i = j := by
  constructor
  · rintro ⟨t, ht, h⟩
    have hpos : 0 < nevex := by omega
    have h2 : j + i * nevex = t + t * nevex := by omega
    have hm : j = t := by
      have := congrArg (fun x => x % nevex) h2
      simp only [Nat.add_mul_mod_self_right, Nat.mod_eq_of_lt hj, Nat.mod_eq_of_lt ht] at this
      exact this
    subst hm
    have hd : i * nevex = j * nevex := by omega
    exact Nat.eq_of_mul_eq_mul_right hpos hd
  · intro h
    subst h
    exact ⟨i, hj, rfl⟩

/-- The loop of lines 980-982 adds the shift to the entries `t * nevex + t`,
`t < nevex`, and leaves every other entry as it is. -/
theorem shiftDiagonal_spec {K : Type} [Add K] (nevex : Nat) (shift : K) (A : List K) (p : Nat) :
    ((∃ t, t < nevex ∧ p = t * nevex + t) →
      (shiftDiagonal nevex shift A)[p]? = (A[p]?).map (fun h => h + shift)) ∧
    ((¬ ∃ t, t < nevex ∧ p = t * nevex + t) →
      (shiftDiagonal nevex shift A)[p]? = A[p]?) := by
  unfold shiftDiagonal
  have key := forRange_invariant
    (fun k (A1 : List K) => ∀ p,
      ((∃ t, t < k ∧ p = t * nevex + t) → A1[p]? = (A[p]?).map (fun h => h + shift)) ∧
      ((¬ ∃ t, t < k ∧ p = t * nevex + t) → A1[p]? = A[p]?))
    (Nat.zero_le nevex) (fun i A1 => addAt (i * nevex + i) shift A1) A
    (by
      intro p
      refine ⟨?_, fun _ => rfl⟩
      rintro ⟨t, ht, _⟩
      omega)
    (by
      intro k A1 _ _ ih p
      dsimp only
      rw [addAt_getElem?]
      by_cases hp : p = k * nevex + k
      · rw [if_pos hp]
        have hnot : ¬ ∃ t, t < k ∧ p = t * nevex + t := by
          rintro ⟨t, ht, e⟩
          have := diag_index_inj (e.symm.trans hp)
          omega
        rw [(ih p).2 hnot]
        exact ⟨fun _ => rfl, fun h => absurd ⟨k, Nat.lt_succ_self k, hp⟩ h⟩
      · rw [if_neg hp]
        constructor
        · rintro ⟨t, ht, e⟩
          have htk : t ≠ k := fun h => hp (h ▸ e)
          exact (ih p).1 ⟨t, by omega, e⟩
        · intro h
          exact (ih p).2 (fun ⟨t, ht, e⟩ => h ⟨t, by omega, e⟩))
  exact key p

theorem shiftDiagonal_entry {K : Type} [Add K] (nevex : Nat) (shift : K) (A : List K)
    (i j : Nat) (hj : j < nevex) :
    (shiftDiagonal nevex shift A)[i * nevex + j]?
      = if i = j then (A[i * nevex + j]?).map (fun h => h + shift) else A[i * nevex + j]? := by
  by_cases h : i = j
  · rw [if_pos h]
    exact (shiftDiagonal_spec nevex shift A _).1 ((diag_index_iff hj).2 h)
  · rw [if_neg h]
    exact (shiftDiagonal_spec nevex shift A _).2 (fun hex => h ((diag_index_iff hj).1 hex))

/-- What the refinement loop of `cholQR` does to the state: it appends calls,
one `trsm` for each pass and no `hhQR`, and touches neither `C2_` nor `isHHqr`;
`C_` keeps its length when `trsm` keeps it. -/
theorem cholLoop_spec {K : Type} (B : QRBackend K) (choldeg : Int) (n : Nat) (s : QRState K) :
    (∃ rest, (forRange 0 n (cholPass B choldeg) s).calls = s.calls ++ rest ∧
      rest.countP QRCall.isTrsm = n) ∧
    (forRange 0 n (cholPass B choldeg) s).C2_ = s.C2_ ∧
    (forRange 0 n (cholPass B choldeg) s).isHHqr = s.isHHqr ∧
    ((∀ A C, (B.trsm A C).length = C.length) →
      (forRange 0 n (cholPass B choldeg) s).C_.length = s.C_.length) := by
  apply forRange_invariant
    (fun k (r : QRState K) =>
      (∃ rest, r.calls = s.calls ++ rest ∧ rest.countP QRCall.isTrsm = k) ∧
      r.C2_ = s.C2_ ∧ r.isHHqr = s.isHHqr ∧
      ((∀ A C, (B.trsm A C).length = C.length) → r.C_.length = s.C_.length))
    (Nat.zero_le n)
  · exact ⟨⟨[], by simp, rfl⟩, rfl, rfl, fun _ => rfl⟩
  · intro k r _ _ ⟨⟨rest, h1, h2⟩, h3, h4, h5⟩
    refine ⟨⟨rest ++ [QRCall.syherk false, QRCall.allreduce,
        QRCall.potrf (B.gram r.C_) (B.potrf (k + 1) (B.gram r.C_)).1,
        QRCall.trsm (B.potrf (k + 1) (B.gram r.C_)).2
          (decide (¬ (k : Int) = choldeg - 2))], ?_, ?_⟩, h3, h4, ?_⟩
    · show r.calls ++ _ = _
      rw [h1, List.append_assoc]
    · rw [List.countP_append, h2]
      simp [QRCall.isTrsm]
    · intro hT
      show (B.trsm _ r.C_).length = _
      rw [hT, h5 hT]

theorem cholQR_prefix_factored {K : Type} (b : Bool) (A1 : List K) (info : Int)
    (rest : List (QRCall K)) :
    ((([QRCall.syherk true, QRCall.allreduce] ++
        (if b then [QRCall.lange, QRCall.allreduce] else []) ++
        [QRCall.potrf A1 info]) ++ rest).filterMap QRCall.factored).head? = some A1 := by
  cases b <;> simp [QRCall.factored]

theorem cholStart_calls {K : Type} [LinearOrderedField K] (B : QRBackend K) (isDouble : Bool)
    (N_ nev_ nex_ : Nat) (cond : K) (C_ C2_ : List K) :
    (cholStart B isDouble N_ nev_ nex_ cond C_ C2_).calls
      = [QRCall.syherk true, QRCall.allreduce] ++
        (if decide ((condThreshold isDouble).1 < cond) then
          [QRCall.lange, QRCall.allreduce] else []) ++
        [QRCall.potrf (cholGram B isDouble N_ nev_ nex_ cond C_)
          (B.potrf 0 (cholGram B isDouble N_ nev_ nex_ cond C_)).1] := by
  unfold cholStart
  simp only [decide_eq_true_eq]

/-- The calls of the branch `info == 0`: those made before, the first `trsm`,
and the calls of the refinement passes, with one `trsm` for each pass. -/
theorem cholRefine_calls {K : Type} [LinearOrderedField K] (B : QRBackend K)
    (isDouble : Bool) (choldegenv : Option Int) (m_ nev_ nex_ locked : Nat) (cond : K)
    (s0 : QRState K) :
    ∃ rest, (cholRefine B isDouble choldegenv m_ nev_ nex_ locked cond s0).calls
        = s0.calls ++ (QRCall.trsm s0.A_ (decide (¬ cholDegree isDouble choldegenv cond = 1))
          :: rest) ∧
      rest.countP QRCall.isTrsm = (cholDegree isDouble choldegenv cond - 1).toNat := by
  obtain ⟨⟨rest, h1, h2⟩, -⟩ := cholLoop_spec B (cholDegree isDouble choldegenv cond)
    (cholDegree isDouble choldegenv cond - 1).toNat
    ({ s0 with
      C_ := B.trsm s0.A_ s0.C_
      calls := s0.calls ++
        [QRCall.trsm s0.A_ (decide (¬ cholDegree isDouble choldegenv cond = 1))] } : QRState K)
  refine ⟨rest, ?_, h2⟩
  unfold cholRefine
  show QRState.calls (forRange 0 _ (cholPass B _) _) = _
  rw [h1]
  simp

theorem cholQR_first_factored {K : Type} [LinearOrderedField K] (B : QRBackend K)
    (isDouble : Bool) (choldegenv : Option Int) (N_ m_ nev_ nex_ locked : Nat) (cond : K)
    (C_ C2_ : List K) :
    ((cholQR B isDouble choldegenv N_ m_ nev_ nex_ locked cond C_ C2_).calls.filterMap
      QRCall.factored).head? = some (cholGram B isDouble N_ nev_ nex_ cond C_) := by
  unfold cholQR
  simp only
  by_cases h : (B.potrf 0 (cholGram B isDouble N_ nev_ nex_ cond C_)).1 = 0
  · rw [if_pos h]
    obtain ⟨rest, h1, -⟩ := cholRefine_calls B isDouble choldegenv m_ nev_ nex_ locked cond
      (cholStart B isDouble N_ nev_ nex_ cond C_ C2_)
    rw [h1, cholStart_calls]
    exact cholQR_prefix_factored _ _ _ _
  · rw [if_neg h]
    unfold hhQR
    simp only
    rw [cholStart_calls]
    exact cholQR_prefix_factored _ _ _ _

/-- C22: the matrix the first `potrf` of `cholQR` is given is the Gram matrix of
`C_`, with the shift of line 974 added to each of the `nevex` diagonal entries
and no other entry changed when `cond` exceeds the threshold (`1e8` for 8-byte
reals, `1e5` otherwise), and unmodified when `cond` is at or below it. -/
theorem cholQR_shift_iff {K : Type} [LinearOrderedField K] (B : QRBackend K)
    (isDouble : Bool) (choldegenv : Option Int) (N_ m_ nev_ nex_ locked : Nat) (cond : K)
    (C_ C2_ : List K) (i j : Nat) (hj : j < uadd nev_ nex_) :
    ((cholQR B isDouble choldegenv N_ m_ nev_ nex_ locked cond C_ C2_).calls.filterMap
      QRCall.factored).head? = some (cholGram B isDouble N_ nev_ nex_ cond C_) ∧
    (cholGram B isDouble N_ nev_ nex_ cond C_)[i * uadd nev_ nex_ + j]?
      = (if (if isDouble then (100000000 : K) else 100000) < cond ∧ i = j then
          ((B.gram C_)[i * uadd nev_ nex_ + j]?).map
            (fun a => a + cholShift B N_ (uadd nev_ nex_) C_)
        else (B.gram C_)[i * uadd nev_ nex_ + j]?) ∧
    (cond ≤ (if isDouble then (100000000 : K) else 100000) →
      cholGram B isDouble N_ nev_ nex_ cond C_ = B.gram C_) := by
  have hthr : (condThreshold isDouble : K × K).1
      = if isDouble then (100000000 : K) else 100000 := by
    unfold condThreshold
    cases isDouble <;> rfl
  refine ⟨cholQR_first_factored B isDouble choldegenv N_ m_ nev_ nex_ locked cond C_ C2_,
    ?_, ?_⟩
  · unfold cholGram
    simp only
    rw [hthr]
    by_cases hc : (if isDouble then (100000000 : K) else 100000) < cond
    · rw [if_pos hc, shiftDiagonal_entry _ _ _ i j hj]
      by_cases hij : i = j
      · rw [if_pos hij, if_pos ⟨hc, hij⟩]
      · rw [if_neg hij, if_neg (fun h => hij h.2)]
    · rw [if_neg hc, if_neg (fun h => hc h.1)]
  · intro hle
    unfold cholGram
    simp only
    rw [hthr, if_neg (not_lt.mpr hle)]

/-- A run of C22: `nevex = 2`, `cond = 1e9` with 8-byte reals; the entry `(1, 1)`
of the Gram matrix `[2, 4, 6, 8]` becomes `8 + 154/1000`. -/
theorem cholQR_shift_iff_witness :
    1 < uadd 1 1 ∧
    (cholGram sampleQR true 4 1 1 (1000000000 : ℚ) [1, 2, 3, 4])[1 * uadd 1 1 + 1]?
      = some (8 + 154 / 1000) ∧
    (((cholQR sampleQR true none 4 2 1 1 1 (1000000000 : ℚ) [1, 2, 3, 4]
        [9, 9, 9, 9]).calls.filterMap QRCall.factored).head?
      = some (cholGram sampleQR true 4 1 1 (1000000000 : ℚ) [1, 2, 3, 4]) ∧
    (cholGram sampleQR true 4 1 1 (1000000000 : ℚ) [1, 2, 3, 4])[1 * uadd 1 1 + 1]?
      = (if (if true then (100000000 : ℚ) else 100000) < 1000000000 ∧ 1 = 1 then
          ((sampleQR.gram [1, 2, 3, 4])[1 * uadd 1 1 + 1]?).map
            (fun a => a + cholShift sampleQR 4 (uadd 1 1) [1, 2, 3, 4])
        else (sampleQR.gram [1, 2, 3, 4])[1 * uadd 1 1 + 1]?) ∧
    ((1000000000 : ℚ) ≤ (if true then (100000000 : ℚ) else 100000) →
      cholGram sampleQR true 4 1 1 (1000000000 : ℚ) [1, 2, 3, 4]
        = sampleQR.gram [1, 2, 3, 4])) := by
  have h := cholQR_shift_iff sampleQR true none 4 2 1 1 1 (1000000000 : ℚ) [1, 2, 3, 4]
    [9, 9, 9, 9] 1 1 (by decide)
  have e : (cholGram sampleQR true 4 1 1 (1000000000 : ℚ) [1, 2, 3, 4])[1 * uadd 1 1 + 1]?
      = some (8 + 154 / 1000) := by
    have hu : uadd 1 1 = 2 := by decide
    have h11 : umul 11 (uadd (uadd (umul 4 2) (umul 2 2)) 2) = 154 := by decide
    rw [hu]
    unfold cholGram
    simp only [condThreshold, if_true]
    rw [hu, if_pos (by norm_num), shiftDiagonal_entry 2 _ _ 1 1 (by decide)]
    simp only [cholShift, h11, sampleQR]
    norm_num
  exact ⟨by decide, e, h⟩

/-! ## `cholQR`: the number of passes -/

theorem cholStart_no_trsm {K : Type} [LinearOrderedField K] (B : QRBackend K) (isDouble : Bool)
    (N_ nev_ nex_ : Nat) (cond : K) (C_ C2_ : List K) :
    (cholStart B isDouble N_ nev_ nex_ cond C_ C2_).calls.countP QRCall.isTrsm = 0 := by
  rw [cholStart_calls]
  cases decide ((condThreshold isDouble).1 < cond) <;> simp [QRCall.isTrsm]

/-- When the first factorization succeeds, `cholQR` makes one pass and then
`choldeg - 1` further passes (none when `choldeg` is below 1). -/
theorem cholQR_cycles_eq {K : Type} [LinearOrderedField K] (B : QRBackend K)
    (isDouble : Bool) (choldegenv : Option Int) (N_ m_ nev_ nex_ locked : Nat) (cond : K)
    (C_ C2_ : List K)
    (h : (B.potrf 0 (cholGram B isDouble N_ nev_ nex_ cond C_)).1 = 0) :
    cycles (cholQR B isDouble choldegenv N_ m_ nev_ nex_ locked cond C_ C2_)
      = 1 + (cholDegree isDouble choldegenv cond - 1).toNat := by
  unfold cycles cholQR
  simp only
  rw [if_pos h]
  obtain ⟨rest, h1, h2⟩ := cholRefine_calls B isDouble choldegenv m_ nev_ nex_ locked cond
    (cholStart B isDouble N_ nev_ nex_ cond C_ C2_)
  rw [h1, List.countP_append, cholStart_no_trsm, List.countP_cons, h2]
  simp [QRCall.isTrsm]
  omega

theorem condThreshold_lt {K : Type} [LinearOrderedField K] (isDouble : Bool) :
    (condThreshold isDouble : K × K).2 < (condThreshold isDouble : K × K).1 := by
  unfold condThreshold
  cases isDouble
  · simp only [Bool.false_eq_true, if_false]
    norm_num
  · simp only [if_true]
    norm_num

theorem cholDegree_eq {K : Type} [LinearOrderedField K] (isDouble : Bool)
    (choldegenv : Option Int) (cond : K) :
    1 + (cholDegree isDouble choldegenv cond - 1).toNat
      = (match choldegenv with
        | some d =>
          if (condThreshold isDouble).1 < cond ∧ d = 1 then 2
          else if d ≤ 1 then 1 else d.toNat
        | none => if cond < (condThreshold isDouble).2 then 1 else 2) := by
  unfold cholDegree
  cases choldegenv with
  | none =>
    simp only
    by_cases hc : cond < (condThreshold isDouble).2
    · have hn : ¬ (condThreshold isDouble).1 < cond :=
        fun h2 => lt_irrefl _ (lt_trans (lt_trans hc (condThreshold_lt isDouble)) h2)
      rw [if_pos hc, if_pos hc, if_neg (fun h2 => hn h2.1)]
      rfl
    · rw [if_neg hc, if_neg hc]
      split_ifs <;> rfl
  | some d =>
    simp only
    by_cases h1 : (condThreshold isDouble).1 < cond ∧ d = 1
    · rw [if_pos h1, if_pos h1]
      rfl
    · rw [if_neg h1, if_neg h1]
      split_ifs with h2 <;> omega

/-- C23 as stated fails: with the override 1 and `cond = 1e9`, above the shift
threshold, `cholQR` makes two passes, not one; with the override 0 it makes one
pass, not none.  In both runs the first factorization succeeds. -/
theorem cholQR_override_not_obeyed :
    (sampleQR.potrf 0 (cholGram sampleQR true 4 1 1 (1000000000 : ℚ) [1, 2, 3, 4])).1 = 0 ∧
    cycles (cholQR sampleQR true (some 1) 4 2 1 1 1 (1000000000 : ℚ) [1, 2, 3, 4]
      [9, 9, 9, 9]) = 2 ∧
    (sampleQR.potrf 0 (cholGram sampleQR true 4 1 1 (5 : ℚ) [1, 2, 3, 4])).1 = 0 ∧
    cycles (cholQR sampleQR true (some 0) 4 2 1 1 1 (5 : ℚ) [1, 2, 3, 4] [9, 9, 9, 9]) = 1 := by
  refine ⟨rfl, ?_, rfl, ?_⟩
  · rw [cholQR_cycles_eq _ _ _ _ _ _ _ _ _ _ _ rfl, cholDegree_eq]
    simp only [condThreshold, if_true]
    norm_num
  · rw [cholQR_cycles_eq _ _ _ _ _ _ _ _ _ _ _ rfl, cholDegree_eq]
    simp only [condThreshold, if_true]
    norm_num

/-- C23, amended: when the first factorization succeeds, the number of Gram,
factorize and solve cycles of `cholQR` is, with the override `d` supplied: 2
when `d = 1` and `cond` exceeds the shift threshold (`1e8` for 8-byte reals,
`1e5` otherwise), else 1 when `d ≤ 1`, else `d`; and without the override: 1
when `cond` is below the single-pass threshold (`1e4`, resp. `1e2`), else 2. -/
theorem cholQR_cycles {K : Type} [LinearOrderedField K] (B : QRBackend K)
    (isDouble : Bool) (choldegenv : Option Int) (N_ m_ nev_ nex_ locked : Nat) (cond : K)
    (C_ C2_ : List K)
    (h : (B.potrf 0 (cholGram B isDouble N_ nev_ nex_ cond C_)).1 = 0) :
    cycles (cholQR B isDouble choldegenv N_ m_ nev_ nex_ locked cond C_ C2_)
      = (match choldegenv with
        | some d =>
          if (if isDouble then (100000000 : K) else 100000) < cond ∧ d = 1 then 2
          else if d ≤ 1 then 1 else d.toNat
        | none => if cond < (if isDouble then (10000 : K) else 100) then 1 else 2) := by
  have h1 : (condThreshold isDouble : K × K).1
      = if isDouble then (100000000 : K) else 100000 := by
    unfold condThreshold
    cases isDouble <;> rfl
  have h2 : (condThreshold isDouble : K × K).2 = if isDouble then (10000 : K) else 100 := by
    unfold condThreshold
    cases isDouble <;> rfl
  rw [cholQR_cycles_eq B isDouble choldegenv N_ m_ nev_ nex_ locked cond C_ C2_ h,
    cholDegree_eq, h1, h2]

/-- A run of the amended C23: the override 3 with `cond = 5` gives three
cycles. -/
theorem cholQR_cycles_witness :
    (sampleQR.potrf 0 (cholGram sampleQR true 4 1 1 (5 : ℚ) [1, 2, 3, 4])).1 = 0 ∧
    cycles (cholQR sampleQR true (some 3) 4 2 1 1 1 (5 : ℚ) [1, 2, 3, 4] [9, 9, 9, 9])
      = (match (some 3 : Option Int) with
        | some d =>
          if (if true then (100000000 : ℚ) else 100000) < 5 ∧ d = 1 then 2
          else if d ≤ 1 then 1 else d.toNat
        | none => if (5 : ℚ) < (if true then (10000 : ℚ) else 100) then 1 else 2) := by
  have h := cholQR_cycles sampleQR true (some 3) 4 2 1 1 1 (5 : ℚ) [1, 2, 3, 4] [9, 9, 9, 9] rfl
  exact ⟨rfl, h⟩

/-! ## `cholQR`: a factorization that fails in a refinement pass -/

set_option maxRecDepth 100000 in
/-- C24: `cond = 50000` with 8-byte reals and no override, so two passes; the
first `potrf` succeeds and the second reports `info = 1`.  `cholQR` applies
`trsm` with the factor the failed call left in `A_`, makes no call of `hhQR`,
and returns with `isHHqr = false`: the value of `info` of line 1063 is never
read. -/
theorem cholQR_ignores_second_failure :
    (cholQR sampleQR true none 4 2 1 1 1 (50000 : ℚ) [1, 2, 3, 4] [9, 9, 9, 9]).calls
      = [QRCall.syherk true, QRCall.allreduce,
         QRCall.potrf [2, 4, 6, 8] 0, QRCall.trsm [2, 4, 6, 8] true,
         QRCall.syherk false, QRCall.allreduce,
         QRCall.potrf [6, 8, 10, 12] 1, QRCall.trsm [6, 8, 10, 12] false] ∧
    (cholQR sampleQR true none 4 2 1 1 1 (50000 : ℚ) [1, 2, 3, 4] [9, 9, 9, 9]).isHHqr
      = false ∧
    (cholQR sampleQR true none 4 2 1 1 1 (50000 : ℚ) [1, 2, 3, 4] [9, 9, 9, 9]).C_
      = [9, 9, 11, 12] := by
  refine ⟨?_, ?_, ?_⟩ <;> with_unfolding_all decide

/-! ## `cholQR` and `hhQR`: the locked columns and the backup buffer -/

theorem memcpy_getElem? {K : Type} (dst : List K) (dOff : Nat) (src : List K)
    (sOff count p : Nat) :
    (memcpy dst dOff src sOff count)[p]?
      = (dst[p]?).map (fun v =>
          if dOff ≤ p ∧ p < dOff + count then (src[sOff + (p - dOff)]?).getD v else v) := by
  unfold memcpy
  rw [List.getElem?_mapIdx]

theorem memcpy_length {K : Type} (dst : List K) (dOff : Nat) (src : List K)
    (sOff count : Nat) : (memcpy dst dOff src sOff count).length = dst.length := by
  unfold memcpy
  rw [List.length_mapIdx]

/-- The two copies on buffers of `T` entries, with `L ≤ T` locked entries: the
first `L` entries of both results are those of `C2`, the other entries of both
are those of `X`, and the two results are equal. -/
theorem copies_spec {K : Type} (X C2 : List K) (T L : Nat) (hX : X.length = T)
    (hC2 : C2.length = T) (hL : L ≤ T) :
    (∀ p, p < L → (memcpy X 0 C2 0 L)[p]? = C2[p]?) ∧
    (∀ p, L ≤ p → (memcpy X 0 C2 0 L)[p]? = X[p]?) ∧
    memcpy C2 L (memcpy X 0 C2 0 L) L (T - L) = memcpy X 0 C2 0 L := by
  have h1 : ∀ p, p < L → (memcpy X 0 C2 0 L)[p]? = C2[p]? := by
    intro p hp
    rw [memcpy_getElem?, List.getElem?_eq_getElem (show p < X.length by omega),
      List.getElem?_eq_getElem (show p < C2.length by omega)]
    simp only [Option.map_some']
    rw [if_pos ⟨Nat.zero_le _, by omega⟩]
    have e : 0 + (p - 0) = p := by omega
    rw [e, List.getElem?_eq_getElem (show p < C2.length by omega)]
    rfl
  have h2 : ∀ p, L ≤ p → (memcpy X 0 C2 0 L)[p]? = X[p]? := by
    intro p hp
    rw [memcpy_getElem?]
    cases hx : X[p]? with
    | none => rfl
    | some x =>
      simp only [Option.map_some']
      rw [if_neg (fun h => by omega)]
  refine ⟨h1, h2, ?_⟩
  apply List.ext_getElem?
  intro p
  rw [memcpy_getElem?]
  by_cases hp : p < L
  · rw [h1 p hp]
    cases hc : C2[p]? with
    | none => rfl
    | some c =>
      simp only [Option.map_some']
      rw [if_neg (fun h => by omega)]
  · by_cases hpT : p < T
    · rw [List.getElem?_eq_getElem (show p < C2.length by omega)]
      simp only [Option.map_some']
      rw [if_pos ⟨by omega, by omega⟩]
      have e : L + (p - L) = p := by omega
      rw [e]
      have hlen : p < (memcpy X 0 C2 0 L).length := by
        rw [memcpy_length]; omega
      rw [List.getElem?_eq_getElem hlen]
      rfl
    · rw [List.getElem?_eq_none (show C2.length ≤ p by omega),
        List.getElem?_eq_none (show (memcpy X 0 C2 0 L).length ≤ p by
          rw [memcpy_length]; omega)]
      rfl

theorem copyBack_spec {K : Type} (m_ nevex locked : Nat) (X C2 : List K)
    (hX : X.length = nevex * m_) (hC2 : C2.length = nevex * m_) (hl : locked ≤ nevex)
    (hn : nevex < sizeMod) (hm : nevex * m_ < sizeMod) :
    (∀ p, p < locked * m_ → (copyBack m_ nevex locked X C2).1[p]? = C2[p]?) ∧
    (∀ p, locked * m_ ≤ p → (copyBack m_ nevex locked X C2).1[p]? = X[p]?) ∧
    (copyBack m_ nevex locked X C2).2 = (copyBack m_ nevex locked X C2).1 := by
  have hle : locked * m_ ≤ nevex * m_ := Nat.mul_le_mul_right _ hl
  have e1 : umul locked m_ = locked * m_ := by
    unfold umul
    exact Nat.mod_eq_of_lt (by omega)
  have e2 : usub nevex locked = nevex - locked := by
    unfold usub
    rw [Nat.mod_eq_of_lt hn, Nat.mod_eq_of_lt (show locked < sizeMod by omega)]
    have : nevex + sizeMod - locked = (nevex - locked) + sizeMod := by omega
    rw [this, Nat.add_mod_right]
    exact Nat.mod_eq_of_lt (by omega)
  have e3 : umul (nevex - locked) m_ = nevex * m_ - locked * m_ := by
    unfold umul
    rw [Nat.sub_mul]
    exact Nat.mod_eq_of_lt (by omega)
  unfold copyBack
  simp only
  rw [e1, e2, e3]
  exact copies_spec X C2 (nevex * m_) (locked * m_) hX hC2 hle

/-- The branch `info == 0` ends with the two copies applied to some content of
`C_` of the original length and to the `C2_` it was given. -/
theorem cholRefine_ends_with_copies {K : Type} [LinearOrderedField K] (B : QRBackend K)
    (isDouble : Bool) (choldegenv : Option Int) (m_ nev_ nex_ locked : Nat) (cond : K)
    (s0 : QRState K) (hT : ∀ A C, (B.trsm A C).length = C.length) :
    ∃ X, X.length = s0.C_.length ∧
      (cholRefine B isDouble choldegenv m_ nev_ nex_ locked cond s0).C_
        = (copyBack m_ (uadd nev_ nex_) locked X s0.C2_).1 ∧
      (cholRefine B isDouble choldegenv m_ nev_ nex_ locked cond s0).C2_
        = (copyBack m_ (uadd nev_ nex_) locked X s0.C2_).2 := by
  obtain ⟨S, hS⟩ : ∃ S : QRState K, S = forRange 0
      (cholDegree isDouble choldegenv cond - 1).toNat
      (cholPass B (cholDegree isDouble choldegenv cond))
      ({ s0 with
        C_ := B.trsm s0.A_ s0.C_
        calls := s0.calls ++
          [QRCall.trsm s0.A_ (decide (¬ cholDegree isDouble choldegenv cond = 1))] } :
        QRState K) := ⟨_, rfl⟩
  obtain ⟨-, h2, -, h4⟩ := cholLoop_spec B (cholDegree isDouble choldegenv cond)
    (cholDegree isDouble choldegenv cond - 1).toNat
    ({ s0 with
      C_ := B.trsm s0.A_ s0.C_
      calls := s0.calls ++
        [QRCall.trsm s0.A_ (decide (¬ cholDegree isDouble choldegenv cond = 1))] } : QRState K)
  rw [← hS] at h2 h4
  have h2a : S.C2_ = s0.C2_ := h2
  have h4a : S.C_.length = (B.trsm s0.A_ s0.C_).length := h4 hT
  have e1 : (cholRefine B isDouble choldegenv m_ nev_ nex_ locked cond s0).C_
      = (copyBack m_ (uadd nev_ nex_) locked S.C_ S.C2_).1 := by
    rw [hS]; rfl
  have e2 : (cholRefine B isDouble choldegenv m_ nev_ nex_ locked cond s0).C2_
      = (copyBack m_ (uadd nev_ nex_) locked S.C_ S.C2_).2 := by
    rw [hS]; rfl
  rw [h2a] at e1 e2
  exact ⟨S.C_, h4a.trans (hT _ _), e1, e2⟩

/-- Both branches of `cholQR` end with the two copies applied to some content
of `C_` of the original length and to the `C2_` of the call. -/
theorem cholQR_ends_with_copies {K : Type} [LinearOrderedField K] (B : QRBackend K)
    (isDouble : Bool) (choldegenv : Option Int) (N_ m_ nev_ nex_ locked : Nat) (cond : K)
    (C_ C2_ : List K) (hT : ∀ A C, (B.trsm A C).length = C.length)
    (hH : ∀ C, (B.householder C).length = C.length) :
    ∃ X, X.length = C_.length ∧
      (cholQR B isDouble choldegenv N_ m_ nev_ nex_ locked cond C_ C2_).C_
        = (copyBack m_ (uadd nev_ nex_) locked X C2_).1 ∧
      (cholQR B isDouble choldegenv N_ m_ nev_ nex_ locked cond C_ C2_).C2_
        = (copyBack m_ (uadd nev_ nex_) locked X C2_).2 := by
  unfold cholQR
  simp only
  by_cases h : (B.potrf 0 (cholGram B isDouble N_ nev_ nex_ cond C_)).1 = 0
  · rw [if_pos h]
    exact cholRefine_ends_with_copies B isDouble choldegenv m_ nev_ nex_ locked cond
      (cholStart B isDouble N_ nev_ nex_ cond C_ C2_) hT
  · rw [if_neg h]
    exact ⟨B.householder C_, hH C_, rfl, rfl⟩

/-- C25: after `cholQR(locked, cond)`, on the Cholesky path and on the
Householder path, the first `locked` columns of `C_` hold what `C2_` held in
them before the call, the first `locked` columns of `C2_` are unchanged, and
`C2_` equals `C_` on all `nev + nex` columns.  The kernels keep the size of
`C_`, both buffers hold `nev + nex` columns of `m_` entries, and `locked` is at
most `nev + nex`. -/
theorem cholQR_keeps_locked_columns {K : Type} [LinearOrderedField K] (B : QRBackend K)
    (isDouble : Bool) (choldegenv : Option Int) (N_ m_ nev_ nex_ locked : Nat) (cond : K)
    (C_ C2_ : List K) (hT : ∀ A C, (B.trsm A C).length = C.length)
    (hH : ∀ C, (B.householder C).length = C.length)
    (hn : nev_ + nex_ < sizeMod) (hm : (nev_ + nex_) * m_ < sizeMod)
    (hl : locked ≤ nev_ + nex_) (hC : C_.length = (nev_ + nex_) * m_)
    (hC2 : C2_.length = (nev_ + nex_) * m_) :
    (∀ p, p < locked * m_ →
      (cholQR B isDouble choldegenv N_ m_ nev_ nex_ locked cond C_ C2_).C_[p]? = C2_[p]?) ∧
    (∀ p, p < locked * m_ →
      (cholQR B isDouble choldegenv N_ m_ nev_ nex_ locked cond C_ C2_).C2_[p]? = C2_[p]?) ∧
    (cholQR B isDouble choldegenv N_ m_ nev_ nex_ locked cond C_ C2_).C2_
      = (cholQR B isDouble choldegenv N_ m_ nev_ nex_ locked cond C_ C2_).C_ := by
  obtain ⟨X, hX, e1, e2⟩ := cholQR_ends_with_copies B isDouble choldegenv N_ m_ nev_ nex_
    locked cond C_ C2_ hT hH
  have hu : uadd nev_ nex_ = nev_ + nex_ := by
    unfold uadd
    exact Nat.mod_eq_of_lt hn
  rw [hu] at e1 e2
  obtain ⟨c1, -, c3⟩ := copyBack_spec m_ (nev_ + nex_) locked X C2_ (hX.trans hC) hC2 hl hn hm
  rw [e1, e2]
  refine ⟨c1, ?_, c3⟩
  intro p hp
  rw [c3]
  exact c1 p hp

set_option maxRecDepth 100000 in
/-- A run of C25: two columns of two entries, one of them locked; `C_` was
`[1, 2, 3, 4]` and `C2_` was `[9, 9, 9, 9]`. -/
theorem cholQR_keeps_locked_columns_witness :
    (∀ A C, (sampleQR.trsm A C).length = C.length) ∧
    (∀ C, (sampleQR.householder C).length = C.length) ∧
    1 + 1 < sizeMod ∧ (1 + 1) * 2 < sizeMod ∧ 1 ≤ 1 + 1 ∧
    ([1, 2, 3, 4] : List ℚ).length = (1 + 1) * 2 ∧
    ([9, 9, 9, 9] : List ℚ).length = (1 + 1) * 2 ∧
    (cholQR sampleQR true none 4 2 1 1 1 (5 : ℚ) [1, 2, 3, 4] [9, 9, 9, 9]).C_
      = [9, 9, 5, 6] ∧
    ((∀ p, p < 1 * 2 →
      (cholQR sampleQR true none 4 2 1 1 1 (5 : ℚ) [1, 2, 3, 4] [9, 9, 9, 9]).C_[p]?
        = ([9, 9, 9, 9] : List ℚ)[p]?) ∧
    (∀ p, p < 1 * 2 →
      (cholQR sampleQR true none 4 2 1 1 1 (5 : ℚ) [1, 2, 3, 4] [9, 9, 9, 9]).C2_[p]?
        = ([9, 9, 9, 9] : List ℚ)[p]?) ∧
    (cholQR sampleQR true none 4 2 1 1 1 (5 : ℚ) [1, 2, 3, 4] [9, 9, 9, 9]).C2_
      = (cholQR sampleQR true none 4 2 1 1 1 (5 : ℚ) [1, 2, 3, 4] [9, 9, 9, 9]).C_) := by
  have hT : ∀ A C, (sampleQR.trsm A C).length = C.length := by
    intro A C
    simp [sampleQR]
  have hH : ∀ C, (sampleQR.householder C).length = C.length := by
    intro C
    simp [sampleQR]
  have h := cholQR_keeps_locked_columns sampleQR true none 4 2 1 1 1 (5 : ℚ) [1, 2, 3, 4]
    [9, 9, 9, 9] hT hH (by decide) (by decide) (by decide) rfl rfl
  exact ⟨hT, hH, by decide, by decide, by decide, rfl, rfl, by with_unfolding_all decide, h⟩

/-! ## `filter`: which vectors each multiplication step works on -/

/-- On a window that holds a degree above `num_mult`, the drop loop advances
`offset` by `n` for each degree it drops. -/
theorem dropLoop_offset {K : Type} (n : Nat) (l beyond : List Nat) :
    ∀ s : FilterState K, (∃ d, d ∈ l ∧ s.num_mult < d) → s.offset < sizeMod →
      (dropLoop n (l ++ beyond) s).offset
        = (s.offset + (l.length
            - (l.dropWhile (fun d => decide (d ≤ s.num_mult))).length) * n) % sizeMod := by
  induction l with
  | nil =>
    intro s ⟨d, hd, _⟩
    cases hd
  | cons d rest ih =>
    intro s ⟨d0, hd0, hlt0⟩ hoff
    rw [List.cons_append]
    unfold dropLoop
    by_cases hc : d ≤ s.num_mult
    · rw [if_pos ⟨Nat.zero_le _, hc⟩]
      have hmem : d0 ∈ rest := by
        rcases List.mem_cons.mp hd0 with h | h
        · omega
        · exact h
      have := ih
        { s with
          degrees := rest ++ beyond
          ptr := s.ptr + 1
          unprocessed := usub s.unprocessed 1
          offset := uadd s.offset n
          reads := s.reads ++ [s.ptr] }
        ⟨d0, hmem, hlt0⟩ (Nat.mod_lt _ (by decide))
      rw [this]
      simp only [List.dropWhile_cons, hc, decide_True, if_true, List.length_cons]
      have hle := length_dropWhile_le (fun d => decide (d ≤ s.num_mult)) rest
      have e : rest.length + 1
          - (rest.dropWhile (fun d => decide (d ≤ s.num_mult))).length
          = (rest.length - (rest.dropWhile (fun d => decide (d ≤ s.num_mult))).length) + 1 := by
        omega
      rw [e, Nat.add_mul, Nat.one_mul]
      unfold uadd
      rw [Nat.mod_add_mod]
      congr 1
      omega
    · have hne : ¬ (0 ≤ s.unprocessed ∧ d ≤ s.num_mult) := fun h => hc h.2
      rw [if_neg hne]
      simp only [List.dropWhile_cons, hc, decide_False, Bool.false_eq_true, if_false,
        Nat.sub_self, Nat.zero_mul, Nat.add_zero]
      exact (Nat.mod_eq_of_lt hoff).symm

theorem countP_above (s : Nat) (l : List Nat) (hs : l.Pairwise (fun x y => x ≤ y)) :
    (l.dropWhile (fun d => decide (d ≤ s))).length
      = l.countP (fun d => decide (s + 1 ≤ d)) := by
  rw [dropWhile_eq_filter_of_sorted s l hs, ← List.countP_eq_length_filter]
  rfl

theorem countP_below (s : Nat) (l : List Nat) (hs : l.Pairwise (fun x y => x ≤ y)) :
    l.length - (l.dropWhile (fun d => decide (d ≤ s))).length
      = l.countP (fun d => decide (d < s + 1)) := by
  rw [countP_above s l hs]
  have h := List.length_eq_countP_add_countP (fun d => decide (s + 1 ≤ d)) l
  have e : l.countP (fun a => decide ¬ (decide (s + 1 ≤ a) = true))
      = l.countP (fun d => decide (d < s + 1)) := by
    apply List.countP_congr
    intro d _
    simp only [decide_eq_true_eq, Nat.not_le]
  rw [e] at h
  omega

/-- One multiplication step of `filter`, seen from the calls: the step after
`s` steps works on the vectors with a degree above `s`. -/
theorem filterStep_trace {K : Type} (n : Nat) (alpha beta : K) (l beyond : List Nat)
    (deg s : Nat) (st : FilterState K) (hs : l.Pairwise (fun x y => x ≤ y))
    (hdeg : deg ∈ l) (hn : 1 ≤ n) (hoff : l.length * n < sizeMod)
    (hinv : FilterInv l beyond deg s st) (hlt : s < deg)
    (hofs : st.offset = (l.length - (l.dropWhile (fun d => decide (d ≤ s))).length) * n) :
    (filterStep n alpha beta st).calls
      = st.calls ++ [FilterCall.threeTerms (l.countP (fun d => decide (s + 1 ≤ d)))
          alpha beta (l.countP (fun d => decide (d < s + 1)))] ∧
    (filterStep n alpha beta st).sigma = st.sigma ∧
    (s + 1 < deg →
      (filterStep n alpha beta st).offset
        = (l.length - (l.dropWhile (fun d => decide (d ≤ s + 1))).length) * n) := by
  obtain ⟨i1, -, i3⟩ := hinv
  obtain ⟨i4, i5⟩ := i3 hlt
  have hus := length_dropWhile_le (fun d => decide (d ≤ s)) l
  refine ⟨?_, ?_, ?_⟩
  · rw [filterStep_calls, i5, hofs, Nat.mul_div_cancel _ hn, countP_below s l hs,
      countP_above s l hs]
  · unfold filterStep
    simp only
    rw [(dropLoop_frame n _ _).2.2.2]
  · intro hlt2
    have hW : l.dropWhile (fun d => decide (d ≤ s)) = l.filter (fun d => decide (s < d)) :=
      dropWhile_eq_filter_of_sorted s l hs
    have hex : ∃ d, d ∈ l.dropWhile (fun d => decide (d ≤ s)) ∧ s + 1 < d := by
      refine ⟨deg, ?_, hlt2⟩
      rw [hW, List.mem_filter]
      exact ⟨hdeg, by simpa using hlt⟩
    have hbound : (l.length - (l.dropWhile (fun d => decide (d ≤ s))).length) * n
        ≤ l.length * n := Nat.mul_le_mul_right _ (Nat.sub_le _ _)
    have w := dropLoop_offset n (l.dropWhile (fun d => decide (d ≤ s))) beyond
      ({ st with
        calls := st.calls ++ [FilterCall.threeTerms st.unprocessed alpha beta (st.offset / n)]
        Av := uadd st.Av st.unprocessed
        num_mult := st.num_mult + 1 } : FilterState K)
      (by
        show ∃ d, d ∈ l.dropWhile (fun d => decide (d ≤ s)) ∧ st.num_mult + 1 < d
        rw [i1]; exact hex)
      (by
        show st.offset < sizeMod
        rw [hofs]; omega)
    have hnm : ({ st with
        calls := st.calls ++ [FilterCall.threeTerms st.unprocessed alpha beta (st.offset / n)]
        Av := uadd st.Av st.unprocessed
        num_mult := st.num_mult + 1 } : FilterState K).num_mult = s + 1 := by
      show st.num_mult + 1 = s + 1
      rw [i1]
    have hof : ({ st with
        calls := st.calls ++ [FilterCall.threeTerms st.unprocessed alpha beta (st.offset / n)]
        Av := uadd st.Av st.unprocessed
        num_mult := st.num_mult + 1 } : FilterState K).offset = st.offset := rfl
    rw [hnm, hof, dropWhile_dropWhile_le s (s + 1) (Nat.le_succ s) l, ← i4] at w
    have hle2 : (l.dropWhile (fun d => decide (d ≤ s + 1))).length
        ≤ (l.dropWhile (fun d => decide (d ≤ s))).length := by
      rw [← dropWhile_dropWhile_le s (s + 1) (Nat.le_succ s) l]
      exact length_dropWhile_le _ _
    unfold filterStep
    simp only
    refine Eq.trans w ?_
    rw [hofs, ← Nat.add_mul]
    have e : l.length - (l.dropWhile (fun d => decide (d ≤ s))).length
        + ((l.dropWhile (fun d => decide (d ≤ s))).length
          - (l.dropWhile (fun d => decide (d ≤ s + 1))).length)
        = l.length - (l.dropWhile (fun d => decide (d ≤ s + 1))).length := by omega
    rw [e]
    apply Nat.mod_eq_of_lt
    have : (l.length - (l.dropWhile (fun d => decide (d ≤ s + 1))).length) * n
        ≤ l.length * n := Nat.mul_le_mul_right _ (Nat.sub_le _ _)
    omega

theorem dropWhile_le_zero (l : List Nat) (h1 : ∀ d, d ∈ l → 1 ≤ d) :
    l.dropWhile (fun d => decide (d ≤ 0)) = l := by
  cases l with
  | nil => rfl
  | cons d rest =>
    have := h1 d (List.mem_cons_self _ _)
    have hd : ¬ (decide (d ≤ 0) = true) := by
      simp only [decide_eq_true_eq]; omega
    rw [List.dropWhile_cons, if_neg hd]

/-- The state of `filter` after its `deg` multiplication steps, before the
closing `shift`: the calls are `c0` and the `deg` steps of the specification. -/
theorem filterLoop_trace {K : Type} [Field K] (n deg : Nat) (l beyond : List Nat)
    (sigma_1 e : K) (c0 : FilterCall K) (hs : l.Pairwise (fun x y => x ≤ y))
    (h1 : ∀ d, d ∈ l → 1 ≤ d) (hdeg : deg ∈ l) (hsum : l.sum < sizeMod)
    (hn : 1 ≤ n) (hoff : l.length * n < sizeMod) :
    (forRange 2 (deg + 1) (fun _ s => filterLoopBody n sigma_1 e s)
      (filterStep n (sigma_1 / e) 0
        ({ degrees := l ++ beyond
           unprocessed := l.length
           offset := 0
           num_mult := 0
           Av := 0
           sigma := sigma_1
           calls := [c0]
           ptr := 0
           reads := []
           fault := false } : FilterState K))).calls
      = c0 :: (List.range deg).map (expectedStep l sigma_1 e) := by
  have hdeg1 : 1 ≤ deg := h1 deg hdeg
  have hW0 := dropWhile_le_zero l h1
  have h0 : FilterInv l beyond deg 0
      ({ degrees := l ++ beyond
         unprocessed := l.length
         offset := 0
         num_mult := 0
         Av := 0
         sigma := sigma_1
         calls := [c0]
         ptr := 0
         reads := []
         fault := false } : FilterState K) := by
    refine ⟨rfl, (capSum_zero l).symm, fun _ => ?_⟩
    rw [hW0]
    exact ⟨rfl, rfl⟩
  have hstep1 := filterStep_inv n (sigma_1 / e) 0 l beyond deg 0 _ hs h1 hdeg hsum h0
    (by omega)
  obtain ⟨t1, t2, t3⟩ := filterStep_trace n (sigma_1 / e) 0 l beyond deg 0 _ hs hdeg hn hoff h0
    (by omega) (by
      show 0 = _
      rw [hW0, Nat.sub_self, Nat.zero_mul])
  have htr1 : TraceInv l n sigma_1 e c0 deg 1
      (filterStep n (sigma_1 / e) 0
        ({ degrees := l ++ beyond
           unprocessed := l.length
           offset := 0
           num_mult := 0
           Av := 0
           sigma := sigma_1
           calls := [c0]
           ptr := 0
           reads := []
           fault := false } : FilterState K)) := by
    refine ⟨t2, ?_, t3⟩
    rw [t1]
    rfl
  have key := forRange_invariant
    (fun i (st : FilterState K) =>
      FilterInv l beyond deg (i - 1) st ∧ TraceInv l n sigma_1 e c0 deg (i - 1) st)
    (show 2 ≤ deg + 1 by omega)
    (fun _ s => filterLoopBody n sigma_1 e s) _ ⟨hstep1, htr1⟩
    (by
      intro i st hi1 hi2 ⟨hinv, htr⟩
      obtain ⟨s, rfl⟩ : ∃ s, i = s + 1 + 1 := ⟨i - 2, by omega⟩
      have e1 : s + 1 + 1 - 1 = s + 1 := by omega
      have e2 : s + 1 + 1 + 1 - 1 = s + 1 + 1 := by omega
      rw [e1] at hinv htr
      rw [e2]
      obtain ⟨r1, r2, r3⟩ := htr
      have hslt : s + 1 < deg := by omega
      dsimp only
      unfold filterLoopBody
      simp only
      have hinv' : FilterInv l beyond deg (s + 1)
          ({ st with sigma := 1 / (2 / sigma_1 - st.sigma) } : FilterState K) := hinv
      have a := filterStep_inv n (2 * (1 / (2 / sigma_1 - st.sigma)) / e)
        (-(st.sigma * (1 / (2 / sigma_1 - st.sigma)))) l beyond deg (s + 1) _ hs h1 hdeg hsum
        hinv' hslt
      obtain ⟨b1, b2, b3⟩ := filterStep_trace n (2 * (1 / (2 / sigma_1 - st.sigma)) / e)
        (-(st.sigma * (1 / (2 / sigma_1 - st.sigma)))) l beyond deg (s + 1)
        ({ st with sigma := 1 / (2 / sigma_1 - st.sigma) } : FilterState K) hs hdeg hn hoff
        hinv' hslt (r3 hslt)
      refine ⟨a, ?_, ?_, b3⟩
      · rw [b2]
        show 1 / (2 / sigma_1 - st.sigma) = sigmaAfter sigma_1 (s + 1 + 1 - 1)
        rw [e1, r1]
        rfl
      · rw [b1]
        show st.calls ++ _ = _
        rw [r2, List.range_succ (s + 1), List.map_append, List.cons_append, r1]
        rfl)
  rw [key.2.2.1]
  rfl

/-- C26: for a non-decreasing list of degrees that are all at least 1, with
`deg` one of them (the largest, in a call of `solve`), `filter` makes exactly
`deg` calls of `threeTerms` between the two shifts, and call number `s`
(`s = 1..deg`) works on the vectors whose degree is at least `s`: its block size
is the number of degrees `≥ s` and its column offset the number of degrees
`< s`; the first call has `alpha = sigma_1 / e` and `beta = 0`, call `s ≥ 2`
has `alpha = 2 * sigma_new / e` and `beta = -sigma * sigma_new` with
`sigma_new = 1 / (2 / sigma_1 - sigma)`.  The vector length `n` is at least 1
and the offsets fit `std::size_t`. -/
theorem filter_steps {K : Type} [Field K] (n deg : Nat) (degrees beyond : List Nat)
    (lambda_1 lower upper : K) (hs : degrees.Pairwise (fun x y => x ≤ y))
    (h1 : ∀ d, d ∈ degrees → 1 ≤ d) (hdeg : deg ∈ degrees)
    (hsum : degrees.sum < sizeMod) (hn : 1 ≤ n) (hoff : degrees.length * n < sizeMod) :
    (filter n degrees.length deg (degrees ++ beyond) lambda_1 lower upper).calls
      = FilterCall.shift (-((upper + lower) / 2)) false
        :: ((List.range deg).map
            (expectedStep degrees ((upper - lower) / 2 / (lambda_1 - (upper + lower) / 2))
              ((upper - lower) / 2))
          ++ [FilterCall.shift ((upper + lower) / 2) true]) := by
  unfold filter
  simp only
  rw [filterLoop_trace n deg degrees beyond _ _ _ hs h1 hdeg hsum hn hoff]
  rfl

set_option maxRecDepth 100000 in
/-- A run of C26: the degrees `[2, 2, 4]` with `deg = 4`; the steps 1 and 2 work
on three vectors from column 0, the steps 3 and 4 on one vector from column
2. -/
theorem filter_steps_witness :
    [2, 2, 4].Pairwise (fun x y => x ≤ y) ∧ 4 ∈ [2, 2, 4] ∧
    ((List.range 4).map (expectedStep [2, 2, 4] ((10 - 2) / 2 / ((0 : ℚ) - (10 + 2) / 2))
        ((10 - 2) / 2)))
      = [FilterCall.threeTerms 3 (-1 / 6) 0 0, FilterCall.threeTerms 3 (-3 / 14) (-2 / 7) 0,
         FilterCall.threeTerms 1 (-7 / 36) (-1 / 6) 2,
         FilterCall.threeTerms 1 (-9 / 47) (-7 / 47) 2] ∧
    (filter 10 [2, 2, 4].length 4 ([2, 2, 4] ++ [0, 7]) (0 : ℚ) 2 10).calls
      = FilterCall.shift (-(((10 : ℚ) + 2) / 2)) false
        :: ((List.range 4).map
            (expectedStep [2, 2, 4] ((10 - 2) / 2 / ((0 : ℚ) - (10 + 2) / 2))
              ((10 - 2) / 2))
          ++ [FilterCall.shift (((10 : ℚ) + 2) / 2) true]) := by
  have h := filter_steps 10 4 [2, 2, 4] [0, 7] (0 : ℚ) 2 10
    (by decide) (by decide) (by decide) (by decide) (by decide) (by decide)
  exact ⟨by decide, by decide, by with_unfolding_all decide, h⟩

/-! ## `calc_degrees`: the degrees of the buffer slots -/

/-- Lines 50-57 store the capped degree in every slot they visit. -/
theorem degreeLoop_exact {α : Type} (est : α → α → Nat) (conf : ChASE_Config α)
    (m : Nat) (ritzv resid : List α) (degrees : List Nat)
    (hr : m ≤ ritzv.length) (hs : m ≤ resid.length) (hd : m ≤ degrees.length) :
    (forRange 0 m (degreeSlot est conf ritzv resid) degrees).length = degrees.length ∧
    ∀ i, i < m →
      degAt (forRange 0 m (degreeSlot est conf ritzv resid) degrees) i
        = cappedDegree est conf ritzv resid i := by
  apply forRange_invariant
    (fun k d => d.length = degrees.length ∧
      ∀ i, i < k → degAt d i = cappedDegree est conf ritzv resid i) (Nat.zero_le m)
  · exact ⟨rfl, fun i hi => by omega⟩
  · intro k d _ hk ⟨hl, ih⟩
    unfold degreeSlot
    rw [List.getElem?_eq_getElem (show k < ritzv.length by omega),
      List.getElem?_eq_getElem (show k < resid.length by omega)]
    simp only
    refine ⟨by rw [List.length_set, hl], ?_⟩
    intro i hi
    rw [degAt_set]
    by_cases hik : k = i
    · subst hik
      rw [if_pos ⟨rfl, by omega⟩]
      unfold cappedDegree
      rw [List.getElem?_eq_getElem (show k < ritzv.length by omega),
        List.getElem?_eq_getElem (show k < resid.length by omega)]
    · rw [if_neg (fun h => hik h.1)]
      exact ih i (by omega)

/-- Lines 59-61 give every buffer slot the value of slot `unconverged - 1 - nex`
and leave the slots before them as they are. -/
theorem copyLoop_exact (unconverged nex : Nat) (d1 : List Nat) (hn : nex < unconverged)
    (hd : unconverged ≤ d1.length) :
    (forRange (unconverged - nex) unconverged (copySlot unconverged nex) d1).length
      = d1.length ∧
    ∀ i, i < unconverged →
      degAt (forRange (unconverged - nex) unconverged (copySlot unconverged nex) d1) i
        = if i < unconverged - nex then degAt d1 i else degAt d1 (unconverged - 1 - nex) := by
  have key := forRange_invariant
    (fun k d => d.length = d1.length ∧
      (∀ i, i < k → degAt d i
        = if i < unconverged - nex then degAt d1 i else degAt d1 (unconverged - 1 - nex)) ∧
      (∀ i, k ≤ i → degAt d i = degAt d1 i))
    (Nat.sub_le unconverged nex) (copySlot unconverged nex) d1
    ⟨rfl, fun i hi => by rw [if_pos hi], fun _ _ => rfl⟩
    (by
      intro k d hk1 hk2 ⟨hl, ih1, ih2⟩
      unfold copySlot
      have hv : d[unconverged - 1 - nex]? = some (degAt d1 (unconverged - 1 - nex)) := by
        have h0 := ih1 (unconverged - 1 - nex) (by omega)
        rw [if_pos (by omega)] at h0
        rw [List.getElem?_eq_getElem (show unconverged - 1 - nex < d.length by omega)]
        unfold degAt at h0
        rw [List.getElem?_eq_getElem (show unconverged - 1 - nex < d.length by omega)] at h0
        exact congrArg some h0
      rw [hv]
      simp only
      refine ⟨by rw [List.length_set, hl], ?_, ?_⟩
      · intro i hi
        rw [degAt_set]
        by_cases hik : k = i
        · subst hik
          rw [if_pos ⟨rfl, by omega⟩, if_neg (by omega)]
        · rw [if_neg (fun h => hik h.1)]
          exact ih1 i (by omega)
      · intro i hi
        rw [degAt_set, if_neg (fun h => by omega)]
        exact ih2 i (by omega))
  exact ⟨key.1, key.2.1⟩

/-- Lines 63-65 replace every slot `d` below `n` by `d + d % 2`. -/
theorem evenLoop_exact (n : Nat) (d2 : List Nat) :
    (forRange 0 n evenSlot d2).length = d2.length ∧
    ∀ i, i < n →
      degAt (forRange 0 n evenSlot d2) i = uadd (degAt d2 i) (degAt d2 i % 2) := by
  have hzero : uadd 0 (0 % 2) = 0 := by decide
  have key := forRange_invariant
    (fun k d => d.length = d2.length ∧
      (∀ i, i < k → degAt d i = uadd (degAt d2 i) (degAt d2 i % 2)) ∧
      (∀ i, k ≤ i → degAt d i = degAt d2 i))
    (Nat.zero_le n) evenSlot d2
    ⟨rfl, fun i hi => by omega, fun _ _ => rfl⟩
    (by
      intro k d _ _ ⟨hl, ih1, ih2⟩
      unfold evenSlot
      split
      · rename_i v hv
        have hklen : k < d.length := (List.getElem?_eq_some.mp hv).1
        have hvk : v = degAt d2 k := by
          rw [← ih2 k (Nat.le_refl k), degAt_of_getElem? hv]
        refine ⟨by rw [List.length_set, hl], ?_, ?_⟩
        · intro i hi
          rw [degAt_set]
          by_cases hik : k = i
          · subst hik
            rw [if_pos ⟨rfl, hklen⟩, hvk]
          · rw [if_neg (fun h => hik h.1)]
            exact ih1 i (by omega)
        · intro i hi
          rw [degAt_set, if_neg (fun h => by omega)]
          exact ih2 i (by omega)
      · rename_i hv
        refine ⟨hl, ?_, fun i hi => ih2 i (by omega)⟩
        intro i hi
        by_cases hik : k = i
        · subst hik
          have h0 : degAt d k = 0 := degAt_of_none hv
          have h1 : degAt d2 k = 0 := by rw [← ih2 k (Nat.le_refl k), h0]
          rw [h0, h1, hzero]
        · exact ih1 i (by omega))
  exact ⟨key.1, key.2.1⟩

/-- Before the sort the degrees are, slot by slot, those of the specification. -/
theorem computedDegrees_eq {α : Type} (est : α → α → Nat) (conf : ChASE_Config α)
    (unconverged nex : Nat) (ritzv resid : List α) (degrees : List Nat)
    (hn : nex < unconverged) (hr : ritzv.length = unconverged)
    (hs : resid.length = unconverged) (hd : degrees.length = unconverged) :
    computedDegrees est conf unconverged nex ritzv resid degrees
      = expectedDegrees est conf unconverged nex ritzv resid := by
  obtain ⟨a1, a2⟩ := degreeLoop_exact est conf (unconverged - nex) ritzv resid degrees
    (by omega) (by omega) (by omega)
  obtain ⟨b1, b2⟩ := copyLoop_exact unconverged nex
    (forRange 0 (unconverged - nex) (degreeSlot est conf ritzv resid) degrees) hn
    (by rw [a1]; omega)
  obtain ⟨c1, c2⟩ := evenLoop_exact unconverged
    (forRange (unconverged - nex) unconverged (copySlot unconverged nex)
      (forRange 0 (unconverged - nex) (degreeSlot est conf ritzv resid) degrees))
  have hlen : (computedDegrees est conf unconverged nex ritzv resid degrees).length
      = unconverged := by rw [computedDegrees_length, hd]
  have hlen2 : (expectedDegrees est conf unconverged nex ritzv resid).length
      = unconverged := by
    unfold expectedDegrees
    rw [List.length_append, List.length_map, List.length_range, List.length_replicate]
    omega
  apply List.ext_getElem?
  intro i
  by_cases hi : i < unconverged
  · have hval : degAt (computedDegrees est conf unconverged nex ritzv resid degrees) i
        = if i < unconverged - nex then roundedDegree est conf ritzv resid i
          else roundedDegree est conf ritzv resid (unconverged - nex - 1) := by
      unfold computedDegrees
      simp only
      rw [c2 i hi, b2 i hi]
      by_cases h : i < unconverged - nex
      · rw [if_pos h, if_pos h, a2 i h]
        rfl
      · rw [if_neg h, if_neg h, a2 _ (by omega)]
        have e : unconverged - 1 - nex = unconverged - nex - 1 := by omega
        rw [e]
        rfl
    rw [List.getElem?_eq_getElem (by omega), List.getElem?_eq_getElem (by omega)]
    congr 1
    have h1 : degAt (computedDegrees est conf unconverged nex ritzv resid degrees) i
        = (computedDegrees est conf unconverged nex ritzv resid degrees)[i] := by
      unfold degAt
      rw [List.getElem?_eq_getElem (by omega)]
      rfl
    rw [← h1, hval]
    unfold expectedDegrees
    by_cases h : i < unconverged - nex
    · rw [if_pos h, List.getElem_append_left (by
        rw [List.length_map, List.length_range]; exact h)]
      simp
    · rw [if_neg h, List.getElem_append_right (by
        rw [List.length_map, List.length_range]; omega)]
      simp
  · rw [List.getElem?_eq_none (by omega), List.getElem?_eq_none (by omega)]

theorem perm_symm_fix {n : Nat} {σ : Equiv.Perm Nat} (h : ∀ i, n ≤ i → σ i = i) :
    ∀ i, n ≤ i → σ.symm i = i := by
  intro i hi
  rw [Equiv.symm_apply_eq]
  exact (h i hi).symm

theorem ofFn_degAt (n : Nat) (a : List Nat) (ha : a.length = n) :
    List.ofFn (fun i : Fin n => degAt a i) = a := by
  apply List.ext_getElem (by rw [List.length_ofFn, ha])
  intro i h1 h2
  rw [List.getElem_ofFn]
  unfold degAt
  simp only
  rw [List.getElem?_eq_getElem h2]
  rfl

/-- Two lists of `n` numbers of which one is the other read through a
permutation of `0..n-1` hold the same numbers with the same multiplicities. -/
theorem perm_of_rearranged (n : Nat) (σ : Equiv.Perm Nat) (hfix : ∀ i, n ≤ i → σ i = i)
    (a b : List Nat) (ha : a.length = n) (hb : b.length = n)
    (h : ∀ i, b[i]? = a[σ i]?) : b.Perm a := by
  have hfix2 := perm_symm_fix hfix
  let τ : Equiv.Perm (Fin n) :=
    { toFun := fun i => ⟨σ i, perm_lt_of_fix hfix i.2⟩
      invFun := fun i => ⟨σ.symm i, perm_lt_of_fix hfix2 i.2⟩
      left_inv := fun i => Fin.ext (σ.symm_apply_apply i)
      right_inv := fun i => Fin.ext (σ.apply_symm_apply i) }
  have hb2 : b = List.ofFn ((fun i : Fin n => degAt a i) ∘ τ) := by
    rw [← ofFn_degAt n b hb]
    congr 1
    funext i
    show degAt b i = degAt a (σ i)
    unfold degAt
    rw [h]
  have ha2 : a = List.ofFn (fun i : Fin n => degAt a i) := (ofFn_degAt n a ha).symm
  rw [hb2]
  conv_rhs => rw [ha2]
  exact Equiv.Perm.ofFn_comp_perm τ _

/-- C27: for `unconverged > nex`, the degrees of `calc_degrees` before its sort
are the rounded degrees of the first `unconverged - nex` slots followed by `nex`
copies of the rounded degree of slot `unconverged - nex - 1`; the degrees on
return hold the same values with the same multiplicities, and the returned
value is one of them and at least as large as each of them. -/
theorem calc_degrees_buffer_slots {α γ : Type} (est : α → α → Nat) (conf : ChASE_Config α)
    (unconverged nex : Nat) (ritzv resid : List α) (degrees : List Nat) (cols : List γ)
    ( locked : Nat) (hn : nex < unconverged) (hr : ritzv.length = unconverged)
    (hs : resid.length = unconverged) (hd : degrees.length = unconverged)
    (hc : locked + unconverged ≤ cols.length) :
    computedDegrees est conf unconverged nex ritzv resid degrees
      = expectedDegrees est conf unconverged nex ritzv resid ∧
    (calc_degrees est conf unconverged nex ritzv resid degrees cols locked).2.degrees.Perm
      (expectedDegrees est conf unconverged nex ritzv resid) ∧
    (calc_degrees est conf unconverged nex ritzv resid degrees cols locked).1
      ∈ (calc_degrees est conf unconverged nex ritzv resid degrees cols locked).2.degrees ∧
    ∀ d, d ∈ (calc_degrees est conf unconverged nex ritzv resid degrees cols locked).2.degrees →
      d ≤ (calc_degrees est conf unconverged nex ritzv resid degrees cols locked).1 := by
  have hcd := computedDegrees_eq est conf unconverged nex ritzv resid degrees hn hr hs hd
  have hcl : (computedDegrees est conf unconverged nex ritzv resid degrees).length
      = unconverged := by rw [computedDegrees_length, hd]
  obtain ⟨σ, hfix, hre, -⟩ := calc_degrees_rearranged est conf unconverged nex ritzv resid
    degrees cols locked hr hs hd hc
  obtain ⟨hlen, hsorted⟩ := sortByDegree_sorted unconverged locked
    (⟨computedDegrees est conf unconverged nex ritzv resid degrees, ritzv, resid, cols⟩ :
      DegState α γ) hcl
  have hlen2 : (calc_degrees est conf unconverged nex ritzv resid degrees cols
      locked).2.degrees.length = unconverged := hlen
  have hret : (calc_degrees est conf unconverged nex ritzv resid degrees cols locked).1
      = degAt (calc_degrees est conf unconverged nex ritzv resid degrees cols
          locked).2.degrees (unconverged - 1) := by
    unfold calc_degrees degAt
    simp only [List.getD_eq_getElem?_getD]
  refine ⟨hcd, ?_, ?_, ?_⟩
  · rw [← hcd]
    exact perm_of_rearranged unconverged σ hfix _ _ hcl hlen2 (fun i => (hre i).1)
  · rw [hret]
    unfold degAt
    rw [List.getElem?_eq_getElem (show unconverged - 1 < _ by rw [hlen2]; omega)]
    exact List.getElem_mem _
  · intro d hdm
    obtain ⟨i, hi, rfl⟩ := List.getElem_of_mem hdm
    rw [hret]
    have := hsorted i (unconverged - 1) (by rw [hlen2] at hi; omega) (by omega)
    have e : degAt (calc_degrees est conf unconverged nex ritzv resid degrees cols
        locked).2.degrees i
        = (calc_degrees est conf unconverged nex ritzv resid degrees cols
          locked).2.degrees[i] := by
      unfold degAt
      rw [List.getElem?_eq_getElem hi]
      rfl
    rw [← e]
    exact this

/-- A run of C27: four slots, two of them buffer slots; the raw degrees of the
slots 0 and 1 are 9 and 1, so the degrees before the sort are
`[10, 2, 2, 2]`. -/
theorem calc_degrees_buffer_slots_witness :
    2 < 4 ∧
    expectedDegrees (fun t _ => t.toNat) (⟨1, 20, 10, 35, 0, 25, true⟩ : ChASE_Config Int)
      4 2 [9, 1, 5, 3] [0, 0, 1, 1] = [10, 2, 2, 2] ∧
    (computedDegrees (fun t _ => t.toNat) (⟨1, 20, 10, 35, 0, 25, true⟩ : ChASE_Config Int)
        4 2 [9, 1, 5, 3] [0, 0, 1, 1] [20, 20, 20, 20]
      = expectedDegrees (fun t _ => t.toNat) (⟨1, 20, 10, 35, 0, 25, true⟩ : ChASE_Config Int)
        4 2 [9, 1, 5, 3] [0, 0, 1, 1] ∧
    (calc_degrees (fun t _ => t.toNat) (⟨1, 20, 10, 35, 0, 25, true⟩ : ChASE_Config Int)
        4 2 [9, 1, 5, 3] [0, 0, 1, 1] [20, 20, 20, 20] [6, 7, 8, 9, 10] 1).2.degrees.Perm
      (expectedDegrees (fun t _ => t.toNat) (⟨1, 20, 10, 35, 0, 25, true⟩ : ChASE_Config Int)
        4 2 [9, 1, 5, 3] [0, 0, 1, 1]) ∧
    (calc_degrees (fun t _ => t.toNat) (⟨1, 20, 10, 35, 0, 25, true⟩ : ChASE_Config Int)
        4 2 [9, 1, 5, 3] [0, 0, 1, 1] [20, 20, 20, 20] [6, 7, 8, 9, 10] 1).1
      ∈ (calc_degrees (fun t _ => t.toNat) (⟨1, 20, 10, 35, 0, 25, true⟩ : ChASE_Config Int)
        4 2 [9, 1, 5, 3] [0, 0, 1, 1] [20, 20, 20, 20] [6, 7, 8, 9, 10] 1).2.degrees ∧
    ∀ d, d ∈ (calc_degrees (fun t _ => t.toNat)
        (⟨1, 20, 10, 35, 0, 25, true⟩ : ChASE_Config Int)
        4 2 [9, 1, 5, 3] [0, 0, 1, 1] [20, 20, 20, 20] [6, 7, 8, 9, 10] 1).2.degrees →
      d ≤ (calc_degrees (fun t _ => t.toNat) (⟨1, 20, 10, 35, 0, 25, true⟩ : ChASE_Config Int)
        4 2 [9, 1, 5, 3] [0, 0, 1, 1] [20, 20, 20, 20] [6, 7, 8, 9, 10] 1).1) := by
  have h := calc_degrees_buffer_slots (fun t _ => t.toNat)
    (⟨1, 20, 10, 35, 0, 25, true⟩ : ChASE_Config Int)
    4 2 [9, 1, 5, 3] [0, 0, 1, 1] [20, 20, 20, 20] [6, 7, 8, 9, 10] 1
    (by decide) rfl rfl rfl (by decide)
  exact ⟨by decide, by decide, h⟩

/-! ## `filter`: the read behind the degrees -/

/-- C28: one vector of degree 2, `deg = 2`, and a zero in the memory word behind
the degree.  After the second multiplication the drop loop drops the vector
(`unprocessed` becomes 0), reads `degrees[1]`, which is outside the window
`degrees[0..0]`, finds `0 <= num_mult`, counts `unprocessed` down to `2^64 - 1`
and reads on; the test `unprocessed >= 0` never stops it.  With a 7 behind the
degree the loop still reads `degrees[1]`. -/
theorem filter_reads_behind_degrees :
    (filter 10 1 2 [2, 0] (0 : ℚ) 2 10).reads = [0, 0, 1, 2] ∧
    (filter 10 1 2 [2, 0] (0 : ℚ) 2 10).unprocessed = 18446744073709551615 ∧
    (filter 10 1 2 [2, 0] (0 : ℚ) 2 10).fault = true ∧
    (filter 10 1 2 [2, 7] (0 : ℚ) 2 10).reads = [0, 0, 1] ∧
    (filter 10 1 2 [2, 7] (0 : ℚ) 2 10).unprocessed = 0 := by
  refine ⟨?_, ?_, ?_, ?_, ?_⟩ <;> with_unfolding_all decide

/-! ## `postApplication`: where the gathered columns are written -/

/-- C29: `N_ = 4`, `n_ = m_ = 2`.  After `preApplication(V, 2, 1)` the call
`postApplication(V, 3, 0)`, which `hhQR` makes with `nevex = 3`, reads `C_` from
column 0 over the column communicator and writes `V` from entry `2 * 4 = 8`,
that is from column 2, the value of `locked_` that `preApplication` stored,
and not from column 0, its own `locked` argument.  After one `apply` it reads
`B_` over the row communicator and writes at the same place. -/
theorem postApplication_writes_at_stale_locked :
    ChaseMpiDLA.postApplication 4 2 2 3 0
        (ChaseMpiDLA.preApplication 2 (⟨NextOp.cAb, 0, []⟩ : MultState Int))
      = { buf := Buffer.C, buffStart := 0, targetStart := 8, dimsIdx := 0
          comm := Comm.col_comm, block := 3 } ∧
    ChaseMpiDLA.postApplication 4 2 2 3 0
        (ChaseMpiDLA.apply 2 2 1 0 0 1 2
          (ChaseMpiDLA.preApplication 2 (⟨NextOp.cAb, 0, []⟩ : MultState Int)))
      = { buf := Buffer.B, buffStart := 0, targetStart := 8, dimsIdx := 1
          comm := Comm.row_comm, block := 3 } := by
  constructor <;> decide

/-! ## The redistribution plan: segments that tile `0..N-1` -/

theorem succ_mod_ne (q cs : Nat) (h : (q + 1) % cs = q % cs) : cs = 1 := by
  rcases Nat.lt_or_ge cs 2 with h2 | h2
  · rcases Nat.eq_zero_or_pos cs with h0 | h0
    · subst h0
      simp only [Nat.mod_zero] at h
      omega
    · omega
  · exfalso
    have hpos : 0 < cs := by omega
    have ht := Nat.mod_lt q hpos
    rw [Nat.add_mod, Nat.mod_eq_of_lt (show 1 < cs by omega)] at h
    by_cases hc : q % cs + 1 < cs
    · rw [Nat.mod_eq_of_lt hc] at h
      omega
    · have e : q % cs + 1 = cs := by omega
      rw [e, Nat.mod_self] at h
      omega

/-- The block-cyclic local index of `g + 1` follows that of `g` when both
global indices have the same owner. -/
theorem local_index_succ (mb cs g : Nat) (hmb : 1 ≤ mb)
    (h : ((g + 1) / mb) % cs = (g / mb) % cs) :
    (g + 1) % mb + (((g + 1) / mb) / cs) * mb = g % mb + ((g / mb) / cs) * mb + 1 := by
  have hpos : 0 < mb := hmb
  have hg := Nat.div_add_mod g mb
  have hr := Nat.mod_lt g hpos
  by_cases hc : g % mb + 1 < mb
  · have e : g + 1 = mb * (g / mb) + (g % mb + 1) := by omega
    have hd : (g + 1) / mb = g / mb := by
      rw [e, Nat.mul_add_div hpos, Nat.div_eq_of_lt hc, Nat.add_zero]
    have hm : (g + 1) % mb = g % mb + 1 := by
      rw [e, Nat.mul_add_mod, Nat.mod_eq_of_lt hc]
    rw [hd, hm]
    omega
  · have e : g + 1 = mb * (g / mb + 1) + 0 := by
      rw [Nat.mul_add, Nat.mul_one]; omega
    have hd : (g + 1) / mb = g / mb + 1 := by
      have := Nat.mul_add_div hpos (g / mb + 1) 0
      rw [← e] at this
      rw [this, Nat.zero_div, Nat.add_zero]
    have hm : (g + 1) % mb = 0 := by
      have := Nat.mul_add_mod mb (g / mb + 1) 0
      rw [← e] at this
      rw [this, Nat.zero_mod]
    rw [hd] at h
    have hcs := succ_mod_ne _ _ h
    subst hcs
    rw [hd, hm, Nat.div_one, Nat.div_one, Nat.add_mul, Nat.one_mul]
    omega

theorem SegOK_extend {mb nb rs cs start len src dest bdisp cdisp : Nat}
    (hmb : 1 ≤ mb) (hnb : 1 ≤ nb)
    (h : SegOK mb nb rs cs start len src dest bdisp cdisp)
    (hs : ((start + len) / mb) % cs = src) (hd : ((start + len) / nb) % rs = dest) :
    SegOK mb nb rs cs start (len + 1) src dest bdisp cdisp := by
  obtain ⟨hpos, hall⟩ := h
  refine ⟨Nat.succ_pos _, ?_⟩
  intro j hj
  by_cases hjl : j < len
  · exact hall j hjl
  · have hjeq : j = len := by omega
    subst hjeq
    obtain ⟨p1, p2, p3, p4⟩ := hall (j - 1) (by omega)
    have e : start + (j - 1) + 1 = start + j := by omega
    have c3 := local_index_succ mb cs (start + (j - 1)) hmb (by rw [e, hs, p1])
    have c4 := local_index_succ nb rs (start + (j - 1)) hnb (by rw [e, hd, p2])
    rw [e] at c3 c4
    exact ⟨hs, hd, by omega, by omega⟩

theorem SegOK_single (mb nb rs cs i : Nat) :
    SegOK mb nb rs cs i 1 ((i / mb) % cs) ((i / nb) % rs)
      (i % nb + ((i / nb) / rs) * nb) (i % mb + ((i / mb) / cs) * mb) := by
  refine ⟨Nat.one_pos, ?_⟩
  intro j hj
  have : j = 0 := by omega
  subst this
  exact ⟨rfl, rfl, rfl, rfl⟩

/-- One pass of the plan loop keeps the invariant. -/
theorem planStep_inv (mb nb rs cs i : Nat) (s : PlanState) (hmb : 1 ≤ mb) (hnb : 1 ≤ nb)
    (h : PlanInv mb nb rs cs i s) : PlanInv mb nb rs cs (i + 1) (planStep mb nb rs cs i s) := by
  obtain ⟨l1, l2, l3, l4, hsum, hclosed, hsrc, hdest, hopen⟩ := h
  unfold planStep
  simp only
  by_cases hc : (i / nb) % rs = s.c_dest ∧ (i / mb) % cs = s.c_src
  · rw [if_pos hc]
    refine ⟨l1, l2, l3, l4, by show s.plan.c_lens.sum + (s.c_len + 1) = i + 1; omega,
      hclosed, hsrc, hdest, ?_⟩
    exact SegOK_extend hmb hnb hopen (by rw [hsum]; exact hc.2) (by rw [hsum]; exact hc.1)
  · rw [if_neg hc]
    refine ⟨?_, ?_, ?_, ?_, ?_, ?_, ?_, ?_, ?_⟩
    · simp only [List.length_append, List.length_singleton]; omega
    · simp only [List.length_append, List.length_singleton]; omega
    · simp only [List.length_append, List.length_singleton]; omega
    · simp only [List.length_append, List.length_singleton]; omega
    · show (s.plan.c_lens ++ [s.c_len]).sum + 1 = i + 1
      rw [List.sum_append, List.sum_singleton]; omega
    · intro k hk
      simp only [List.length_append, List.length_singleton] at hk
      show SegOK mb nb rs cs ((s.plan.c_lens ++ [s.c_len]).take k).sum
        ((s.plan.c_lens ++ [s.c_len]).getD k 0)
        ((s.plan.c_srcs ++ [(i / mb) % cs]).getD k 0)
        ((s.plan.c_dests ++ [(i / nb) % rs]).getD k 0)
        ((s.plan.b_disps ++ [i % nb + ((i / nb) / rs) * nb]).getD k 0)
        ((s.plan.c_disps ++ [i % mb + ((i / mb) / cs) * mb]).getD k 0)
      rw [List.take_append_of_le_length (show k ≤ s.plan.c_lens.length by omega),
        List.getD_append s.plan.c_srcs _ _ k (by omega),
        List.getD_append s.plan.c_dests _ _ k (by omega),
        List.getD_append s.plan.b_disps _ _ k (by omega),
        List.getD_append s.plan.c_disps _ _ k (by omega)]
      by_cases hk2 : k < s.plan.c_lens.length
      · rw [List.getD_append s.plan.c_lens _ _ k hk2]
        exact hclosed k hk2
      · have hk3 : k = s.plan.c_lens.length := by omega
        subst hk3
        rw [List.getD_append_right _ _ _ _ (Nat.le_refl _), Nat.sub_self, List.take_length,
          hsrc, hdest]
        exact hopen
    · show (s.plan.c_srcs ++ [(i / mb) % cs]).getD (s.plan.c_lens ++ [s.c_len]).length 0 = _
      rw [List.length_append, List.length_singleton,
        List.getD_append_right _ _ _ _ (by omega), l2, Nat.sub_self]
      rfl
    · show (s.plan.c_dests ++ [(i / nb) % rs]).getD (s.plan.c_lens ++ [s.c_len]).length 0 = _
      rw [List.length_append, List.length_singleton,
        List.getD_append_right _ _ _ _ (by omega), l1, Nat.sub_self]
      rfl
    · show SegOK mb nb rs cs (s.plan.c_lens ++ [s.c_len]).sum 1 ((i / mb) % cs)
        ((i / nb) % rs)
        ((s.plan.b_disps ++ [i % nb + ((i / nb) / rs) * nb]).getD
          (s.plan.c_lens ++ [s.c_len]).length 0)
        ((s.plan.c_disps ++ [i % mb + ((i / mb) / cs) * mb]).getD
          (s.plan.c_lens ++ [s.c_len]).length 0)
      rw [List.length_append, List.length_singleton,
        List.getD_append_right _ _ _ _ (by omega),
        List.getD_append_right _ _ _ _ (by omega), l3, l4, Nat.sub_self,
        List.sum_append, List.sum_singleton, hsum]
      exact SegOK_single mb nb rs cs i

/-- C30: with the source offsets 0, `N ≥ 1` and block sizes `mb, nb ≥ 1`, the
plan of the branch `!isSameDist_` tiles the global indices `0..N-1` in order:
the five vectors have the same length, every entry of `c_lens` is positive and
they sum to `N`, and in segment `k`, which starts at the sum of the lengths
before it, the global index number `j` has the source `c_srcs[k]`
(`(g / mb) mod col_size`), the destination `c_dests[k]`
(`(g / nb) mod row_size`), and the block-cyclic local indices `c_disps[k] + j`
and `b_disps[k] + j`. -/
theorem redistPlan_tiles (N mb nb row_size col_size : Nat) (hN : 1 ≤ N) (hmb : 1 ≤ mb)
    (hnb : 1 ≤ nb) :
    (redistPlan N mb nb row_size col_size 0 0).c_dests.length
      = (redistPlan N mb nb row_size col_size 0 0).c_lens.length ∧
    (redistPlan N mb nb row_size col_size 0 0).c_srcs.length
      = (redistPlan N mb nb row_size col_size 0 0).c_lens.length ∧
    (redistPlan N mb nb row_size col_size 0 0).b_disps.length
      = (redistPlan N mb nb row_size col_size 0 0).c_lens.length ∧
    (redistPlan N mb nb row_size col_size 0 0).c_disps.length
      = (redistPlan N mb nb row_size col_size 0 0).c_lens.length ∧
    (∀ l, l ∈ (redistPlan N mb nb row_size col_size 0 0).c_lens → 0 < l) ∧
    (redistPlan N mb nb row_size col_size 0 0).c_lens.sum = N ∧
    ∀ k, k < (redistPlan N mb nb row_size col_size 0 0).c_lens.length →
      ∀ j, j < (redistPlan N mb nb row_size col_size 0 0).c_lens.getD k 0 →
        ((((redistPlan N mb nb row_size col_size 0 0).c_lens.take k).sum + j) / mb) % col_size
          = (redistPlan N mb nb row_size col_size 0 0).c_srcs.getD k 0 ∧
        ((((redistPlan N mb nb row_size col_size 0 0).c_lens.take k).sum + j) / nb) % row_size
          = (redistPlan N mb nb row_size col_size 0 0).c_dests.getD k 0 ∧
        (((redistPlan N mb nb row_size col_size 0 0).c_lens.take k).sum + j) % mb
          + (((((redistPlan N mb nb row_size col_size 0 0).c_lens.take k).sum + j) / mb)
            / col_size) * mb
          = (redistPlan N mb nb row_size col_size 0 0).c_disps.getD k 0 + j ∧
        (((redistPlan N mb nb row_size col_size 0 0).c_lens.take k).sum + j) % nb
          + (((((redistPlan N mb nb row_size col_size 0 0).c_lens.take k).sum + j) / nb)
            / row_size) * nb
          = (redistPlan N mb nb row_size col_size 0 0).b_disps.getD k 0 + j := by
  have h0 : PlanInv mb nb row_size col_size 1
      ({ c_dest := 0, c_src := 0, c_len := 1, b_disp := 0, c_disp := 0
         plan :=
          { c_dests := [0], c_srcs := [0], c_lens := []
            b_disps := [0], c_disps := [0] } } : PlanState) := by
    refine ⟨rfl, rfl, rfl, rfl, rfl, fun k hk => absurd hk (Nat.not_lt_zero k), rfl, rfl,
      Nat.one_pos, ?_⟩
    intro j hj
    have hj1 : j < 1 := hj
    have : j = 0 := by omega
    subst this
    simp
  have key := forRange_invariant (PlanInv mb nb row_size col_size) hN
    (planStep mb nb row_size col_size) _ h0
    (fun i t _ _ hinv => planStep_inv mb nb row_size col_size i t hmb hnb hinv)
  obtain ⟨S, hS⟩ : ∃ S : PlanState, S = forRange 1 N (planStep mb nb row_size col_size)
      ({ c_dest := 0, c_src := 0, c_len := 1, b_disp := 0, c_disp := 0
         plan :=
          { c_dests := [0], c_srcs := [0], c_lens := []
            b_disps := [0], c_disps := [0] } } : PlanState) := ⟨_, rfl⟩
  rw [← hS] at key
  have hP : redistPlan N mb nb row_size col_size 0 0
      = { S.plan with c_lens := S.plan.c_lens ++ [S.c_len] } := by
    rw [hS]; rfl
  obtain ⟨l1, l2, l3, l4, hsum, hclosed, hsrc, hdest, hopen⟩ := key
  have hseg : ∀ k, k < (S.plan.c_lens ++ [S.c_len]).length →
      SegOK mb nb row_size col_size ((S.plan.c_lens ++ [S.c_len]).take k).sum
        ((S.plan.c_lens ++ [S.c_len]).getD k 0) (S.plan.c_srcs.getD k 0)
        (S.plan.c_dests.getD k 0) (S.plan.b_disps.getD k 0) (S.plan.c_disps.getD k 0) := by
    intro k hk
    simp only [List.length_append, List.length_singleton] at hk
    rw [List.take_append_of_le_length (show k ≤ S.plan.c_lens.length by omega)]
    by_cases hk2 : k < S.plan.c_lens.length
    · rw [List.getD_append S.plan.c_lens _ _ k hk2]
      exact hclosed k hk2
    · have hk3 : k = S.plan.c_lens.length := by omega
      subst hk3
      rw [List.getD_append_right _ _ _ _ (Nat.le_refl _), Nat.sub_self, List.take_length,
        hsrc, hdest]
      exact hopen
  rw [hP]
  refine ⟨?_, ?_, ?_, ?_, ?_, ?_, ?_⟩
  · show S.plan.c_dests.length = (S.plan.c_lens ++ [S.c_len]).length
    rw [List.length_append, List.length_singleton, l1]
  · show S.plan.c_srcs.length = (S.plan.c_lens ++ [S.c_len]).length
    rw [List.length_append, List.length_singleton, l2]
  · show S.plan.b_disps.length = (S.plan.c_lens ++ [S.c_len]).length
    rw [List.length_append, List.length_singleton, l3]
  · show S.plan.c_disps.length = (S.plan.c_lens ++ [S.c_len]).length
    rw [List.length_append, List.length_singleton, l4]
  · intro l hl
    have hl2 : l ∈ S.plan.c_lens ++ [S.c_len] := hl
    obtain ⟨k, hk, rfl⟩ := List.getElem_of_mem hl2
    have := (hseg k hk).1
    rw [List.getD_eq_getElem _ _ hk] at this
    exact this
  · show (S.plan.c_lens ++ [S.c_len]).sum = N
    rw [List.sum_append, List.sum_singleton, hsum]
  · intro k hk j hj
    exact (hseg k hk).2 j hj

/-- A run of C30: `N = 6`, `mb = 2`, `nb = 3` on a `2 × 2` grid; the plan has the
four segments `0..1`, `2`, `3` and `4..5`. -/
theorem redistPlan_tiles_witness :
    1 ≤ 6 ∧ 1 ≤ 2 ∧ 1 ≤ 3 ∧
    redistPlan 6 2 3 2 2 0 0
      = { c_dests := [0, 0, 1, 1], c_srcs := [0, 1, 1, 0], c_lens := [2, 1, 1, 2]
          b_disps := [0, 2, 0, 1], c_disps := [0, 0, 1, 2] } ∧
    ((redistPlan 6 2 3 2 2 0 0).c_dests.length = (redistPlan 6 2 3 2 2 0 0).c_lens.length ∧
    (redistPlan 6 2 3 2 2 0 0).c_srcs.length = (redistPlan 6 2 3 2 2 0 0).c_lens.length ∧
    (redistPlan 6 2 3 2 2 0 0).b_disps.length = (redistPlan 6 2 3 2 2 0 0).c_lens.length ∧
    (redistPlan 6 2 3 2 2 0 0).c_disps.length = (redistPlan 6 2 3 2 2 0 0).c_lens.length ∧
    (∀ l, l ∈ (redistPlan 6 2 3 2 2 0 0).c_lens → 0 < l) ∧
    (redistPlan 6 2 3 2 2 0 0).c_lens.sum = 6 ∧
    ∀ k, k < (redistPlan 6 2 3 2 2 0 0).c_lens.length →
      ∀ j, j < (redistPlan 6 2 3 2 2 0 0).c_lens.getD k 0 →
        ((((redistPlan 6 2 3 2 2 0 0).c_lens.take k).sum + j) / 2) % 2
          = (redistPlan 6 2 3 2 2 0 0).c_srcs.getD k 0 ∧
        ((((redistPlan 6 2 3 2 2 0 0).c_lens.take k).sum + j) / 3) % 2
          = (redistPlan 6 2 3 2 2 0 0).c_dests.getD k 0 ∧
        (((redistPlan 6 2 3 2 2 0 0).c_lens.take k).sum + j) % 2
          + (((((redistPlan 6 2 3 2 2 0 0).c_lens.take k).sum + j) / 2) / 2) * 2
          = (redistPlan 6 2 3 2 2 0 0).c_disps.getD k 0 + j ∧
        (((redistPlan 6 2 3 2 2 0 0).c_lens.take k).sum + j) % 3
          + (((((redistPlan 6 2 3 2 2 0 0).c_lens.take k).sum + j) / 3) / 2) * 3
          = (redistPlan 6 2 3 2 2 0 0).b_disps.getD k 0 + j) := by
  have h := redistPlan_tiles 6 2 3 2 2 (by decide) (by decide) (by decide)
  exact ⟨by decide, by decide, by decide, by decide, h⟩

end ChASE
